import Mathlib

/-!
# JobEasyO: the matching and recommendation core

A shallow embedding of the two algorithmic services of the repository,

* `services/job-search/index.js` (class `JobMatchingEngine`), and
* `services/role-suggestion/index.js` (classes `SkillAnalysisEngine` and
  `RoleRecommendationEngine`),

followed by the properties proved about them.

Conventions of the embedding.

* JavaScript numbers are rationals (`ℚ`); values that the code only ever
  produces as integers (`Math.round`, array lengths, counters) are `ℤ` or `ℕ`.
  In `services/role-suggestion` the operators `+`, `-`, `*` and `/` on numbers
  round their exact result to the nearest IEEE 754 double, the one with an even
  significand at a tie (`toDouble`), and a literal such as `0.7` is the nearest
  double. Overflow to `Infinity` is left out, and `NaN` is `none` where the
  program can return it. In `services/job-search` the weights that `natural`
  reports are a parameter with rational values, and the score is computed from
  them exactly.
* A property that may be `undefined` is an `Option`; a JavaScript truthiness
  test on it is written with `truthy`.
* `String.prototype.toLowerCase` belongs to the JavaScript engine and is a
  parameter, the class `CaseMapping`: a theorem with the binder `[CaseMapping]`
  holds for every case mapping with the three properties listed there, which
  the case conversion of Unicode has. The examples, whose texts are ASCII, are
  evaluated with the ASCII case mapping.
* The `TfIdf` class of the third-party package `natural` is not part of the
  repository. A `TfIdf` object is the list of the documents added to it, and
  the number `tfidf(term, d)` it reports is a parameter `μ` of the embedding:
  a function of that list, the term and the document index.
* The MongoDB collections are lists of records, in storage order. A Mongoose
  document is the record of its schema fields: reading a property gives the
  field. Spreading a document does not: the spread copies the own properties of
  the document, which are internal to Mongoose, and neither the schema fields,
  which are accessors of the prototype, nor the methods. The method `toObject`
  of a document belongs to Mongoose; what a call of it does is a parameter of
  the embedding and may throw.
* A method that can throw returns an `Except`; a method in which nothing can
  throw, once its queries have returned, is a total function.
-/

namespace JobEasyO

/-! ## JavaScript strings -/

/-- The case mapping of the JavaScript engine behind
`String.prototype.toLowerCase`. The engine applies the default case conversion
of Unicode, which is not part of the repository: the mapping is a parameter.
Three facts about it are used: on a text of ASCII characters it turns the
letters A to Z into a to z and leaves every other character as it is; its
result holds no letter A to Z; and only the empty text is mapped to the empty
text. -/
class CaseMapping where
  /-- The lower-cased text. -/
  lower : String → String
  lower_ascii : ∀ s : String, (∀ c ∈ s.data, c.toNat < 128) →
    lower s = String.mk (s.data.map Char.toLower)
  lower_not_upper : ∀ (s : String) (c : Char), c ∈ (lower s).data → c.isUpper = false
  lower_eq_empty : ∀ s : String, lower s = "" → s = ""

/-- The ASCII case mapping, with which the examples are evaluated. The texts of
the examples are ASCII, on which every case mapping is this one. -/
instance asciiCase : CaseMapping where
  lower s := String.mk (s.data.map Char.toLower)
  lower_ascii _ _ := rfl
  lower_not_upper := by
    intro s c hc
    obtain ⟨d, -, rfl⟩ := List.mem_map.mp hc
    have hupper : ∀ e : Char, e.isUpper = true ↔ 65 ≤ e.toNat ∧ e.toNat ≤ 90 := by
      intro e
      simp only [Char.isUpper, Bool.and_eq_true, decide_eq_true_eq, ge_iff_le, UInt32.le_def,
        Char.toNat, BitVec.le_def, UInt32.toNat]
      exact Iff.rfl
    rw [Bool.eq_false_iff, Ne, hupper]
    unfold Char.toLower
    simp only
    by_cases h : d.toNat ≥ 65 ∧ d.toNat ≤ 90
    · have hcode : ∀ n : ℕ, n < 55296 → (Char.ofNat n).toNat = n := by
        intro n hn
        have hv : n.isValidChar := Or.inl hn
        simp only [Char.ofNat, hv, dite_true, Char.ofNatAux, Char.toNat, UInt32.toNat,
          BitVec.toNat_ofNatLt]
      rw [if_pos h, hcode _ (by omega)]
      omega
    · rw [if_neg h]
      exact h
  lower_eq_empty := by
    intro s hs
    have h : s.data.map Char.toLower = [] := congrArg String.data hs
    rw [List.map_eq_nil_iff] at h
    exact String.ext h

/-- The method `String.prototype.toLowerCase`. -/
def toLowerCase [CaseMapping] (s : String) : String :=
  CaseMapping.lower s

/-- The regular-expression class `\w`: ASCII letters, digits and underscore. -/
def isWordChar (c : Char) : Bool :=
  c.isAlphanum || c == '_'

/-- The regular-expression class `\s`: the white space and line terminator
code points of ECMAScript. -/
def isSpaceChar (c : Char) : Bool :=
  let n := c.toNat
  (9 ≤ n && n ≤ 13) || n == 32 || n == 160 || n == 5760 || (8192 ≤ n && n ≤ 8202) ||
    n == 8232 || n == 8233 || n == 8239 || n == 8287 || n == 12288 || n == 65279

/-- The call `.replace(/[^\w\s]/g, ' ')`. -/
def replaceNonWord (cs : List Char) : List Char :=
  cs.map fun c => if isWordChar c || isSpaceChar c then c else ' '

/-- The call `.replace(/\s+/g, ' ')`: every maximal run of white space becomes
one space (emitted at the last character of the run). -/
def collapseSpaces : List Char → List Char
  | [] => []
  | c :: cs =>
    if isSpaceChar c then
      match cs with
      | [] => [' ']
      | d :: _ => if isSpaceChar d then collapseSpaces cs else ' ' :: collapseSpaces cs
    else c :: collapseSpaces cs

/-- The method `String.prototype.trim`. -/
def trim (cs : List Char) : List Char :=
  ((cs.dropWhile isSpaceChar).reverse.dropWhile isSpaceChar).reverse

/-- The call `.split(' ')` on a list of characters. -/
def splitOnSpace : List Char → List (List Char)
  | [] => [[]]
  | c :: cs =>
    if c = ' ' then [] :: splitOnSpace cs
    else
      match splitOnSpace cs with
      | [] => [[c]]
      | w :: ws => (c :: w) :: ws

/-- The call `.split(' ')`. -/
def split (s : String) : List String :=
  (splitOnSpace s.data).map String.mk

/-- The call `array.join(' ')` on an array of strings. -/
def join (xs : List String) : String :=
  " ".intercalate xs

/-- The method `String.prototype.includes`: `needle` occurs in `hay`. -/
def includes (hay needle : String) : Bool :=
  hay.data.tails.any fun t => needle.data.isPrefixOf t

/-- Truthiness of a possibly undefined string: defined and not empty. -/
def truthy : Option String → Bool
  | some s => s != ""
  | none => false

/-- The operator `a || b` on possibly undefined strings. -/
def orElse (a b : Option String) : Option String :=
  if truthy a then a else b

/-- A possibly undefined value inside a template literal. -/
def render : Option String → String
  | some s => s
  | none => "undefined"

/-- The function `Math.round`: the nearest integer, halves going up. -/
def mathRound (x : ℚ) : ℤ :=
  ⌊x + 1 / 2⌋

/-! ## JavaScript numbers as IEEE 754 doubles -/

/-- The integer nearest to `x`, and the even one of the two when `x` lies
halfway between two integers. -/
def roundHalfEven (x : ℚ) : ℤ :=
  if x - ⌊x⌋ < 1 / 2 then ⌊x⌋
  else if 1 / 2 < x - ⌊x⌋ then ⌊x⌋ + 1
  else if ⌊x⌋ % 2 = 0 then ⌊x⌋ else ⌊x⌋ + 1

/-- The power `2 ^ k` for an integer `k`. -/
def pow2 (k : ℤ) : ℚ :=
  if 0 ≤ k then ((2 ^ k.toNat : ℕ) : ℚ) else 1 / ((2 ^ (-k).toNat : ℕ) : ℚ)

/-- The number of binary digits of `n`, computed in at most `fuel` halvings;
`bitLength n n` is the number of binary digits of `n`. -/
def bitLength : ℕ → ℕ → ℕ
  | 0, _ => 0
  | fuel + 1, n => if n = 0 then 0 else bitLength fuel (n / 2) + 1

/-- The binary exponent of a number that is not 0: the integer `e` with
`2 ^ e ≤ |x| < 2 ^ (e + 1)`. -/
def binaryExponent (x : ℚ) : ℤ :=
  if pow2 ((bitLength x.num.natAbs x.num.natAbs : ℤ) - (bitLength x.den x.den : ℤ)) ≤ |x| then
    (bitLength x.num.natAbs x.num.natAbs : ℤ) - (bitLength x.den x.den : ℤ)
  else (bitLength x.num.natAbs x.num.natAbs : ℤ) - (bitLength x.den x.den : ℤ) - 1

/-- The double nearest to `x`, the one with an even significand when `x` lies
halfway between two doubles: a multiple of `2 ^ (e - 52)`, where `e` is the
binary exponent of `x`, and of `2 ^ (-1074)` for the subnormal numbers, below
`2 ^ (-1022)`. The exponent has no upper bound here: overflow to `Infinity`,
above `2 ^ 1024`, is left out. -/
def toDouble (x : ℚ) : ℚ :=
  if x = 0 then 0
  else roundHalfEven (x / pow2 (max (binaryExponent x) (-1022) - 52)) *
    pow2 (max (binaryExponent x) (-1022) - 52)

/-- The operator `a + b` on numbers. -/
def fadd (a b : ℚ) : ℚ :=
  toDouble (a + b)

/-- The operator `a - b` on numbers. -/
def fsub (a b : ℚ) : ℚ :=
  toDouble (a - b)

/-- The operator `a * b` on numbers. -/
def fmul (a b : ℚ) : ℚ :=
  toDouble (a * b)

/-- The operator `a / b` on numbers, for a divisor that is not 0. -/
def fdiv (a b : ℚ) : ℚ :=
  toDouble (a / b)

/-! ## `services/job-search`: records -/

/-- The fields of a job posting (`jobSchema`) that the matching engine reads. -/
structure Job where
  title : String
  company : String
  location : Option String
  description : Option String
  requirements : List String
  remote : Bool
  employmentType : Option String
  deriving DecidableEq, Repr

/-- An entry of `userProfile.skills`. -/
structure Skill where
  name : String
  deriving DecidableEq, Repr

/-- The object `userProfile.basic.location`. -/
structure Location where
  city : Option String
  state : Option String
  country : Option String
  deriving DecidableEq, Repr

/-- The object `userProfile.basic`. -/
structure Basic where
  location : Option Location
  deriving DecidableEq, Repr

/-- The object `userProfile.preferences`. -/
structure Preferences where
  remoteWork : Bool
  employmentTypes : Option (List String)
  deriving DecidableEq, Repr

/-- The object `userProfile.professional`. -/
structure Professional where
  desiredTitles : Option (List String)
  deriving DecidableEq, Repr

/-- The user profile sent with a search request. -/
structure UserProfile where
  basic : Option Basic
  preferences : Option Preferences
  professional : Option Professional
  skills : Option (List Skill)
  deriving DecidableEq, Repr

/-! ## `services/job-search`: the scorer of `natural` -/

/-- A `TfIdf` object: the documents added so far, oldest first. -/
structure TfIdf where
  documents : List String
  deriving DecidableEq, Repr

/-- The number `tfidf(term, d)` that a `TfIdf` holding the given documents
reports for a term and a document index. -/
abbrev Measure := List String → String → ℕ → ℚ

/-- The expression `new TfIdf()`. -/
def TfIdf.empty : TfIdf :=
  ⟨[]⟩

/-- The method `addDocument`. -/
def TfIdf.addDocument (self : TfIdf) (text : String) : TfIdf :=
  ⟨self.documents ++ [text]⟩

/-- The method `tfidf(term, d)`. -/
def TfIdf.tfidf (μ : Measure) (self : TfIdf) (term : String) (d : ℕ) : ℚ :=
  μ self.documents term d

/-! ## `services/job-search`: `JobMatchingEngine` -/

/-- The engine object: its only field is the scorer `this.tfidf`. -/
structure JobMatchingEngine where
  tfidf : TfIdf
  deriving DecidableEq, Repr

/-- The constructor of `JobMatchingEngine`. -/
def JobMatchingEngine.create : JobMatchingEngine :=
  ⟨TfIdf.empty⟩

/-- The method `preprocessText`. -/
def preprocessText [CaseMapping] (text : String) : String :=
  String.mk (trim (collapseSpaces (replaceNonWord (toLowerCase text).data)))

/-- The local `jobDocument` of `calculateMatchScore`. -/
def jobDocument (job : Job) : String :=
  job.title ++ " " ++ job.company ++ " " ++ render job.description ++ " " ++
    join job.requirements

/-- The local `userSkills` of `calculateMatchScore`. -/
def userSkills (userProfile : UserProfile) : String :=
  match userProfile.skills with
  | some skills => if skills.length > 0 then join (skills.map fun skill => skill.name) else ""
  | none => ""

/-- The local `userRoles` of `calculateMatchScore`. -/
def userRoles (userProfile : UserProfile) : String :=
  match userProfile.professional with
  | some professional =>
    match professional.desiredTitles with
    | some desiredTitles => join desiredTitles
    | none => ""
  | none => ""

/-- The local `userDocument` of `calculateMatchScore`. -/
def userDocument (userProfile : UserProfile) : String :=
  userRoles userProfile ++ " " ++ userSkills userProfile

/-- The local `userTerms` of `calculateMatchScore`. -/
def userTerms [CaseMapping] (userProfile : UserProfile) : List String :=
  split (preprocessText (userDocument userProfile))

/-- The body of the `userTerms.forEach` loop, acting on the pair
`(totalScore, termCount)`. -/
def scoreTerm (μ : Measure) (tfidf : TfIdf) (acc : ℚ × ℕ) (term : String) : ℚ × ℕ :=
  if term.length > 2 then
    let jobScore := tfidf.tfidf μ term 0
    let userScore := tfidf.tfidf μ term 1
    if jobScore > 0 then (acc.1 + jobScore * userScore, acc.2 + 1) else acc
  else acc

/-- The local `finalScore` of `calculateMatchScore`, from the scorer holding
the two documents. -/
def finalScore (μ : Measure) (tfidf : TfIdf) (terms : List String) : ℤ :=
  let acc := terms.foldl (scoreTerm μ tfidf) (0, 0)
  if acc.2 > 0 then min 100 (mathRound (acc.1 / acc.2 * 100)) else 0

/-- The location adjustment of `calculateMatchScore`. -/
def locationAdjustment [CaseMapping]
    (job : Job) (userProfile : UserProfile) (adjustedScore : ℤ) : ℤ :=
  if (match userProfile.preferences with
      | some preferences => preferences.remoteWork && job.remote
      | none => false) then
    adjustedScore + 10
  else
    match userProfile.basic with
    | some basic =>
      match basic.location with
      | some location =>
        if truthy job.location then
          let userLocation := orElse (orElse location.city location.state) location.country
          if truthy userLocation &&
              includes (toLowerCase (render job.location)) (toLowerCase (render userLocation)) then
            adjustedScore + 10
          else adjustedScore
        else adjustedScore
      | none => adjustedScore
    | none => adjustedScore

/-- The employment type adjustment of `calculateMatchScore`. -/
def employmentAdjustment (job : Job) (userProfile : UserProfile) (adjustedScore : ℤ) : ℤ :=
  match userProfile.preferences with
  | some preferences =>
    match preferences.employmentTypes with
    | some employmentTypes =>
      if truthy job.employmentType then
        if employmentTypes.contains (render job.employmentType) then adjustedScore + 10
        else adjustedScore
      else adjustedScore
    | none => adjustedScore
  | none => adjustedScore

/-- The scorer after the first three statements of `calculateMatchScore`: a new
`TfIdf` to which the job document and the user document have been added. -/
def scorerFor [CaseMapping] (job : Job) (userProfile : UserProfile) : TfIdf :=
  (TfIdf.empty.addDocument (preprocessText (jobDocument job))).addDocument
    (preprocessText (userDocument userProfile))

/-- The method `calculateMatchScore`: the score returned, and the engine after
the call (the method assigns to `this.tfidf`). -/
def JobMatchingEngine.calculateMatchScore [CaseMapping] (μ : Measure) (self : JobMatchingEngine)
    (job : Job) (userProfile : UserProfile) : ℤ × JobMatchingEngine :=
  -- Reset TF-IDF
  let self := { self with tfidf := TfIdf.empty }
  -- Add job document
  let self := { self with tfidf := self.tfidf.addDocument (preprocessText (jobDocument job)) }
  -- Add user profile document
  let self :=
    { self with tfidf := self.tfidf.addDocument (preprocessText (userDocument userProfile)) }
  -- Calculate similarity score
  let finalScore := finalScore μ self.tfidf (userTerms userProfile)
  -- Adjust score based on location and employment type preferences
  let adjustedScore := locationAdjustment job userProfile finalScore
  let adjustedScore := employmentAdjustment job userProfile adjustedScore
  -- Cap score at 100
  (min 100 adjustedScore, self)

/-- Calls of `calculateMatchScore` served one after the other by the shared
engine: the scores in the order of the calls, and the engine after the last one.
The method is synchronous, it has no `await` and no callback, so a call runs to
its end before the next one starts; two calls in flight are served in one of
their two orders. -/
def JobMatchingEngine.scoreInOrder [CaseMapping] (μ : Measure) :
    List (Job × UserProfile) → JobMatchingEngine → List ℤ × JobMatchingEngine
  | [], self => ([], self)
  | call :: calls, self =>
    let first := self.calculateMatchScore μ call.1 call.2
    let others := JobMatchingEngine.scoreInOrder μ calls first.2
    (first.1 :: others.1, others.2)

/-! ## JavaScript objects used as dictionaries -/

/-- The own properties of an object created by the literal `{}`, in order of
creation. -/
abbrev Props (α : Type) := List (String × α)

/-- The names that every object inherits from `Object.prototype`. Reading one of
them on an object without an own property of that name yields the inherited
value, which is truthy, and not `undefined`. -/
def objectPrototypeKeys : List String :=
  ["constructor", "__defineGetter__", "__defineSetter__", "hasOwnProperty",
    "__lookupGetter__", "__lookupSetter__", "isPrototypeOf", "propertyIsEnumerable",
    "toString", "valueOf", "__proto__", "toLocaleString"]

/-- The assignment `object[key] = value` to an own property that exists: the
property keeps its place. -/
def Props.replace {α : Type} (object : Props α) (key : String) (value : α) : Props α :=
  object.map fun property => if property.1 = key then (key, value) else property

/-- The value of a string of decimal digits. -/
def digitsValue (cs : List Char) : ℕ :=
  cs.foldl (fun n c => 10 * n + (c.toNat - 48)) 0

/-- A property name that is an array index: the canonical decimal form of an
integer below `2^32 - 1`. -/
def isArrayIndex (key : String) : Bool :=
  key.data != [] && key.data.all Char.isDigit && (key == "0" || key.data.head? != some '0') &&
    decide (digitsValue key.data < 4294967295)

/-- The own properties in the order in which `Object.keys` lists their names:
array indices first, in ascending numeric order, then the other names in order
of creation. The names being distinct, `Object.keys(object).map(f)` with `f`
reading `object[name]` is a map over this list. -/
def Props.ordered {α : Type} (object : Props α) : Props α :=
  (object.filter fun property => isArrayIndex property.1).insertionSort
      (fun a b => digitsValue a.1.data ≤ digitsValue b.1.data) ++
    object.filter fun property => !isArrayIndex property.1

/-- The method `Array.prototype.sort` with a comparator, on the order given as
`le a b`, true when `compare(a, b) <= 0`: a stable sort. -/
def sortBy {α : Type} (le : α → α → Bool) (xs : List α) : List α :=
  xs.insertionSort fun a b => le a b = true

/-! ## `services/role-suggestion`: records -/

/-- A role definition (`roleSchema`). -/
structure Role where
  title : String
  description : Option String
  requiredSkills : List String
  relatedSkills : List String
  averageSalary : Option String
  growthRate : Option String
  industry : Option String
  educationRequirements : List String
  experienceLevel : Option String
  deriving DecidableEq, Repr

/-- An entry of the `roles` array of a skill to role mapping. -/
structure RoleRelevance where
  title : String
  relevanceScore : ℚ
  deriving DecidableEq, Repr

/-- A skill to role mapping (`skillToRoleSchema`). -/
structure SkillToRole where
  skill : String
  roles : List RoleRelevance
  deriving DecidableEq, Repr

/-- The query `SkillToRole.find(\x7b skill: \x7b $in: skillNames \x7d \x7d)`. -/
def SkillToRole.find (collection : List SkillToRole) (skillNames : List String) :
    List SkillToRole :=
  collection.filter fun mapping => skillNames.contains mapping.skill

/-- The query `Role.find(\x7b title: \x7b $in: titles \x7d \x7d)`. -/
def Role.find (collection : List Role) (titles : List String) : List Role :=
  collection.filter fun role => titles.contains role.title

/-- The query `Role.findOne(\x7b title \x7d)`: the first stored role with exactly
this title, if there is one. -/
def Role.findOne (collection : List Role) (title : String) : Option Role :=
  collection.find? fun role => role.title = title

/-- A value of the object `roleCounts`. -/
structure RoleCount where
  count : ℕ
  totalRelevance : ℚ
  deriving DecidableEq, Repr

/-- An element of the array `sortedRoles`. -/
structure RankedRole where
  title : String
  count : ℕ
  averageRelevance : ℚ
  deriving DecidableEq, Repr

/-- The result of `analyzeUserSkills`. -/
structure SkillClusterResult where
  primaryCluster : List String
  secondaryCluster : List String
  uniqueSkills : List String
  missingCoreSkills : List String
  deriving DecidableEq, Repr

/-! ## `services/role-suggestion`: `SkillAnalysisEngine` -/

namespace SkillAnalysisEngine

/-- The body of the inner loop of `identifySkillClusters`, for one role of one
mapping. When `roleCounts[role.title]` is an inherited value the test
`!roleCounts[role.title]` fails, no own property is created and the two
counters are written to the inherited value: `roleCounts` is left as it is. -/
def countRole (roleCounts : Props RoleCount) (role : RoleRelevance) : Props RoleCount :=
  match roleCounts.lookup role.title with
  | some entry =>
    roleCounts.replace role.title
      { count := entry.count + 1
        totalRelevance := fadd entry.totalRelevance role.relevanceScore }
  | none =>
    if objectPrototypeKeys.contains role.title then roleCounts
    else
      roleCounts ++
        [(role.title, { count := 0 + 1, totalRelevance := fadd 0 role.relevanceScore })]

/-- The object `roleCounts` after the two nested loops. -/
def roleCounts (skillMappings : List SkillToRole) : Props RoleCount :=
  skillMappings.foldl (fun roleCounts mapping => mapping.roles.foldl countRole roleCounts) []

/-- The comparator of `sortedRoles`, as the test `compare(a, b) <= 0`: by count
first, then by average relevance, both descending. The difference of two
doubles, rounded, has the sign of the exact difference. -/
def rankedBefore (a b : RankedRole) : Bool :=
  if b.count ≠ a.count then decide ((b.count : ℚ) - a.count ≤ 0)
  else decide (b.averageRelevance - a.averageRelevance ≤ 0)

/-- The array `sortedRoles`. -/
def sortedRoles (skillMappings : List SkillToRole) : List RankedRole :=
  sortBy rankedBefore
    ((roleCounts skillMappings).ordered.map fun property =>
      { title := property.1, count := property.2.count,
        averageRelevance := fdiv property.2.totalRelevance property.2.count })

/-- The filter of both clusters, relative to the first role `top` of the array
that is filtered. The literals `0.7` and `0.8` are the doubles nearest to 7/10
and 8/10. -/
def nearTop (top role : RankedRole) : Bool :=
  decide ((role.count : ℚ) ≥ fmul top.count (toDouble (7 / 10))) ||
    decide (role.averageRelevance ≥ fmul top.averageRelevance (toDouble (8 / 10)))

/-- The statements of `identifySkillClusters` under its comment "Group roles
into clusters": the array `clusters`, from the array `sortedRoles`. -/
def groupIntoClusters (sortedRoles : List RankedRole) : List (List String) :=
  match sortedRoles with
  | top :: _ =>
    -- Get roles for the first cluster
    let primaryClusterRoles := (sortedRoles.filter (nearTop top)).map fun role => role.title
    -- Get roles for the second cluster (excluding primary cluster)
    let remainingRoles := sortedRoles.filter fun role => !primaryClusterRoles.contains role.title
    match remainingRoles with
    | next :: _ =>
      let secondaryClusterRoles :=
        (remainingRoles.filter (nearTop next)).map fun role => role.title
      [primaryClusterRoles, secondaryClusterRoles]
    | [] => [primaryClusterRoles, []]
  | [] => [[], []]

/-- The method `identifySkillClusters`. -/
def identifySkillClusters (skillToRoles : List SkillToRole) (skillNames : List String) :
    List (List String) :=
  -- Get all skill to role mappings for the user's skills
  let skillMappings := SkillToRole.find skillToRoles skillNames
  groupIntoClusters (sortedRoles skillMappings)

/-- The assignment `uniquenessScores[mapping.skill] = score`. The name
`__proto__` is an accessor of `Object.prototype` whose setter ignores numbers,
so that assignment creates no property. -/
def assignScore (uniquenessScores : Props ℚ) (skill : String) (score : ℚ) : Props ℚ :=
  match uniquenessScores.lookup skill with
  | some _ => uniquenessScores.replace skill score
  | none => if skill = "__proto__" then uniquenessScores else uniquenessScores ++ [(skill, score)]

/-- The object `uniquenessScores` of `identifyUniqueSkills`. For a mapping
without roles JavaScript computes `NaN`; the quotient is 0 here. -/
def uniquenessScores (skillMappings : List SkillToRole) : Props ℚ :=
  skillMappings.foldl
    (fun uniquenessScores mapping =>
      let roleCount := mapping.roles.length
      let averageRelevance :=
        fdiv (mapping.roles.foldl (fun sum role => fadd sum role.relevanceScore) 0) roleCount
      -- Higher relevance and lower role count means more unique
      assignScore uniquenessScores mapping.skill
        (fdiv averageRelevance (fmul roleCount (1 / 2))))
    []

/-- The method `identifyUniqueSkills`. -/
def identifyUniqueSkills (skillToRoles : List SkillToRole) (skillNames : List String) :
    List String :=
  let skillMappings := SkillToRole.find skillToRoles skillNames
  let uniquenessScores := uniquenessScores skillMappings
  -- Sort skills by uniqueness score
  let sortedSkills :=
    (sortBy (fun a b => decide (b.2 - a.2 ≤ 0)) uniquenessScores.ordered).map Prod.fst
  -- Return top 5 unique skills
  sortedSkills.take 5

/-- The body of the inner loop of `identifyMissingCoreSkills`, for one required
skill of one role. A counter is `some n` when it is the number `n` and `none`
when it is not a number: for a name inherited from `Object.prototype` the test
`!skillCounts[skill]` fails and `+= 1` appends to the text of the inherited
function, and for `__proto__` no own property is ever created. -/
def countSkill (skillCounts : Props (Option ℕ)) (skill : String) : Props (Option ℕ) :=
  match skillCounts.lookup skill with
  | some (some n) => skillCounts.replace skill (some (n + 1))
  | some none => skillCounts
  | none =>
    if skill = "__proto__" then skillCounts
    else if objectPrototypeKeys.contains skill then skillCounts ++ [(skill, none)]
    else skillCounts ++ [(skill, some (0 + 1))]

/-- The object `skillCounts` after the two nested loops. -/
def skillCounts (roles : List Role) : Props (Option ℕ) :=
  roles.foldl (fun skillCounts role => role.requiredSkills.foldl countSkill skillCounts) []

/-- The method `identifyMissingCoreSkills`. The threshold `roles.length * 0.7`
is a double, with which counters that are integers are compared; for fewer than
`2 ^ 49` roles an integer is at least that double exactly when it is at least
7/10 of the number of roles (`coreSkillThreshold_exact`), which is the
threshold here. -/
def identifyMissingCoreSkills [CaseMapping] (roleStore : List Role) (clusterRoles : List String)
    (userSkills : List String) : List String :=
  if clusterRoles.length = 0 then []
  else
    -- Get roles
    let roles := Role.find roleStore clusterRoles
    -- Count skill occurrences across roles
    let skillCounts := skillCounts roles
    -- Calculate core skills (skills that appear in at least 70% of roles)
    let coreSkillThreshold : ℚ := roles.length * (7 / 10)
    let coreSkills :=
      (skillCounts.ordered.filter fun property =>
        match property.2 with
        | some n => decide ((n : ℚ) ≥ coreSkillThreshold)
        | none => false).map Prod.fst
    -- Find missing core skills
    coreSkills.filter fun skill => !userSkills.contains (toLowerCase skill)

/-- The method `analyzeUserSkills`. -/
def analyzeUserSkills [CaseMapping] (skillToRoles : List SkillToRole) (roleStore : List Role)
    (userSkills : List Skill) : SkillClusterResult :=
  -- Extract skill names
  let skillNames := userSkills.map fun skill => toLowerCase skill.name
  -- Find skill clusters
  let skillClusters := identifySkillClusters skillToRoles skillNames
  -- Find unique skills
  let uniqueSkills := identifyUniqueSkills skillToRoles skillNames
  -- Find missing core skills
  let missingCoreSkills :=
    identifyMissingCoreSkills roleStore (skillClusters.getD 0 []) skillNames
  { primaryCluster := skillClusters.getD 0 [], secondaryCluster := skillClusters.getD 1 [],
    uniqueSkills := uniqueSkills, missingCoreSkills := missingCoreSkills }

end SkillAnalysisEngine

/-- The skill to role mappings inserted by `seedInitialData`. -/
def seedSkillToRoles : List SkillToRole :=
  [{ skill := "javascript",
     roles := [⟨"Software Developer", 95⟩, ⟨"Frontend Developer", 100⟩,
       ⟨"Full Stack Developer", 90⟩, ⟨"Web Developer", 95⟩] },
   { skill := "python",
     roles := [⟨"Data Scientist", 95⟩, ⟨"Machine Learning Engineer", 90⟩,
       ⟨"Software Developer", 70⟩, ⟨"Backend Developer", 80⟩] },
   { skill := "user research",
     roles := [⟨"UX Designer", 95⟩, ⟨"UX Researcher", 100⟩, ⟨"Product Manager", 75⟩] },
   { skill := "product strategy",
     roles := [⟨"Product Manager", 100⟩, ⟨"Product Owner", 90⟩, ⟨"Business Analyst", 70⟩] },
   { skill := "linux",
     roles := [⟨"DevOps Engineer", 95⟩, ⟨"System Administrator", 90⟩,
       ⟨"Cloud Engineer", 85⟩] }]

/-! ## `services/role-suggestion`: `RoleRecommendationEngine` -/

/-- An object of the array that `rankRecommendations` and
`enrichRecommendationsWithMarketData` receive, as far as the program reads it:
its properties `title`, `averageSalary` and `type`, where `none` stands for
`undefined`, and the role document whose internal properties the object holds
when it is the spread of one. -/
structure Recommendation where
  title : Option String
  averageSalary : Option String
  type : String
  document : Option Role
  deriving DecidableEq, Repr

/-- An enriched recommendation: the properties of the object returned by
`toObject()`, with `averageSalary` overwritten, and the property
`marketDemand`. -/
structure EnrichedRecommendation extends Recommendation where
  marketDemand : String
  deriving DecidableEq, Repr

/-- The object returned by `generateSkillGapAnalysis`. The field
`matchPercentage` is `none` when it is `NaN`. -/
structure SkillGapAnalysis where
  role : Role
  missingRequiredSkills : List String
  missingRelatedSkills : List String
  matchPercentage : Option ℤ
  deriving DecidableEq, Repr

deriving instance DecidableEq for Except

namespace RoleRecommendationEngine

/-- A `catch` block that logs the error and throws it again. -/
def logAndRethrow {α : Type} (body : Except String α) : Except String α :=
  match body with
  | .ok value => .ok value
  | .error error => .error error

/-- The method `matchRolesForSkillCluster`. -/
def matchRolesForSkillCluster (roleStore : List Role) (clusterRoles : List String) :
    List Role :=
  if clusterRoles.length = 0 then []
  else
    -- Get roles
    Role.find roleStore clusterRoles

/-- The body of the inner loop of `matchRolesForUniqueSkills`, on the elements
of the `Set` object `roleSet` in order of insertion. -/
def addHighRelevance (roleSet : List String) (role : RoleRelevance) : List String :=
  if role.relevanceScore ≥ 80 then
    if roleSet.contains role.title then roleSet else roleSet ++ [role.title]
  else roleSet

/-- The elements of `roleSet` after the two nested loops. -/
def roleSet (skillMappings : List SkillToRole) : List String :=
  skillMappings.foldl (fun roleSet mapping => mapping.roles.foldl addHighRelevance roleSet) []

/-- The method `matchRolesForUniqueSkills`. -/
def matchRolesForUniqueSkills (skillToRoles : List SkillToRole) (roleStore : List Role)
    (uniqueSkills : List String) : List Role :=
  if uniqueSkills.length = 0 then []
  else
    -- Get skill to role mappings for unique skills
    let skillMappings := SkillToRole.find skillToRoles uniqueSkills
    -- Get roles
    Role.find roleStore (roleSet skillMappings)

/-- The body of the `forEach` loop of `rankRecommendations`, acting on the pair
of the array `uniqueRecommendations` and the elements of the `Set` object
`titleSet`, of which `undefined` can be one. -/
def keepFirst (state : List Recommendation × List (Option String))
    (recommendation : Recommendation) : List Recommendation × List (Option String) :=
  if !state.2.contains recommendation.title then
    (state.1 ++ [recommendation], state.2 ++ [recommendation.title])
  else state

/-- The array `uniqueRecommendations` of `rankRecommendations` after the loop. -/
def uniqueRecommendations (recommendations : List Recommendation) : List Recommendation :=
  (recommendations.foldl keepFirst ([], [])).1

/-- The object literal `typeWeights`. -/
def typeWeights : Props ℚ :=
  [("primary", 3), ("unique", 2), ("secondary", 1)]

/-- The comparator of `rankRecommendations`, as the test `compare(a, b) <= 0`.
For a type that is not a name of `typeWeights` the difference is `NaN`, which
`Array.prototype.sort` takes for 0. The comparator is a consistent order, and
the result of the sort determined, only when every type is one of the three. -/
def weightBefore (a b : Recommendation) : Bool :=
  match typeWeights.lookup b.type, typeWeights.lookup a.type with
  | some wb, some wa => decide (wb - wa ≤ 0)
  | _, _ => true

/-- The method `rankRecommendations`. -/
def rankRecommendations (recommendations : List Recommendation) : List Recommendation :=
  -- Remove duplicates, then rank by type (primary > unique > secondary)
  sortBy weightBefore (uniqueRecommendations recommendations)

/-- The object built for one recommendation by the callback of
`enrichRecommendationsWithMarketData`, from the result of `toObject()`. -/
def withMarketData (object recommendation : Recommendation) : EnrichedRecommendation :=
  { object with
    marketDemand := "High"
    averageSalary := orElse recommendation.averageSalary (some "$80,000 - $120,000") }

/-- The call `recommendations.map(...)` of `enrichRecommendationsWithMarketData`:
it throws what the first failing call of `recommendation.toObject()` throws.
What that call does is a parameter: on a Mongoose document it is the method of
Mongoose, and on an object without such a method it throws a `TypeError`
(`missingToObject`). -/
def mapWithMarketData (toObject : Recommendation → Except String Recommendation) :
    List Recommendation → Except String (List EnrichedRecommendation)
  | [] => .ok []
  | recommendation :: rest =>
    match toObject recommendation with
    | .error error => .error error
    | .ok object =>
      match mapWithMarketData toObject rest with
      | .error error => .error error
      | .ok enriched => .ok (withMarketData object recommendation :: enriched)

/-- The method `enrichRecommendationsWithMarketData`. -/
def enrichRecommendationsWithMarketData
    (toObject : Recommendation → Except String Recommendation)
    (recommendations : List Recommendation) : Except String (List EnrichedRecommendation) :=
  logAndRethrow (mapWithMarketData toObject recommendations)

/-- The spread `\x7b ...r, type \x7d` of `generateRoleRecommendations`, where `r`
is a Mongoose document returned by `Role.find`. A spread copies the own
enumerable properties of its operand. Those of a Mongoose document are internal
(`$__`, `_doc`, `$isNew`): its schema fields are accessors of the prototype and
its methods are inherited. The copy therefore has no property `title` or
`averageSalary`, and no method `toObject`. -/
def tagged (type : String) (r : Role) : Recommendation :=
  { title := none, averageSalary := none, type := type, document := some r }

/-- The call `recommendation.toObject()` on an object without that method, as
every object built by `tagged` is. -/
def missingToObject : Recommendation → Except String Recommendation :=
  fun _ => .error "TypeError: recommendation.toObject is not a function"

/-- The array that `generateRoleRecommendations` gives to `rankRecommendations`,
for a candidate whose skills are defined. -/
def combinedRecommendations [CaseMapping] (skillToRoles : List SkillToRole)
    (roleStore : List Role) (skills : List Skill) : List Recommendation :=
  -- Analyze user skills
  let skillAnalysis := SkillAnalysisEngine.analyzeUserSkills skillToRoles roleStore skills
  -- Get primary role matches
  let primaryRoles := matchRolesForSkillCluster roleStore skillAnalysis.primaryCluster
  -- Get secondary role matches
  let secondaryRoles := matchRolesForSkillCluster roleStore skillAnalysis.secondaryCluster
  -- Get roles based on unique skills
  let uniqueSkillRoles :=
    matchRolesForUniqueSkills skillToRoles roleStore skillAnalysis.uniqueSkills
  primaryRoles.map (tagged "primary") ++ secondaryRoles.map (tagged "secondary") ++
    uniqueSkillRoles.map (tagged "unique")

/-- The local `recommendations` of `generateRoleRecommendations`, for a
candidate whose skills are defined. -/
def recommendations [CaseMapping] (skillToRoles : List SkillToRole) (roleStore : List Role)
    (skills : List Skill) : List Recommendation :=
  -- Combine and rank recommendations
  rankRecommendations (combinedRecommendations skillToRoles roleStore skills)

/-- The method `generateRoleRecommendations`. When `userProfile.skills` is
undefined, `analyzeUserSkills` throws a `TypeError` on `userSkills.map`. The
parameter `toObject` is what the call `recommendation.toObject()` of the
enrichment does; on the objects built here it is `missingToObject`. -/
def generateRoleRecommendations [CaseMapping]
    (toObject : Recommendation → Except String Recommendation)
    (skillToRoles : List SkillToRole) (roleStore : List Role) (userProfile : UserProfile) :
    Except String (List EnrichedRecommendation) :=
  logAndRethrow
    (match userProfile.skills with
    | none => .error "TypeError: Cannot read properties of undefined (reading 'map')"
    | some skills =>
      -- Enrich recommendations with market data
      enrichRecommendationsWithMarketData toObject (recommendations skillToRoles roleStore skills))

/-- The expression
`Math.round((1 - (missingRequiredSkills.length / role.requiredSkills.length)) * 100)`:
the quotient, the difference and the product are doubles. When `requiredSkills`
is empty the quotient is `0 / 0`, which is `NaN`, and `Math.round` returns `NaN`
for it. -/
def matchPercentage (missing required : ℕ) : Option ℤ :=
  if required = 0 then none
  else some (mathRound (fmul (fsub 1 (fdiv missing required)) 100))

/-- The method `generateSkillGapAnalysis`. The method `toObject` of the role
document belongs to Mongoose and is a parameter. -/
def generateSkillGapAnalysis [CaseMapping]
    (toObject : Role → Except String Role) (roleStore : List Role)
    (targetRole : String) (userSkills : List Skill) : Except String SkillGapAnalysis :=
  logAndRethrow
    -- Get role
    (match Role.findOne roleStore targetRole with
    | none => .error ("Role not found: " ++ targetRole)
    | some role =>
      -- Extract skill names
      let userSkillNames := userSkills.map fun skill => toLowerCase skill.name
      -- Find missing required skills
      let missingRequiredSkills :=
        role.requiredSkills.filter fun skill => !userSkillNames.contains (toLowerCase skill)
      -- Find missing related skills
      let missingRelatedSkills :=
        role.relatedSkills.filter fun skill => !userSkillNames.contains (toLowerCase skill)
      match toObject role with
      | .error error => .error error
      | .ok object =>
        .ok
          { role := object
            missingRequiredSkills := missingRequiredSkills
            missingRelatedSkills := missingRelatedSkills
            matchPercentage :=
              matchPercentage missingRequiredSkills.length role.requiredSkills.length })

end RoleRecommendationEngine

/-- The role definitions inserted by `seedInitialData`. -/
def seedRoles : List Role :=
  [{ title := "Software Developer",
     description :=
       some "Develops software applications using programming languages and frameworks.",
     requiredSkills := ["JavaScript", "HTML", "CSS", "Git", "Problem Solving"],
     relatedSkills := ["React", "Node.js", "Python", "SQL", "TypeScript"],
     averageSalary := some "$80,000 - $120,000",
     growthRate := some "22% (Much faster than average)",
     industry := some "Technology",
     educationRequirements := ["Bachelor's Degree in Computer Science or related field"],
     experienceLevel := some "Entry to Mid-Level" },
   { title := "Data Scientist",
     description := some
       "Analyzes and interprets complex data to help organizations make better decisions.",
     requiredSkills := ["Python", "Statistics", "Machine Learning", "Data Analysis", "SQL"],
     relatedSkills := ["R", "TensorFlow", "PyTorch", "Data Visualization", "Big Data"],
     averageSalary := some "$100,000 - $140,000",
     growthRate := some "31% (Much faster than average)",
     industry := some "Technology",
     educationRequirements :=
       ["Master's or PhD in Computer Science, Statistics, or related field"],
     experienceLevel := some "Mid to Senior Level" },
   { title := "UX Designer",
     description := some "Designs user experiences for digital products and services.",
     requiredSkills :=
       ["User Research", "Wireframing", "Prototyping", "UI Design", "Usability Testing"],
     relatedSkills := ["Figma", "Adobe XD", "Sketch", "HTML", "CSS"],
     averageSalary := some "$75,000 - $110,000",
     growthRate := some "13% (Faster than average)",
     industry := some "Technology",
     educationRequirements := ["Bachelor's Degree in Design, HCI, or related field"],
     experienceLevel := some "Entry to Mid-Level" },
   { title := "Product Manager",
     description :=
       some "Oversees the development and marketing of a product or product line.",
     requiredSkills := ["Product Strategy", "Market Research", "User Stories", "Roadmapping",
       "Stakeholder Management"],
     relatedSkills := ["Agile Methodologies", "Data Analysis", "UX Design",
       "Technical Knowledge", "Communication"],
     averageSalary := some "$90,000 - $130,000",
     growthRate := some "10% (Faster than average)",
     industry := some "Technology",
     educationRequirements :=
       ["Bachelor's Degree in Business, Computer Science, or related field"],
     experienceLevel := some "Mid to Senior Level" },
   { title := "DevOps Engineer",
     description := some
       "Combines software development and IT operations to shorten the development lifecycle.",
     requiredSkills := ["Linux", "Scripting", "CI/CD", "Cloud Platforms", "Containerization"],
     relatedSkills := ["Docker", "Kubernetes", "AWS", "Azure", "Terraform"],
     averageSalary := some "$95,000 - $135,000",
     growthRate := some "22% (Much faster than average)",
     industry := some "Technology",
     educationRequirements := ["Bachelor's Degree in Computer Science or related field"],
     experienceLevel := some "Mid to Senior Level" }]

/-! ## `services/job-search`: the score as the specification words it -/

/-- Spec 4.2, step 4: the occurrences of the profile document's tokens that
count, those longer than two characters whose weight in the job document
(index 0) is positive. -/
def matchedTerms (μ : Measure) (tfidf : TfIdf) (terms : List String) : List String :=
  terms.filter fun term => decide (2 < term.length) && decide (0 < μ tfidf.documents term 0)

/-- Spec 4.2, step 5: `round(min(100, (total / termCount) × 100))` when
`termCount > 0`, else 0, with `total` the sum of `jobWeight × profileWeight`
over the matched occurrences and `termCount` their number. -/
def baseScoreSpec (μ : Measure) (tfidf : TfIdf) (terms : List String) : ℤ :=
  let matched := matchedTerms μ tfidf terms
  let total := (matched.map fun term =>
    μ tfidf.documents term 0 * μ tfidf.documents term 1).sum
  let termCount := matched.length
  if 0 < termCount then mathRound (min 100 (total / termCount * 100)) else 0

/-- The first value of a list that is defined and not the empty string. -/
def firstNonEmpty : List (Option String) → Option String
  | [] => none
  | some s :: rest => if s = "" then firstNonEmpty rest else some s
  | none :: rest => firstNonEmpty rest

/-- Spec 4.2, step 6: the candidate wants remote work and the job is remote. -/
def remoteBonusApplies (job : Job) (userProfile : UserProfile) : Bool :=
  job.remote && (userProfile.preferences.map fun preferences => preferences.remoteWork) == some true

/-- Spec 4.2, step 6: the job's location text contains, case-insensitively, the
first non-empty value among the candidate's city, state and country. -/
def locationRuleMatches [CaseMapping] (job : Job) (userProfile : UserProfile) : Bool :=
  match job.location, userProfile.basic.bind fun basic => basic.location with
  | some text, some location =>
    match firstNonEmpty [location.city, location.state, location.country] with
    | some place => includes (toLowerCase text) (toLowerCase place)
    | none => false
  | _, _ => false

/-- Spec 4.2, step 6: the job's employment type label is present and is one of
the candidate's accepted employment types. -/
def employmentTypeAccepted (job : Job) (userProfile : UserProfile) : Bool :=
  match job.employmentType,
    userProfile.preferences.bind fun preferences => preferences.employmentTypes with
  | some label, some accepted => label != "" && decide (label ∈ accepted)
  | _, _ => false

/-! ## `services/role-suggestion`: the analysis as the specification words it -/

/-- Spec 4.3, step 5: the uniqueness of a skill, the average relevance across
the roles of its mapping divided by half the number of these roles, each
operation rounded to a double. -/
def uniqueness (mapping : SkillToRole) : ℚ :=
  fdiv (fdiv ((mapping.roles.map fun role => role.relevanceScore).foldl fadd 0)
      mapping.roles.length)
    (fmul mapping.roles.length (1 / 2))

/-- Glossary, core skill: the number of role titles of a cluster for which a
stored role definition lists the skill among its required skills. -/
def clusterRolesRequiring (roleStore : List Role) (clusterRoles : List String)
    (skill : String) : ℕ :=
  (clusterRoles.filter fun title =>
    roleStore.any fun role => role.title == title && role.requiredSkills.contains skill).length

/-! ## Example data -/

/-- A scorer for which every term weighs 1 in every document. -/
def unitMeasure : Measure :=
  fun _ _ _ => 1

/-- The job of the scenario of spec section 8. -/
def backendJob : Job :=
  { title := "Backend Engineer", company := "Acme", location := none,
    description := some "Python Django APIs", requirements := ["Python", "SQL"],
    remote := true, employmentType := none }

/-- The profile of the scenario of spec section 8. -/
def backendProfile : UserProfile :=
  { basic := none, preferences := some { remoteWork := true, employmentTypes := none },
    professional := some { desiredTitles := some ["Backend Engineer"] },
    skills := some [{ name := "Python" }] }

/-- A candidate whose only skill is JavaScript. -/
def javascriptProfile : UserProfile :=
  { basic := none, preferences := none, professional := none,
    skills := some [{ name := "JavaScript" }] }

/-- A role definition with the given title and required skills, and nothing
else. -/
def bareRole (title : String) (requiredSkills : List String) : Role :=
  { title := title, description := none, requiredSkills := requiredSkills,
    relatedSkills := [], averageSalary := none, growthRate := none, industry := none,
    educationRequirements := [], experienceLevel := none }

/-- Five recommendations of the three types, each with a title of its own, two
of them with the same title. -/
def mixedRecommendations : List Recommendation :=
  [{ title := some "Software Developer", averageSalary := none, type := "secondary",
     document := none },
   { title := some "Data Scientist", averageSalary := none, type := "unique",
     document := none },
   { title := some "UX Designer", averageSalary := none, type := "primary", document := none },
   { title := some "Software Developer", averageSalary := none, type := "unique",
     document := none },
   { title := some "Product Manager", averageSalary := none, type := "primary",
     document := none }]

/-- A role store whose only role requires a skill named as a property that
every object inherits from `Object.prototype`. -/
def securityRoles : List Role :=
  [bareRole "Security Engineer" ["constructor", "Networking"]]

/-- Two mappings, one of them for a skill named `__proto__`. -/
def protoSkillToRoles : List SkillToRole :=
  [{ skill := "__proto__", roles := [⟨"Security Engineer", 90⟩] },
   { skill := "rust", roles := [⟨"Systems Engineer", 90⟩] }]

/-- The seeded roles and a role without required skills. -/
def rolesWithIntern : List Role :=
  seedRoles ++ [bareRole "Intern" []]

/-- Two roles, the first of which lists the skill Python twice. -/
def duplicateSkillRoles : List Role :=
  [bareRole "Data Engineer" ["Python", "Python"], bareRole "Platform Engineer" ["Go"]]

/-- A mapping whose only role has a title that every object inherits from
`Object.prototype`. -/
def inheritedTitleSkillToRoles : List SkillToRole :=
  [{ skill := "oop", roles := [⟨"constructor", 90⟩] }]

/-- Six mappings that list the role Top, with relevance scores adding up to 400;
the first three also list the role Low, with scores adding up to 160. -/
def topLowSkillToRoles : List SkillToRole :=
  [{ skill := "a", roles := [⟨"Top", 100⟩, ⟨"Low", 60⟩] },
   { skill := "b", roles := [⟨"Top", 100⟩, ⟨"Low", 50⟩] },
   { skill := "c", roles := [⟨"Top", 50⟩, ⟨"Low", 50⟩] },
   { skill := "d", roles := [⟨"Top", 50⟩] },
   { skill := "e", roles := [⟨"Top", 50⟩] },
   { skill := "f", roles := [⟨"Top", 50⟩] }]

/-- Nine mappings that list the role Top with relevance score 100; the first six
also list the role Mid, with scores adding up to 400, and the first three the
role Low, with scores adding up to 160. -/
def topMidLowSkillToRoles : List SkillToRole :=
  [{ skill := "a", roles := [⟨"Top", 100⟩, ⟨"Mid", 100⟩, ⟨"Low", 60⟩] },
   { skill := "b", roles := [⟨"Top", 100⟩, ⟨"Mid", 100⟩, ⟨"Low", 50⟩] },
   { skill := "c", roles := [⟨"Top", 100⟩, ⟨"Mid", 50⟩, ⟨"Low", 50⟩] },
   { skill := "d", roles := [⟨"Top", 100⟩, ⟨"Mid", 50⟩] },
   { skill := "e", roles := [⟨"Top", 100⟩, ⟨"Mid", 50⟩] },
   { skill := "f", roles := [⟨"Top", 100⟩, ⟨"Mid", 50⟩] },
   { skill := "g", roles := [⟨"Top", 100⟩] },
   { skill := "h", roles := [⟨"Top", 100⟩] },
   { skill := "i", roles := [⟨"Top", 100⟩] }]

/-- A role store whose only role has 40 required skills. -/
def generalistRoles : List Role :=
  [bareRole "Generalist"
    ["Skill 01", "Skill 02", "Skill 03", "Skill 04", "Skill 05", "Skill 06", "Skill 07",
     "Skill 08", "Skill 09", "Skill 10", "Skill 11", "Skill 12", "Skill 13", "Skill 14",
     "Skill 15", "Skill 16", "Skill 17", "Skill 18", "Skill 19", "Skill 20", "Skill 21",
     "Skill 22", "Skill 23", "Skill 24", "Skill 25", "Skill 26", "Skill 27", "Skill 28",
     "Skill 29", "Skill 30", "Skill 31", "Skill 32", "Skill 33", "Skill 34", "Skill 35",
     "Skill 36", "Skill 37", "Skill 38", "Skill 39", "Skill 40"]]

/-- A candidate with 23 of the 40 skills of the role Generalist. -/
def generalistSkills : List Skill :=
  [{ name := "skill 18" }, { name := "skill 19" }, { name := "skill 20" },
   { name := "skill 21" }, { name := "skill 22" }, { name := "skill 23" },
   { name := "skill 24" }, { name := "skill 25" }, { name := "skill 26" },
   { name := "skill 27" }, { name := "skill 28" }, { name := "skill 29" },
   { name := "skill 30" }, { name := "skill 31" }, { name := "skill 32" },
   { name := "skill 33" }, { name := "skill 34" }, { name := "skill 35" },
   { name := "skill 36" }, { name := "skill 37" }, { name := "skill 38" },
   { name := "skill 39" }, { name := "skill 40" }]

/-- A job in Austin that is not remote. -/
def austinJob : Job :=
  { title := "Backend Engineer", company := "Acme", location := some "Austin, Texas, USA",
    description := none, requirements := [], remote := false, employmentType := none }

/-- A candidate in Dallas, Texas, who does not ask for remote work. -/
def dallasProfile : UserProfile :=
  { basic := some ⟨some ⟨some "Dallas", some "Texas", some "USA"⟩⟩,
    preferences := some { remoteWork := false, employmentTypes := none },
    professional := none, skills := none }

/-- A `toObject` that always throws. -/
def failingToObject : Recommendation → Except String Recommendation :=
  fun _ => .error "market data unavailable"

/-! # Properties -/

/-! ## Rounding to the nearest double -/

theorem pow2_eq (k : ℤ) : pow2 k = (2 : ℚ) ^ k := by
  unfold pow2
  split
  · rename_i h
    obtain ⟨n, rfl⟩ := Int.eq_ofNat_of_zero_le h
    simp
  · rename_i h
    have h' : 0 ≤ -k := by omega
    obtain ⟨n, hn⟩ := Int.eq_ofNat_of_zero_le h'
    have hk : k = -(n : ℤ) := by omega
    rw [hn, hk]
    simp

theorem bitLength_spec : ∀ (fuel n : ℕ), n ≤ fuel →
    n < 2 ^ bitLength fuel n ∧ (n ≠ 0 → 2 ^ bitLength fuel n ≤ 2 * n)
  | 0, n, h => by
    have : n = 0 := by omega
    subst this
    simp [bitLength]
  | fuel + 1, n, h => by
    unfold bitLength
    by_cases hn : n = 0
    · subst hn
      simp
    · rw [if_neg hn]
      have hle : n / 2 ≤ fuel := by omega
      obtain ⟨h1, h2⟩ := bitLength_spec fuel (n / 2) hle
      rw [pow_succ]
      refine ⟨by omega, fun _ => ?_⟩
      by_cases h0 : n / 2 = 0
      · have : n = 1 := by omega
        subst this
        simp [bitLength] 
        cases fuel <;> simp [bitLength]
      · have := h2 h0
        omega

theorem binaryExponent_spec (x : ℚ) (hx : x ≠ 0) :
    (2 : ℚ) ^ binaryExponent x ≤ |x| ∧ |x| < (2 : ℚ) ^ (binaryExponent x + 1) := by
  have hnum : x.num.natAbs ≠ 0 := by
    rw [Ne, Int.natAbs_eq_zero, Rat.num_eq_zero]
    exact hx
  have hden : x.den ≠ 0 := x.den_nz
  obtain ⟨ha1, ha2⟩ := bitLength_spec x.num.natAbs x.num.natAbs le_rfl
  obtain ⟨hb1, hb2⟩ := bitLength_spec x.den x.den le_rfl
  have ha2 := ha2 hnum
  have hb2 := hb2 hden
  set a := bitLength x.num.natAbs x.num.natAbs with ha
  set b := bitLength x.den x.den with hb
  have habs : |x| = (x.num.natAbs : ℚ) / (x.den : ℚ) := by
    conv_lhs => rw [← Rat.num_div_den x]
    rw [abs_div, Nat.abs_cast, Nat.cast_natAbs, Int.cast_abs]
  have hdpos : (0 : ℚ) < x.den := by exact_mod_cast Nat.pos_of_ne_zero hden
  have hA1 : (x.num.natAbs : ℚ) < 2 ^ a := by exact_mod_cast ha1
  have hA2 : (2 : ℚ) ^ a ≤ 2 * x.num.natAbs := by exact_mod_cast ha2
  have hB1 : (x.den : ℚ) < 2 ^ b := by exact_mod_cast hb1
  have hB2 : (2 : ℚ) ^ b ≤ 2 * x.den := by exact_mod_cast hb2
  have h2a : (0 : ℚ) < 2 ^ a := by positivity
  have h2b : (0 : ℚ) < 2 ^ b := by positivity
  have hz : ∀ d : ℤ, (2 : ℚ) ^ (d + 1) = 2 ^ d * 2 := fun d => by
    rw [zpow_add₀ (by norm_num : (2 : ℚ) ≠ 0), zpow_one]
  have hzab : (2 : ℚ) ^ ((a : ℤ) - (b : ℤ)) = 2 ^ a / 2 ^ b := by
    rw [zpow_sub₀ (by norm_num : (2 : ℚ) ≠ 0), zpow_natCast, zpow_natCast]
  -- lower and upper bound of |x| in terms of a - b
  have hlow : (2 : ℚ) ^ ((a : ℤ) - b - 1) ≤ |x| := by
    have : (2 : ℚ) ^ ((a : ℤ) - b - 1) * 2 = 2 ^ a / 2 ^ b := by
      rw [← hzab, ← hz]
      congr 1
      ring
    rw [habs, le_div_iff₀ hdpos]
    have h3 : (2 : ℚ) ^ ((a : ℤ) - b - 1) = 2 ^ a / 2 ^ b / 2 := by
      rw [← this]; ring
    rw [h3, div_div, div_mul_eq_mul_div, div_le_iff₀ (by positivity)]
    nlinarith
  have hup : |x| < (2 : ℚ) ^ ((a : ℤ) - b + 1) := by
    rw [hz, hzab, habs, div_lt_iff₀ hdpos, div_mul_eq_mul_div, div_mul_eq_mul_div,
      lt_div_iff₀ h2b]
    nlinarith
  unfold binaryExponent
  rw [← ha, ← hb, pow2_eq]
  split
  · rename_i h
    exact ⟨h, hup⟩
  · rename_i h
    refine ⟨hlow, ?_⟩
    rw [sub_add_cancel]
    exact not_le.mp h

theorem roundHalfEven_cases (x : ℚ) :
    (roundHalfEven x = ⌊x⌋ ∧ (x - ⌊x⌋ < 1 / 2 ∨ (x - ⌊x⌋ = 1 / 2 ∧ ⌊x⌋ % 2 = 0))) ∨
      (roundHalfEven x = ⌊x⌋ + 1 ∧ (1 / 2 < x - ⌊x⌋ ∨ (x - ⌊x⌋ = 1 / 2 ∧ ¬ ⌊x⌋ % 2 = 0))) := by
  unfold roundHalfEven
  by_cases h1 : x - ⌊x⌋ < 1 / 2
  · left
    rw [if_pos h1]
    exact ⟨rfl, Or.inl h1⟩
  · rw [if_neg h1]
    by_cases h2 : 1 / 2 < x - ⌊x⌋
    · right
      rw [if_pos h2]
      exact ⟨rfl, Or.inl h2⟩
    · rw [if_neg h2]
      have heq : x - ⌊x⌋ = 1 / 2 := le_antisymm (not_lt.mp h2) (not_lt.mp h1)
      by_cases h3 : ⌊x⌋ % 2 = 0
      · left
        rw [if_pos h3]
        exact ⟨rfl, Or.inr ⟨heq, h3⟩⟩
      · right
        rw [if_neg h3]
        exact ⟨rfl, Or.inr ⟨heq, h3⟩⟩

theorem roundHalfEven_le (x : ℚ) : (roundHalfEven x : ℚ) ≤ x + 1 / 2 := by
  have hf := Int.floor_le x
  rcases roundHalfEven_cases x with ⟨h, _⟩ | ⟨h, h2 | ⟨h2, _⟩⟩
  · rw [h]; linarith
  · rw [h]; push_cast; linarith
  · rw [h]; push_cast; linarith

theorem roundHalfEven_ge (x : ℚ) : x - 1 / 2 ≤ (roundHalfEven x : ℚ) := by
  have hf := Int.lt_floor_add_one x
  rcases roundHalfEven_cases x with ⟨h, h2 | ⟨h2, _⟩⟩ | ⟨h, _⟩
  · rw [h]; linarith
  · rw [h]; linarith
  · rw [h]; push_cast; linarith

theorem roundHalfEven_intCast (n : ℤ) : roundHalfEven (n : ℚ) = n := by
  unfold roundHalfEven
  simp

theorem roundHalfEven_mono {x y : ℚ} (h : x ≤ y) : roundHalfEven x ≤ roundHalfEven y := by
  have hfl : ⌊x⌋ ≤ ⌊y⌋ := Int.floor_mono h
  rcases lt_or_eq_of_le hfl with hlt | heq
  · have h1 : roundHalfEven x ≤ ⌊x⌋ + 1 := by
      rcases roundHalfEven_cases x with ⟨h, _⟩ | ⟨h, _⟩ <;> (rw [h]; try omega)
    have h2 : ⌊y⌋ ≤ roundHalfEven y := by
      rcases roundHalfEven_cases y with ⟨h, _⟩ | ⟨h, _⟩ <;> (rw [h]; try omega)
    omega
  · rcases roundHalfEven_cases x with ⟨hx, _⟩ | ⟨hx, hx2⟩
    · rw [hx, heq]
      rcases roundHalfEven_cases y with ⟨h, _⟩ | ⟨h, _⟩ <;> (rw [h]; try omega)
    · rw [hx, heq]
      rcases roundHalfEven_cases y with ⟨hy, hy2⟩ | ⟨hy, _⟩
      · exfalso
        rw [heq] at hx2
        rcases hx2 with hx2 | ⟨hx2, hodd⟩
        · rcases hy2 with hy2 | ⟨hy2, _⟩ <;> linarith
        · rcases hy2 with hy2 | ⟨_, heven⟩
          · linarith
          · exact hodd heven
      · rw [hy]

theorem two_zpow_split (e : ℤ) (k : ℕ) :
    (2 : ℚ) ^ k * (2 : ℚ) ^ (e - k) = (2 : ℚ) ^ e := by
  rw [← zpow_natCast, ← zpow_add₀ (by norm_num : (2 : ℚ) ≠ 0)]
  congr 1
  ring

theorem toDouble_zero : toDouble 0 = 0 := by
  simp [toDouble]

theorem toDouble_of_ne (x : ℚ) (hx : x ≠ 0) :
    toDouble x = roundHalfEven (x / (2 : ℚ) ^ (max (binaryExponent x) (-1022) - 52)) *
      (2 : ℚ) ^ (max (binaryExponent x) (-1022) - 52) := by
  unfold toDouble
  rw [if_neg hx, pow2_eq]

theorem toDouble_nonneg {x : ℚ} (hx : 0 ≤ x) : 0 ≤ toDouble x := by
  rcases eq_or_lt_of_le hx with h | h
  · rw [← h, toDouble_zero]
  · rw [toDouble_of_ne x h.ne']
    apply mul_nonneg _ (by positivity)
    have h0 : (0 : ℚ) ≤ x / (2 : ℚ) ^ (max (binaryExponent x) (-1022) - 52) := by positivity
    have := roundHalfEven_mono h0
    rw [show (0 : ℚ) = ((0 : ℤ) : ℚ) by norm_num, roundHalfEven_intCast] at this
    exact_mod_cast this

theorem binaryExponent_mono {x y : ℚ} (hx : 0 < x) (h : x ≤ y) :
    binaryExponent x ≤ binaryExponent y := by
  have hy : 0 < y := lt_of_lt_of_le hx h
  obtain ⟨h1, -⟩ := binaryExponent_spec x hx.ne'
  obtain ⟨-, h2⟩ := binaryExponent_spec y hy.ne'
  rw [abs_of_pos hx] at h1
  rw [abs_of_pos hy] at h2
  have h3 : (2 : ℚ) ^ binaryExponent x < (2 : ℚ) ^ (binaryExponent y + 1) :=
    lt_of_le_of_lt (h1.trans h) h2
  have := (zpow_lt_zpow_iff_right₀ (by norm_num : (1 : ℚ) < 2)).mp h3
  omega

/-- Rounding to the nearest double does not change the order of two numbers
that are not negative. -/
theorem toDouble_mono {x y : ℚ} (hx : 0 ≤ x) (h : x ≤ y) : toDouble x ≤ toDouble y := by
  rcases eq_or_lt_of_le hx with h0 | h0
  · rw [← h0, toDouble_zero]
    exact toDouble_nonneg (hx.trans h)
  · have hy : 0 < y := lt_of_lt_of_le h0 h
    have hb := binaryExponent_mono h0 h
    rw [toDouble_of_ne x h0.ne', toDouble_of_ne y hy.ne']
    rcases lt_or_eq_of_le (max_le_max_right (-1022) hb) with hlt | heq
    · -- different binades: a power of two lies between the two results
      have hEy : max (binaryExponent y) (-1022) = binaryExponent y := by
        apply max_eq_left
        have : (-1022 : ℤ) ≤ max (binaryExponent x) (-1022) := le_max_right _ _
        omega
      have hxup : x < (2 : ℚ) ^ (max (binaryExponent x) (-1022) + 1) := by
        have := (binaryExponent_spec x h0.ne').2
        rw [abs_of_pos h0] at this
        refine lt_of_lt_of_le this ?_
        exact zpow_le_zpow_right₀ (by norm_num) (by have := le_max_left (binaryExponent x) (-1022); omega)
      have hylow : (2 : ℚ) ^ binaryExponent y ≤ y := by
        have := (binaryExponent_spec y hy.ne').1
        rwa [abs_of_pos hy] at this
      set ex := max (binaryExponent x) (-1022) with hex
      rw [hEy] at hlt ⊢
      have hux : (0 : ℚ) < (2 : ℚ) ^ (ex - 52) := by positivity
      have huy : (0 : ℚ) < (2 : ℚ) ^ (binaryExponent y - 52) := by positivity
      have e53 : ((2 ^ 53 : ℤ) : ℚ) = (2 : ℚ) ^ 53 := by norm_num
      have e52 : ((2 ^ 52 : ℤ) : ℚ) = (2 : ℚ) ^ 52 := by norm_num
      have s53 : (2 : ℚ) ^ 53 * (2 : ℚ) ^ (ex - 52) = (2 : ℚ) ^ (ex + 1) := by
        have := two_zpow_split (ex + 1) 53
        rw [show ex + 1 - ((53 : ℕ) : ℤ) = ex - 52 by push_cast; ring] at this
        exact this
      have s52 : (2 : ℚ) ^ 52 * (2 : ℚ) ^ (binaryExponent y - 52) =
          (2 : ℚ) ^ binaryExponent y := by
        have := two_zpow_split (binaryExponent y) 52
        rw [show binaryExponent y - ((52 : ℕ) : ℤ) = binaryExponent y - 52 by push_cast; ring]
          at this
        exact this
      have h53 : x / (2 : ℚ) ^ (ex - 52) ≤ ((2 ^ 53 : ℤ) : ℚ) := by
        rw [div_le_iff₀ hux, e53, s53]
        exact hxup.le
      have h52 : ((2 ^ 52 : ℤ) : ℚ) ≤ y / (2 : ℚ) ^ (binaryExponent y - 52) := by
        rw [le_div_iff₀ huy, e52, s52]
        exact hylow
      have r53 := roundHalfEven_mono h53
      have r52 := roundHalfEven_mono h52
      rw [roundHalfEven_intCast] at r53 r52
      have r53q : (roundHalfEven (x / (2 : ℚ) ^ (ex - 52)) : ℚ) ≤ (2 : ℚ) ^ 53 := by
        rw [← e53]
        exact_mod_cast r53
      have r52q : (2 : ℚ) ^ 52 ≤ (roundHalfEven (y / (2 : ℚ) ^ (binaryExponent y - 52)) : ℚ) := by
        rw [← e52]
        exact_mod_cast r52
      calc (roundHalfEven (x / (2 : ℚ) ^ (ex - 52)) : ℚ) * (2 : ℚ) ^ (ex - 52)
          ≤ (2 : ℚ) ^ 53 * (2 : ℚ) ^ (ex - 52) := mul_le_mul_of_nonneg_right r53q hux.le
        _ = (2 : ℚ) ^ (ex + 1) := s53
        _ ≤ (2 : ℚ) ^ binaryExponent y := zpow_le_zpow_right₀ (by norm_num) (by omega)
        _ = (2 : ℚ) ^ 52 * (2 : ℚ) ^ (binaryExponent y - 52) := s52.symm
        _ ≤ _ := mul_le_mul_of_nonneg_right r52q huy.le
    · rw [heq]
      have hu : (0 : ℚ) < (2 : ℚ) ^ (max (binaryExponent y) (-1022) - 52) := by positivity
      apply mul_le_mul_of_nonneg_right _ hu.le
      exact_mod_cast roundHalfEven_mono (div_le_div_of_nonneg_right h hu.le)

/-- The relative error of rounding to the nearest double, upwards, outside the
subnormal range. -/
theorem toDouble_le_mul {x : ℚ} (hx : (2 : ℚ) ^ (-1022 : ℤ) ≤ x) :
    toDouble x ≤ x * (1 + 1 / 2 ^ 53) := by
  have h0 : 0 < x := lt_of_lt_of_le (by positivity) hx
  have hb : -1022 ≤ binaryExponent x := by
    have := (binaryExponent_spec x h0.ne').2
    rw [abs_of_pos h0] at this
    have h3 := (zpow_lt_zpow_iff_right₀ (by norm_num : (1 : ℚ) < 2)).mp (lt_of_le_of_lt hx this)
    omega
  rw [toDouble_of_ne x h0.ne', max_eq_left hb]
  have hu : (0 : ℚ) < (2 : ℚ) ^ (binaryExponent x - 52) := by positivity
  have hlow : (2 : ℚ) ^ binaryExponent x ≤ x := by
    have := (binaryExponent_spec x h0.ne').1
    rwa [abs_of_pos h0] at this
  have hs : (2 : ℚ) ^ 52 ≤ x / (2 : ℚ) ^ (binaryExponent x - 52) := by
    rw [le_div_iff₀ hu]
    have := two_zpow_split (binaryExponent x) 52
    rw [show binaryExponent x - ((52 : ℕ) : ℤ) = binaryExponent x - 52 by push_cast; ring] at this
    rw [this]
    exact hlow
  have hr := roundHalfEven_le (x / (2 : ℚ) ^ (binaryExponent x - 52))
  have hx2 : x = x / (2 : ℚ) ^ (binaryExponent x - 52) * (2 : ℚ) ^ (binaryExponent x - 52) := by
    field_simp
  set s := x / (2 : ℚ) ^ (binaryExponent x - 52) with hsdef
  set u := (2 : ℚ) ^ (binaryExponent x - 52) with hudef
  calc (roundHalfEven s : ℚ) * u ≤ (s + 1 / 2) * u := mul_le_mul_of_nonneg_right hr hu.le
    _ ≤ (s + s * (1 / 2 ^ 53)) * u := by
      apply mul_le_mul_of_nonneg_right _ hu.le
      have : (1 : ℚ) / 2 ≤ s * (1 / 2 ^ 53) := by
        have : (2 : ℚ) ^ 52 * (1 / 2 ^ 53) = 1 / 2 := by norm_num
        nlinarith
      linarith
    _ = x * (1 + 1 / 2 ^ 53) := by rw [hx2]; ring

/-- The distance between a number that is not negative and the nearest double,
for a number of at most `2 ^ k` that is not subnormal. -/
theorem toDouble_sub_abs_le {x : ℚ} (k : ℤ) (hx : 0 ≤ x) (hxk : x ≤ (2 : ℚ) ^ k)
    (hk : -1022 ≤ k) : |toDouble x - x| ≤ (2 : ℚ) ^ (k - 53) := by
  rcases eq_or_lt_of_le hx with h0 | h0
  · rw [← h0, toDouble_zero]
    simp only [sub_zero, abs_zero]
    positivity
  · have hb : binaryExponent x ≤ k := by
      have := (binaryExponent_spec x h0.ne').1
      rw [abs_of_pos h0] at this
      exact (zpow_le_zpow_iff_right₀ (by norm_num : (1 : ℚ) < 2)).mp (this.trans hxk)
    have hE : max (binaryExponent x) (-1022) ≤ k := max_le hb hk
    rw [toDouble_of_ne x h0.ne']
    set u := (2 : ℚ) ^ (max (binaryExponent x) (-1022) - 52) with hu
    have hupos : 0 < u := by positivity
    have hx2 : x = x / u * u := by field_simp
    have h1 := roundHalfEven_le (x / u)
    have h2 := roundHalfEven_ge (x / u)
    have hhalf : u * (1 / 2) ≤ (2 : ℚ) ^ (k - 53) := by
      have : u * (1 / 2) = (2 : ℚ) ^ (max (binaryExponent x) (-1022) - 53) := by
        rw [hu, show max (binaryExponent x) (-1022) - 52 =
          (max (binaryExponent x) (-1022) - 53) + 1 by ring,
          zpow_add₀ (by norm_num : (2 : ℚ) ≠ 0), zpow_one]
        ring
      rw [this]
      exact zpow_le_zpow_right₀ (by norm_num) (by omega)
    have hdiff : (roundHalfEven (x / u) : ℚ) * u - x =
        ((roundHalfEven (x / u) : ℚ) - x / u) * u := by
      rw [sub_mul, ← hx2]
    rw [hdiff, abs_mul, abs_of_pos hupos]
    have habs : |(roundHalfEven (x / u) : ℚ) - x / u| ≤ 1 / 2 := by
      rw [abs_le]
      constructor <;> linarith
    calc |(roundHalfEven (x / u) : ℚ) - x / u| * u ≤ 1 / 2 * u :=
          mul_le_mul_of_nonneg_right habs hupos.le
      _ = u * (1 / 2) := by ring
      _ ≤ _ := hhalf

theorem toDouble_one : toDouble 1 = 1 := by decide!

theorem toDouble_hundred : toDouble 100 = 100 := by decide!

/-- A natural number of at most `2 ^ 53` is a double. -/
theorem toDouble_natCast (m : ℕ) (hm : m ≤ 2 ^ 53) : toDouble (m : ℚ) = m := by
  rcases Nat.eq_zero_or_pos m with h0 | h0
  · subst h0
    simp [toDouble_zero]
  · have hpos : (0 : ℚ) < m := by exact_mod_cast h0
    have h1 : (1 : ℚ) ≤ m := by exact_mod_cast h0
    obtain ⟨hlow, hup⟩ := binaryExponent_spec (m : ℚ) hpos.ne'
    rw [abs_of_pos hpos] at hlow hup
    have he0 : 0 ≤ binaryExponent (m : ℚ) := by
      have : (2 : ℚ) ^ (0 : ℤ) < (2 : ℚ) ^ (binaryExponent (m : ℚ) + 1) := by
        rw [zpow_zero]
        exact lt_of_le_of_lt h1 hup
      have := (zpow_lt_zpow_iff_right₀ (by norm_num : (1 : ℚ) < 2)).mp this
      omega
    have he53 : binaryExponent (m : ℚ) ≤ 53 := by
      have hm' : (m : ℚ) ≤ (2 : ℚ) ^ (53 : ℤ) := by
        have h53 : (m : ℚ) ≤ ((2 ^ 53 : ℕ) : ℚ) := by exact_mod_cast hm
        have e53 : ((2 ^ 53 : ℕ) : ℚ) = (2 : ℚ) ^ (53 : ℤ) := by norm_num
        rw [e53] at h53
        exact h53
      exact (zpow_le_zpow_iff_right₀ (by norm_num : (1 : ℚ) < 2)).mp (hlow.trans hm')
    rw [toDouble_of_ne _ hpos.ne', max_eq_left (by omega)]
    obtain ⟨e, he⟩ := Int.eq_ofNat_of_zero_le he0
    rw [he] at hlow hup he53 ⊢
    have he53' : e ≤ 53 := by exact_mod_cast he53
    rcases Nat.lt_or_ge e 53 with hlt | hge
    · -- the quotient by the unit is the integer `m * 2 ^ (52 - e)`
      have hu : (2 : ℚ) ^ ((e : ℤ) - 52) = 1 / (2 : ℚ) ^ (52 - e) := by
        rw [show (e : ℤ) - 52 = -((52 - e : ℕ) : ℤ) by omega, zpow_neg, zpow_natCast, one_div]
      rw [hu]
      have hq : (m : ℚ) / (1 / (2 : ℚ) ^ (52 - e)) = ((m * 2 ^ (52 - e) : ℕ) : ℤ) := by
        push_cast
        field_simp
      rw [hq, roundHalfEven_intCast]
      push_cast
      field_simp
    · have he' : e = 53 := by omega
      subst he'
      have hm2 : (m : ℚ) = 2 ^ 53 := by
        have h2 : ((2 ^ 53 : ℕ) : ℚ) ≤ m := by
          have := hlow
          rw [zpow_natCast] at this
          exact_mod_cast this
        have h3 : (m : ℚ) ≤ ((2 ^ 53 : ℕ) : ℚ) := by exact_mod_cast hm
        have := le_antisymm h3 h2
        rw [this]
        norm_num
      rw [hm2]
      have hq : (2 : ℚ) ^ 53 / (2 : ℚ) ^ (((53 : ℕ) : ℤ) - 52) = ((2 ^ 52 : ℤ) : ℚ) := by
        norm_num
      rw [hq, roundHalfEven_intCast]
      norm_num

/-! ## Rounding and the accumulation loop -/

theorem mathRound_nonneg {x : ℚ} (hx : 0 ≤ x) : 0 ≤ mathRound x := by
  unfold mathRound
  exact Int.floor_nonneg.mpr (by linarith)

theorem mathRound_mono {x y : ℚ} (h : x ≤ y) : mathRound x ≤ mathRound y := by
  unfold mathRound
  exact Int.floor_mono (by linarith)

theorem mathRound_hundred : mathRound 100 = 100 := by
  unfold mathRound
  rw [Int.floor_eq_iff]
  constructor <;> norm_num

theorem min_mathRound_comm (x : ℚ) : min 100 (mathRound x) = mathRound (min 100 x) := by
  rcases le_total x 100 with h | h
  · have h1 : mathRound x ≤ 100 := by
      have := mathRound_mono h
      rwa [mathRound_hundred] at this
    rw [min_eq_right h1, min_eq_right h]
  · have h1 : 100 ≤ mathRound x := by
      have := mathRound_mono h
      rwa [mathRound_hundred] at this
    rw [min_eq_left h1, min_eq_left h, mathRound_hundred]

/-- The loop leaves in the accumulator the sum and the number of the matched
occurrences, added to what it started from. -/
theorem foldl_scoreTerm (μ : Measure) (tfidf : TfIdf) (terms : List String) (acc : ℚ × ℕ) :
    terms.foldl (scoreTerm μ tfidf) acc =
      (acc.1 + ((matchedTerms μ tfidf terms).map fun term =>
          μ tfidf.documents term 0 * μ tfidf.documents term 1).sum,
        acc.2 + (matchedTerms μ tfidf terms).length) := by
  induction terms generalizing acc with
  | nil => simp [matchedTerms]
  | cons t ts ih =>
    rw [List.foldl_cons, ih]
    unfold matchedTerms at *
    by_cases h1 : 2 < t.length
    · by_cases h2 : 0 < μ tfidf.documents t 0
      · simp [scoreTerm, TfIdf.tfidf, List.filter_cons, h1, h2, add_assoc, Nat.add_comm 1]
      · simp [scoreTerm, TfIdf.tfidf, List.filter_cons, h1, h2]
    · simp [scoreTerm, List.filter_cons, h1]

theorem finalScore_eq_spec (μ : Measure) (tfidf : TfIdf) (terms : List String) :
    finalScore μ tfidf terms = baseScoreSpec μ tfidf terms := by
  unfold finalScore baseScoreSpec
  simp only [foldl_scoreTerm, zero_add, gt_iff_lt, min_mathRound_comm]

theorem finalScore_le (μ : Measure) (tfidf : TfIdf) (terms : List String) :
    finalScore μ tfidf terms ≤ 100 := by
  unfold finalScore
  simp only
  split
  · exact min_le_left _ _
  · norm_num

theorem finalScore_nonneg (μ : Measure) (tfidf : TfIdf) (terms : List String)
    (hμ : ∀ term d, 0 ≤ tfidf.tfidf μ term d) : 0 ≤ finalScore μ tfidf terms := by
  rw [finalScore_eq_spec]
  unfold baseScoreSpec
  simp only
  split
  · apply mathRound_nonneg
    apply le_min (by norm_num)
    apply mul_nonneg _ (by norm_num)
    apply div_nonneg _ (Nat.cast_nonneg _)
    apply List.sum_nonneg
    intro x hx
    obtain ⟨t, -, rfl⟩ := List.mem_map.mp hx
    exact mul_nonneg (hμ t 0) (hμ t 1)
  · exact le_refl _

/-! ## The two adjustments in closed form -/

theorem firstNonEmpty_three (a b c : Option String) :
    firstNonEmpty [a, b, c] =
      if truthy (orElse (orElse a b) c) then orElse (orElse a b) c else none := by
  rcases a with _ | a <;> rcases b with _ | b <;> rcases c with _ | c <;>
    simp only [firstNonEmpty, orElse, truthy] <;>
    (try by_cases ha : a = "") <;> (try by_cases hb : b = "") <;>
    (try by_cases hc : c = "") <;> simp_all

theorem toLowerCase_empty [CaseMapping] : toLowerCase "" = "" :=
  CaseMapping.lower_ascii "" (by simp)

theorem includes_empty_left [CaseMapping] (place : String) (hp : place ≠ "") :
    includes (toLowerCase "") (toLowerCase place) = false := by
  have hne : toLowerCase place ≠ "" := fun h => hp (CaseMapping.lower_eq_empty place h)
  rw [toLowerCase_empty]
  rcases hl : toLowerCase place with ⟨cs⟩
  rcases cs with _ | ⟨c, cs⟩
  · exact absurd hl hne
  · simp [includes, List.isPrefixOf]

theorem locationAdjustment_eq [CaseMapping] (job : Job) (userProfile : UserProfile) (x : ℤ) :
    locationAdjustment job userProfile x =
      x + (if remoteBonusApplies job userProfile then 10
        else if locationRuleMatches job userProfile then 10 else 0) := by
  unfold locationAdjustment remoteBonusApplies locationRuleMatches
  rcases userProfile with ⟨basic, preferences, professional, skills⟩
  rcases job with ⟨title, company, location, description, requirements, remote, employmentType⟩
  by_cases hr : (match preferences with
      | some preferences => preferences.remoteWork && remote
      | none => false) = true
  · have hr2 : (remote && (preferences.map fun p => p.remoteWork) == some true) = true := by
      rcases preferences with _ | ⟨remoteWork, employmentTypes⟩
      · simp at hr
      · cases remote <;> cases remoteWork <;> simp at hr ⊢
    simp only [hr, hr2, if_true]
  · have hr2 : ¬ (remote && (preferences.map fun p => p.remoteWork) == some true) = true := by
      rcases preferences with _ | ⟨remoteWork, employmentTypes⟩
      · simp
      · cases remote <;> cases remoteWork <;> simp at hr ⊢
    simp only [hr, hr2, if_false]
    rcases basic with _ | ⟨loc⟩
    · rcases location with _ | text <;> simp
    · rcases loc with _ | ⟨city, state, country⟩
      · rcases location with _ | text <;> simp
      · rcases location with _ | text
        · simp [truthy]
        · simp only [Option.bind, firstNonEmpty_three]
          by_cases ht : text = ""
          · subst ht
            by_cases hu : truthy (orElse (orElse city state) country) = true
            · simp only [hu, if_true]
              rcases hv : orElse (orElse city state) country with _ | place
              · rw [hv] at hu; simp [truthy] at hu
              · rw [hv] at hu
                have hp : place ≠ "" := by simpa [truthy] using hu
                simp [truthy, includes_empty_left place hp]
            · simp only [hu, Bool.false_eq_true, if_false]
              simp [truthy]
          · by_cases hu : truthy (orElse (orElse city state) country) = true
            · simp only [hu, if_true]
              rcases hv : orElse (orElse city state) country with _ | place
              · rw [hv] at hu; simp [truthy] at hu
              · by_cases hi : includes (toLowerCase text) (toLowerCase place) = true <;>
                  simp [truthy, ht, render, hi]
            · simp only [hu, Bool.false_eq_true, if_false, Bool.false_and]
              have ht2 : truthy (some text) = true := by simp [truthy, ht]
              simp [ht2]

theorem employmentAdjustment_eq (job : Job) (userProfile : UserProfile) (x : ℤ) :
    employmentAdjustment job userProfile x =
      x + (if employmentTypeAccepted job userProfile then 10 else 0) := by
  unfold employmentAdjustment employmentTypeAccepted
  rcases userProfile with ⟨basic, preferences, professional, skills⟩
  rcases job with ⟨title, company, location, description, requirements, remote, employmentType⟩
  rcases preferences with _ | ⟨remoteWork, employmentTypes⟩
  · rcases employmentType with _ | label <;> simp
  · rcases employmentTypes with _ | accepted
    · rcases employmentType with _ | label <;> simp
    · rcases employmentType with _ | label
      · simp [truthy]
      · by_cases hl : label = ""
        · simp [truthy, hl]
        · by_cases hm : label ∈ accepted <;> simp [truthy, hl, hm, render]

/-! ## Claims on `calculateMatchScore` -/

/-- C1: for every job, profile and engine state, when the weights reported by
the two-document scorer of the call are non-negative, `calculateMatchScore`
returns a value between 0 and 100. -/
theorem calculateMatchScore_range [CaseMapping]
    (μ : Measure) (engine : JobMatchingEngine) (job : Job)
    (userProfile : UserProfile)
    (hμ : ∀ term d, 0 ≤ (scorerFor job userProfile).tfidf μ term d) :
    0 ≤ (engine.calculateMatchScore μ job userProfile).1 ∧
      (engine.calculateMatchScore μ job userProfile).1 ≤ 100 := by
  have h0 := finalScore_nonneg μ (scorerFor job userProfile) (userTerms userProfile) hμ
  simp only [JobMatchingEngine.calculateMatchScore, locationAdjustment_eq,
    employmentAdjustment_eq]
  refine ⟨le_min (by norm_num) ?_, min_le_left _ _⟩
  have h1 : (0 : ℤ) ≤ if remoteBonusApplies job userProfile = true then 10
      else if locationRuleMatches job userProfile = true then 10 else 0 := by
    split_ifs <;> norm_num
  have h2 : (0 : ℤ) ≤ if employmentTypeAccepted job userProfile = true then 10 else 0 := by
    split_ifs <;> norm_num
  have h3 : finalScore μ (scorerFor job userProfile) (userTerms userProfile) =
      finalScore μ ((TfIdf.empty.addDocument (preprocessText (jobDocument job))).addDocument
        (preprocessText (userDocument userProfile))) (userTerms userProfile) := rfl
  rw [h3] at h0
  linarith

/-- C1, at the scenario of spec section 8 with the unit scorer. -/
theorem calculateMatchScore_range_witness :
    (∀ term d, 0 ≤ (scorerFor backendJob backendProfile).tfidf unitMeasure term d) ∧
      0 ≤ (JobMatchingEngine.create.calculateMatchScore unitMeasure backendJob
        backendProfile).1 ∧
      (JobMatchingEngine.create.calculateMatchScore unitMeasure backendJob
        backendProfile).1 ≤ 100 :=
  ⟨fun _ _ => by simp [TfIdf.tfidf, unitMeasure],
    calculateMatchScore_range unitMeasure JobMatchingEngine.create backendJob backendProfile
      (fun _ _ => by simp [TfIdf.tfidf, unitMeasure])⟩

/-- C2: the score is `min(100, base + r + e)`, where `base` is the base score,
`r` is 10 if the profile prefers remote work and the job is remote, otherwise 10
if the location rule matches, otherwise 0, and `e` is 10 if the job's
employment type label is present and among the accepted employment types,
otherwise 0; the remote and location bonuses are never both applied (`r ≤ 10`)
and the total bonus is at most 20. -/
theorem calculateMatchScore_bonuses [CaseMapping]
    (μ : Measure) (engine : JobMatchingEngine) (job : Job)
    (userProfile : UserProfile) :
    (engine.calculateMatchScore μ job userProfile).1 =
        min 100
          (finalScore μ (scorerFor job userProfile) (userTerms userProfile) +
            (if remoteBonusApplies job userProfile then 10
              else if locationRuleMatches job userProfile then 10 else 0) +
            (if employmentTypeAccepted job userProfile then 10 else 0)) ∧
      (if remoteBonusApplies job userProfile then 10
        else if locationRuleMatches job userProfile then 10 else 0) ≤ (10 : ℤ) ∧
      (if remoteBonusApplies job userProfile then 10
          else if locationRuleMatches job userProfile then 10 else 0) +
        (if employmentTypeAccepted job userProfile then 10 else 0) ≤ (20 : ℤ) := by
  refine ⟨?_, ?_, ?_⟩
  · simp only [JobMatchingEngine.calculateMatchScore, locationAdjustment_eq,
      employmentAdjustment_eq]
    rfl
  · split_ifs <;> norm_num
  · split_ifs <;> norm_num

theorem preprocessText_empty [CaseMapping] : preprocessText "" = "" := by
  unfold preprocessText
  rw [toLowerCase_empty]
  rfl

/-- Token lists without a token longer than two characters have no matched
occurrence, and base score 0. -/
theorem baseScoreSpec_short (μ : Measure) (tfidf : TfIdf) (terms : List String)
    (hshort : ∀ term ∈ terms, term.length ≤ 2) : baseScoreSpec μ tfidf terms = 0 := by
  have h : matchedTerms μ tfidf terms = [] := by
    unfold matchedTerms
    rw [List.filter_eq_nil_iff]
    intro t ht
    have := hshort t ht
    simp only [Bool.and_eq_true, decide_eq_true_eq, not_and]
    omega
  simp [baseScoreSpec, h]

/-- C3: the score returned by `calculateMatchScore` is the cap at 100 of the two
adjustments applied to the specification's base score,
`round(min(100, (total / termCount) × 100))` when `termCount > 0` and 0
otherwise, where `total` and `termCount` range over exactly the occurrences of
tokens of the preprocessed profile document that are longer than two characters
and whose weight in the job document of the two-document scorer is positive;
`min(100, round x)` equals `round(min(100, x))` for every `x`; and when no
token of the profile document is longer than two characters, or that document
is empty after preprocessing, the base score is 0. -/
theorem calculateMatchScore_base_score [CaseMapping] (μ : Measure) (engine : JobMatchingEngine)
    (job : Job) (userProfile : UserProfile) :
    (engine.calculateMatchScore μ job userProfile).1 =
        min 100 (employmentAdjustment job userProfile (locationAdjustment job userProfile
          (baseScoreSpec μ
            ⟨[preprocessText (jobDocument job), preprocessText (userDocument userProfile)]⟩
            (split (preprocessText (userDocument userProfile)))))) ∧
      (∀ x : ℚ, min 100 (mathRound x) = mathRound (min 100 x)) ∧
      ((∀ term ∈ split (preprocessText (userDocument userProfile)), term.length ≤ 2) →
        baseScoreSpec μ
            ⟨[preprocessText (jobDocument job), preprocessText (userDocument userProfile)]⟩
            (split (preprocessText (userDocument userProfile))) = 0 ∧
          (engine.calculateMatchScore μ job userProfile).1 =
            min 100 (employmentAdjustment job userProfile
              (locationAdjustment job userProfile 0))) ∧
      (preprocessText (userDocument userProfile) = "" →
        baseScoreSpec μ
            ⟨[preprocessText (jobDocument job), preprocessText (userDocument userProfile)]⟩
            (split (preprocessText (userDocument userProfile))) = 0 ∧
          (engine.calculateMatchScore μ job userProfile).1 =
            min 100 (employmentAdjustment job userProfile
              (locationAdjustment job userProfile 0))) := by
  have hscore : (engine.calculateMatchScore μ job userProfile).1 =
      min 100 (employmentAdjustment job userProfile (locationAdjustment job userProfile
        (baseScoreSpec μ
          ⟨[preprocessText (jobDocument job), preprocessText (userDocument userProfile)]⟩
          (split (preprocessText (userDocument userProfile)))))) := by
    rw [← finalScore_eq_spec]
    rfl
  have hzero : (∀ term ∈ split (preprocessText (userDocument userProfile)), term.length ≤ 2) →
      baseScoreSpec μ
          ⟨[preprocessText (jobDocument job), preprocessText (userDocument userProfile)]⟩
          (split (preprocessText (userDocument userProfile))) = 0 ∧
        (engine.calculateMatchScore μ job userProfile).1 =
          min 100 (employmentAdjustment job userProfile
            (locationAdjustment job userProfile 0)) := by
    intro hshort
    have h0 := baseScoreSpec_short μ
      ⟨[preprocessText (jobDocument job), preprocessText (userDocument userProfile)]⟩
      (split (preprocessText (userDocument userProfile))) hshort
    refine ⟨h0, ?_⟩
    rw [hscore, h0]
  refine ⟨hscore, min_mathRound_comm, hzero, ?_⟩
  intro hempty
  apply hzero
  rw [hempty]
  intro term hterm
  have hsplit : split "" = [""] := by decide
  rw [hsplit, List.mem_singleton] at hterm
  rw [hterm]
  decide

/-- C4: the score returned by `calculateMatchScore` does not depend on the state
of the engine's scorer field before the call, in particular not on which pairs
were scored earlier. -/
theorem calculateMatchScore_independent_of_state [CaseMapping]
    (μ : Measure) (engine₁ engine₂ : JobMatchingEngine)
    (job : Job) (userProfile : UserProfile) :
    (engine₁.calculateMatchScore μ job userProfile).1 =
        (engine₂.calculateMatchScore μ job userProfile).1 ∧
      ∀ (job₁ job₂ : Job) (profile₁ profile₂ : UserProfile),
        ((engine₁.calculateMatchScore μ job₁ profile₁).2.calculateMatchScore μ job
            userProfile).1 =
          ((engine₂.calculateMatchScore μ job₂ profile₂).2.calculateMatchScore μ job
            userProfile).1 :=
  ⟨rfl, fun _ _ _ _ => rfl⟩

/-- C5, as stated, fails: after scoring the scenario of spec section 8 the
scorer field of a newly constructed engine holds the two documents of the call,
so the engine is not as it was before the call. -/
theorem calculateMatchScore_mutates_engine :
    (JobMatchingEngine.create.calculateMatchScore unitMeasure backendJob backendProfile).2 ≠
      JobMatchingEngine.create := by
  decide

/-- C5, amended: a call of `calculateMatchScore` replaces the scorer field of
the engine by a new scorer that holds exactly the two preprocessed documents of
this call, the job document and then the profile document, whatever the field
held before. -/
theorem calculateMatchScore_resets_scorer [CaseMapping]
    (μ : Measure) (engine : JobMatchingEngine) (job : Job)
    (userProfile : UserProfile) :
    (engine.calculateMatchScore μ job userProfile).2 = { tfidf := scorerFor job userProfile } ∧
      (engine.calculateMatchScore μ job userProfile).2.tfidf.documents =
        [preprocessText (jobDocument job), preprocessText (userDocument userProfile)] :=
  ⟨rfl, rfl⟩

/-- The scores of calls served one after the other do not depend on the engine
they start from. -/
theorem scoreInOrder_scores [CaseMapping] (μ : Measure) (calls : List (Job × UserProfile))
    (engine : JobMatchingEngine) :
    (JobMatchingEngine.scoreInOrder μ calls engine).1 =
      calls.map fun call => (JobMatchingEngine.create.calculateMatchScore μ call.1 call.2).1 := by
  induction calls generalizing engine with
  | nil => rfl
  | cons call calls ih =>
    simp only [JobMatchingEngine.scoreInOrder, List.map_cons, ih]
    rfl

/-- C6: two calls of `calculateMatchScore` in flight on the shared engine are
served in one of their two orders, and in both orders, from every state of the
engine, each call returns the score it returns when run alone on a newly
constructed engine; the same holds for any number of calls served in any
order. -/
theorem calculateMatchScore_concurrent_calls [CaseMapping] (μ : Measure)
    (engine : JobMatchingEngine) (job₁ job₂ : Job) (profile₁ profile₂ : UserProfile)
    (calls : List (Job × UserProfile)) :
    (JobMatchingEngine.scoreInOrder μ [(job₁, profile₁), (job₂, profile₂)] engine).1 =
        [(JobMatchingEngine.create.calculateMatchScore μ job₁ profile₁).1,
          (JobMatchingEngine.create.calculateMatchScore μ job₂ profile₂).1] ∧
      (JobMatchingEngine.scoreInOrder μ [(job₂, profile₂), (job₁, profile₁)] engine).1 =
        [(JobMatchingEngine.create.calculateMatchScore μ job₂ profile₂).1,
          (JobMatchingEngine.create.calculateMatchScore μ job₁ profile₁).1] ∧
      (JobMatchingEngine.scoreInOrder μ calls engine).1 =
        calls.map fun call =>
          (JobMatchingEngine.create.calculateMatchScore μ call.1 call.2).1 :=
  ⟨scoreInOrder_scores μ _ engine, scoreInOrder_scores μ _ engine,
    scoreInOrder_scores μ calls engine⟩

/-! ## Objects as dictionaries -/

theorem Props.map_fst_replace {α : Type} (object : Props α) (key : String) (value : α) :
    (object.replace key value).map Prod.fst = object.map Prod.fst := by
  unfold Props.replace
  rw [List.map_map]
  apply List.map_congr_left
  intro p _
  by_cases h : p.1 = key <;> simp [h]

theorem Props.mem_of_lookup {α : Type} {object : Props α} {key : String} {value : α}
    (h : object.lookup key = some value) : (key, value) ∈ object := by
  obtain ⟨l₁, l₂, rfl, -⟩ := List.lookup_eq_some_iff.mp h
  simp

theorem Props.not_mem_of_lookup {α : Type} {object : Props α} {key : String}
    (h : object.lookup key = none) : key ∉ object.map Prod.fst := by
  intro hk
  obtain ⟨p, hp, rfl⟩ := List.mem_map.mp hk
  have := List.lookup_eq_none_iff.mp h p hp
  simp at this

theorem Props.ordered_perm {α : Type} (object : Props α) : object.ordered.Perm object := by
  unfold Props.ordered
  exact ((List.perm_insertionSort _ _).append_right _).trans (List.filter_append_perm _ _)

theorem sortBy_perm {α : Type} (le : α → α → Bool) (xs : List α) : (sortBy le xs).Perm xs :=
  List.perm_insertionSort _ _

/-! ## The aggregation of `identifySkillClusters` -/

namespace SkillAnalysisEngine

theorem roleCounts_eq_foldl (skillMappings : List SkillToRole) :
    roleCounts skillMappings =
      (skillMappings.flatMap fun mapping => mapping.roles).foldl countRole [] := by
  unfold roleCounts
  generalize ([] : Props RoleCount) = init
  induction skillMappings generalizing init with
  | nil => rfl
  | cons m ms ih => simp [List.flatMap_cons, List.foldl_append, ih]

/-- After the loop the names of `roleCounts` are distinct, every title met that
is not inherited has an entry, and each entry holds the number of occurrences
of its title and the sum of their relevance scores, added one by one in the
order of the occurrences, each addition rounded to a double. -/
theorem foldl_countRole_spec (rs : List RoleRelevance) :
    ((rs.foldl countRole []).map Prod.fst).Nodup ∧
      (∀ r ∈ rs, r.title ∉ objectPrototypeKeys →
        r.title ∈ (rs.foldl countRole []).map Prod.fst) ∧
      ∀ p ∈ rs.foldl countRole [],
        p.1 ∉ objectPrototypeKeys ∧
          p.2.count = (rs.filter fun r => r.title = p.1).length ∧
          p.2.totalRelevance =
            ((rs.filter fun r => r.title = p.1).map fun r => r.relevanceScore).foldl fadd
              0 := by
  induction rs using List.reverseRecOn with
  | nil => simp
  | append_singleton rs r ih =>
    obtain ⟨hnd, hc, hs⟩ := ih
    rw [List.foldl_append, List.foldl_cons, List.foldl_nil]
    generalize rs.foldl countRole [] = acc at *
    unfold countRole
    cases hl : acc.lookup r.title with
    | some e =>
      have he := Props.mem_of_lookup hl
      simp only [Props.map_fst_replace]
      refine ⟨hnd, ?_, ?_⟩
      · intro r' hr' hp
        rcases List.mem_append.mp hr' with h | h
        · exact hc r' h hp
        · rw [List.mem_singleton.mp h]
          exact List.mem_map.mpr ⟨_, he, rfl⟩
      · intro p hp
        unfold Props.replace at hp
        obtain ⟨q, hq, rfl⟩ := List.mem_map.mp hp
        by_cases hk : q.1 = r.title
        · have h1 := hs _ he
          simp only [hk, if_true, List.filter_append, List.length_append, List.map_append,
            List.foldl_append]
          refine ⟨h1.1, ?_, ?_⟩
          · simpa using h1.2.1
          · simp [← h1.2.2]
        · have h1 := hs _ hq
          have hk2 : ¬ r.title = q.1 := fun h => hk h.symm
          simp only [hk, if_false, List.filter_append, List.length_append, List.map_append,
            List.foldl_append]
          refine ⟨h1.1, ?_, ?_⟩
          · simp [h1.2.1, hk2]
          · simp [h1.2.2, hk2]
    | none =>
      have hn := Props.not_mem_of_lookup hl
      by_cases hp : objectPrototypeKeys.contains r.title = true
      · simp only [hp, if_true]
        have hp2 : r.title ∈ objectPrototypeKeys := by simpa using hp
        refine ⟨hnd, ?_, ?_⟩
        · intro r' hr' hp'
          rcases List.mem_append.mp hr' with h | h
          · exact hc r' h hp'
          · rw [List.mem_singleton.mp h] at hp'
            exact absurd hp2 hp'
        · intro p hpm
          have h1 := hs _ hpm
          have hk2 : ¬ r.title = p.1 := fun h => h1.1 (h ▸ hp2)
          simp only [List.filter_append, List.length_append, List.map_append,
            List.foldl_append]
          refine ⟨h1.1, ?_, ?_⟩
          · simp [h1.2.1, hk2]
          · simp [h1.2.2, hk2]
      · simp only [hp, Bool.false_eq_true, if_false]
        have hp2 : r.title ∉ objectPrototypeKeys := by simpa using hp
        have hnone : (rs.filter fun r' => r'.title = r.title) = [] := by
          rw [List.filter_eq_nil_iff]
          intro r' hr' ht
          simp only [decide_eq_true_eq] at ht
          exact hn (ht ▸ hc r' hr' (ht ▸ hp2))
        refine ⟨?_, ?_, ?_⟩
        · rw [List.map_append, List.nodup_append]
          refine ⟨hnd, by simp, ?_⟩
          intro a ha hb
          simp only [List.map_cons, List.map_nil, List.mem_singleton] at hb
          exact hn (hb ▸ ha)
        · intro r' hr' hp'
          rw [List.map_append, List.mem_append]
          rcases List.mem_append.mp hr' with h | h
          · exact Or.inl (hc r' h hp')
          · right
            rw [List.mem_singleton.mp h]
            simp
        · intro p hpm
          rcases List.mem_append.mp hpm with h | h
          · have h1 := hs _ h
            have hk2 : ¬ r.title = p.1 := fun hh => hn (hh ▸ List.mem_map.mpr ⟨p, h, rfl⟩)
            simp only [List.filter_append, List.length_append, List.map_append,
              List.foldl_append]
            refine ⟨h1.1, ?_, ?_⟩
            · simp [h1.2.1, hk2]
            · simp [h1.2.2, hk2]
          · rw [List.mem_singleton.mp h]
            simp only [List.filter_append, List.length_append, List.map_append,
              List.foldl_append, hnone]
            refine ⟨hp2, ?_, ?_⟩ <;> simp

end SkillAnalysisEngine

/-! ## The ranking of `identifySkillClusters` -/

namespace SkillAnalysisEngine

theorem rankedBefore_iff (a b : RankedRole) :
    rankedBefore a b = true ↔
      b.count < a.count ∨ (b.count = a.count ∧ b.averageRelevance ≤ a.averageRelevance) := by
  unfold rankedBefore
  by_cases h : b.count = a.count
  · simp [h]
  · have h2 : ((b.count : ℚ) - a.count ≤ 0) ↔ b.count < a.count := by
      rw [sub_nonpos, Nat.cast_le]
      omega
    simp [h, h2]

theorem sortedRoles_pairwise (skillMappings : List SkillToRole) :
    (sortedRoles skillMappings).Pairwise fun a b =>
      b.count < a.count ∨ (b.count = a.count ∧ b.averageRelevance ≤ a.averageRelevance) := by
  haveI : IsTotal RankedRole fun a b => rankedBefore a b = true :=
    ⟨fun a b => by
      simp only [rankedBefore_iff]
      rcases lt_trichotomy a.count b.count with h | h | h
      · exact Or.inr (Or.inl h)
      · rcases le_total a.averageRelevance b.averageRelevance with h2 | h2
        · exact Or.inr (Or.inr ⟨h, h2⟩)
        · exact Or.inl (Or.inr ⟨h.symm, h2⟩)
      · exact Or.inl (Or.inl h)⟩
  haveI : IsTrans RankedRole fun a b => rankedBefore a b = true :=
    ⟨fun a b c => by
      simp only [rankedBefore_iff]
      rintro (h1 | ⟨h1, h1'⟩) (h2 | ⟨h2, h2'⟩)
      · exact Or.inl (h2.trans h1)
      · exact Or.inl (h2 ▸ h1)
      · exact Or.inl (h1 ▸ h2)
      · exact Or.inr ⟨h2.trans h1, h2'.trans h1'⟩⟩
  have h := List.sorted_insertionSort (fun a b => rankedBefore a b = true)
    ((roleCounts skillMappings).ordered.map fun property =>
      ({ title := property.1, count := property.2.count,
         averageRelevance := fdiv property.2.totalRelevance property.2.count } : RankedRole))
  exact List.Pairwise.imp (fun {a b} hab => (rankedBefore_iff a b).mp hab) h

theorem sortedRoles_perm (skillMappings : List SkillToRole) :
    (sortedRoles skillMappings).Perm
      ((roleCounts skillMappings).map fun property =>
        ({ title := property.1, count := property.2.count,
           averageRelevance := fdiv property.2.totalRelevance property.2.count } :
          RankedRole)) :=
  (sortBy_perm _ _).trans ((Props.ordered_perm _).map _)

theorem sortedRoles_nodup (skillMappings : List SkillToRole) :
    ((sortedRoles skillMappings).map fun role => role.title).Nodup := by
  have h := ((sortedRoles_perm skillMappings).map fun role => role.title).nodup_iff
  rw [h, List.map_map]
  have := (foldl_countRole_spec (skillMappings.flatMap fun mapping => mapping.roles)).1
  rw [← roleCounts_eq_foldl] at this
  exact this

/-- Every ranked role carries the number of occurrences of its title in the
matched mappings, and the quotient, rounded to a double, of the sum of their
relevance scores by that number; the sum is taken in the order of the
occurrences, each addition rounded to a double. -/
theorem sortedRoles_spec (skillMappings : List SkillToRole) (role : RankedRole)
    (h : role ∈ sortedRoles skillMappings) :
    role.count =
        ((skillMappings.flatMap fun mapping => mapping.roles).filter fun r =>
          r.title = role.title).length ∧
      role.averageRelevance =
        fdiv ((((skillMappings.flatMap fun mapping => mapping.roles).filter fun r =>
          r.title = role.title).map fun r => r.relevanceScore).foldl fadd 0) role.count := by
  have h1 := (sortedRoles_perm skillMappings).mem_iff.mp h
  obtain ⟨p, hp, rfl⟩ := List.mem_map.mp h1
  rw [roleCounts_eq_foldl] at hp
  have h2 := (foldl_countRole_spec _).2.2 p hp
  exact ⟨h2.2.1, by rw [← h2.2.2]⟩

theorem nearTop_iff (top role : RankedRole) :
    nearTop top role = true ↔
      (role.count : ℚ) ≥ fmul top.count (toDouble (7 / 10)) ∨
        role.averageRelevance ≥ fmul top.averageRelevance (toDouble (8 / 10)) := by
  unfold nearTop
  simp

/-- The double written `0.7`. -/
theorem toDouble_seven_tenths :
    toDouble (7 / 10) = 3152519739159347 / 4503599627370496 := by
  decide!

/-- A count is at least the product, rounded to a double, of itself and 0.7. -/
theorem fmul_count_le (count : ℕ) : fmul count (toDouble (7 / 10)) ≤ count := by
  unfold fmul
  rw [toDouble_seven_tenths]
  rcases Nat.eq_zero_or_pos count with h | h
  · subst h
    simp [toDouble_zero]
  · have h1 : (1 : ℚ) ≤ count := by exact_mod_cast h
    have hlow : (2 : ℚ) ^ (-1022 : ℤ) ≤ (count : ℚ) * (3152519739159347 / 4503599627370496) := by
      have h2 : (2 : ℚ) ^ (-1022 : ℤ) ≤ (2 : ℚ) ^ (-1 : ℤ) :=
        zpow_le_zpow_right₀ (by norm_num) (by norm_num)
      have h3 : (2 : ℚ) ^ (-1 : ℤ) = 1 / 2 := by norm_num
      rw [h3] at h2
      nlinarith
    have := toDouble_le_mul hlow
    have h4 : (count : ℚ) * (3152519739159347 / 4503599627370496) * (1 + 1 / 2 ^ 53) ≤
        (count : ℚ) := by
      have h5 : (3152519739159347 / 4503599627370496 : ℚ) * (1 + 1 / 2 ^ 53) ≤ 1 := by
        norm_num
      have h6 := mul_le_mul_of_nonneg_left h5 (le_trans zero_le_one h1)
      linarith
    linarith

/-- For fewer than `2 ^ 49` roles, an integer counter is at least the double
product of the number of roles and 0.7 exactly when it is at least 7/10 of that
number. -/
theorem coreSkillThreshold_exact (counter roles : ℕ) (hroles : roles < 2 ^ 49) :
    (counter : ℚ) ≥ fmul roles (toDouble (7 / 10)) ↔ (counter : ℚ) ≥ roles * (7 / 10) := by
  have hr0 : (0 : ℚ) ≤ roles := Nat.cast_nonneg _
  have hr49 : (roles : ℚ) < 2 ^ 49 := by exact_mod_cast hroles
  have hy0 : (0 : ℚ) ≤ roles * (3152519739159347 / 4503599627370496) := by positivity
  constructor
  · intro h
    by_contra hlt
    rw [ge_iff_le, not_le] at hlt
    have hint : 10 * counter + 1 ≤ 7 * roles := by
      have : (10 * counter : ℚ) < 7 * roles := by linarith
      have : 10 * counter < 7 * roles := by exact_mod_cast this
      omega
    have hq : (10 * counter + 1 : ℚ) ≤ 7 * roles := by exact_mod_cast hint
    have herr := toDouble_sub_abs_le (x := (roles : ℚ) * (3152519739159347 / 4503599627370496))
      49 hy0 (by norm_num; nlinarith) (by norm_num)
    rw [abs_le] at herr
    unfold fmul at h
    rw [toDouble_seven_tenths] at h
    have e1 : (2 : ℚ) ^ ((49 : ℤ) - 53) = 1 / 16 := by norm_num
    rw [e1] at herr
    nlinarith [herr.1]
  · intro h
    rcases le_or_lt roles counter with hle | hlt
    · have : (roles : ℚ) ≤ counter := by exact_mod_cast hle
      exact (fmul_count_le roles).trans this
    · have hc : counter ≤ 2 ^ 53 := by omega
      have hmono : toDouble ((roles : ℚ) * (3152519739159347 / 4503599627370496)) ≤
          toDouble (counter : ℚ) := by
        apply toDouble_mono hy0
        nlinarith
      unfold fmul
      rw [toDouble_seven_tenths]
      rw [toDouble_natCast counter hc] at hmono
      exact hmono

theorem groupIntoClusters_cons (top : RankedRole) (rest : List RankedRole) :
    groupIntoClusters (top :: rest) =
      [((top :: rest).filter (nearTop top)).map fun role => role.title,
        match (top :: rest).filter fun role =>
            !(((top :: rest).filter (nearTop top)).map fun role => role.title).contains
              role.title with
        | next :: others => ((next :: others).filter (nearTop next)).map fun role => role.title
        | [] => []] := by
  unfold groupIntoClusters
  simp only
  split <;> rename_i h <;> simp only [h]

/-- In a list with distinct titles, the titles of the roles kept by a filter
identify those roles. -/
theorem title_mem_filter_iff (roles : List RankedRole) (keep : RankedRole → Bool)
    (hnd : (roles.map fun role => role.title).Nodup) (role : RankedRole) (hr : role ∈ roles) :
    role.title ∈ (roles.filter keep).map (fun role => role.title) ↔ keep role = true := by
  constructor
  · intro h
    obtain ⟨other, ho, ht⟩ := List.mem_map.mp h
    have hmem := List.mem_filter.mp ho
    have : other = role := List.inj_on_of_nodup_map hnd hmem.1 hr ht
    exact this ▸ hmem.2
  · intro h
    exact List.mem_map.mpr ⟨role, List.mem_filter.mpr ⟨hr, h⟩, rfl⟩

end SkillAnalysisEngine

/-! ## Claims on `identifySkillClusters` and `analyzeUserSkills` -/

namespace SkillAnalysisEngine

/-- C7, as stated, fails: for six matched mappings that list Top, with relevance
scores adding up to 400, three of which list Low, with scores adding up to 160,
the average relevance of Low is 160/3, which is 0.8 times the average 400/6 of
the top-ranked role, so that the rule of the claim puts Low in the primary
cluster; the code compares the doubles, the quotient 160/3 rounded and the
product of the rounded quotient 400/6 and the double 0.8, rounded, which is
larger: Low is not in the primary cluster. -/
theorem identifySkillClusters_primary_exact_threshold_fails :
    identifySkillClusters topLowSkillToRoles ["a", "b", "c", "d", "e", "f"] =
        [["Top"], ["Low"]] ∧
      (sortedRoles (SkillToRole.find topLowSkillToRoles ["a", "b", "c", "d", "e", "f"])).map
          (fun role => (role.title, role.count)) = [("Top", 6), ("Low", 3)] ∧
      ((((SkillToRole.find topLowSkillToRoles ["a", "b", "c", "d", "e", "f"]).flatMap
          fun mapping => mapping.roles).filter fun r => r.title = "Top").map fun r =>
            r.relevanceScore).sum = 400 ∧
      ((((SkillToRole.find topLowSkillToRoles ["a", "b", "c", "d", "e", "f"]).flatMap
          fun mapping => mapping.roles).filter fun r => r.title = "Low").map fun r =>
            r.relevanceScore).sum = 160 ∧
      (160 / 3 : ℚ) ≥ 8 / 10 * (400 / 6) ∧
      ¬ (fdiv 160 3 ≥ fmul (fdiv 400 6) (toDouble (8 / 10))) ∧
      ¬ ((3 : ℚ) ≥ fmul 6 (toDouble (7 / 10))) := by
  decide!

/-- C7, amended: when the ranked sequence is not empty, a ranked role has its
title in the primary cluster if and only if its count is at least the double
product of the count of the top-ranked role and 0.7, or its average relevance
is at least the double product of the average relevance of the top-ranked role
and 0.8, and the primary cluster holds titles of ranked roles only; the ranked
sequence is in order of descending count, then descending average relevance,
so the top-ranked role is its first; and the count of a ranked role is the
number of occurrences of its title in the matched mappings, its average
relevance the double quotient of the sum of their scores, added in doubles, by
that count. -/
theorem identifySkillClusters_primary (skillToRoles : List SkillToRole)
    (skillNames : List String)
    (hne : sortedRoles (SkillToRole.find skillToRoles skillNames) ≠ []) :
    ∃ top rest primary secondary,
      sortedRoles (SkillToRole.find skillToRoles skillNames) = top :: rest ∧
      identifySkillClusters skillToRoles skillNames = [primary, secondary] ∧
      (∀ role ∈ top :: rest,
        role.title ∈ primary ↔
          (role.count : ℚ) ≥ fmul top.count (toDouble (7 / 10)) ∨
            role.averageRelevance ≥ fmul top.averageRelevance (toDouble (8 / 10))) ∧
      (∀ title ∈ primary, ∃ role ∈ top :: rest, role.title = title) ∧
      (top :: rest).Pairwise (fun a b =>
        b.count < a.count ∨ (b.count = a.count ∧ b.averageRelevance ≤ a.averageRelevance)) ∧
      ∀ role ∈ top :: rest,
        role.count =
            (((SkillToRole.find skillToRoles skillNames).flatMap fun mapping =>
              mapping.roles).filter fun r => r.title = role.title).length ∧
          role.averageRelevance =
            fdiv (((((SkillToRole.find skillToRoles skillNames).flatMap fun mapping =>
              mapping.roles).filter fun r => r.title = role.title).map fun r =>
                r.relevanceScore).foldl fadd 0) role.count := by
  have hnd := sortedRoles_nodup (SkillToRole.find skillToRoles skillNames)
  have hpw := sortedRoles_pairwise (SkillToRole.find skillToRoles skillNames)
  have hsp := sortedRoles_spec (SkillToRole.find skillToRoles skillNames)
  unfold identifySkillClusters
  simp only
  rcases hs : sortedRoles (SkillToRole.find skillToRoles skillNames) with _ | ⟨top, rest⟩
  · exact absurd hs hne
  · rw [hs] at hnd hpw hsp
    refine ⟨top, rest, _, _, rfl, groupIntoClusters_cons top rest, ?_, ?_, hpw,
      fun role hr => hsp role hr⟩
    · intro role hr
      rw [title_mem_filter_iff _ _ hnd role hr, nearTop_iff]
    · intro title ht
      obtain ⟨role, hr, rfl⟩ := List.mem_map.mp ht
      exact ⟨role, (List.mem_filter.mp hr).1, rfl⟩

/-- C7, amended, at the seeded mappings and the single skill javascript. -/
theorem identifySkillClusters_primary_witness :
    sortedRoles (SkillToRole.find seedSkillToRoles ["javascript"]) ≠ [] ∧
      ∃ top rest primary secondary,
        sortedRoles (SkillToRole.find seedSkillToRoles ["javascript"]) = top :: rest ∧
        identifySkillClusters seedSkillToRoles ["javascript"] = [primary, secondary] ∧
        (∀ role ∈ top :: rest,
          role.title ∈ primary ↔
            (role.count : ℚ) ≥ fmul top.count (toDouble (7 / 10)) ∨
              role.averageRelevance ≥ fmul top.averageRelevance (toDouble (8 / 10))) ∧
        (∀ title ∈ primary, ∃ role ∈ top :: rest, role.title = title) ∧
        (top :: rest).Pairwise (fun a b =>
          b.count < a.count ∨ (b.count = a.count ∧ b.averageRelevance ≤ a.averageRelevance)) ∧
        ∀ role ∈ top :: rest,
          role.count =
              (((SkillToRole.find seedSkillToRoles ["javascript"]).flatMap fun mapping =>
                mapping.roles).filter fun r => r.title = role.title).length ∧
            role.averageRelevance =
              fdiv (((((SkillToRole.find seedSkillToRoles ["javascript"]).flatMap fun mapping =>
                mapping.roles).filter fun r => r.title = role.title).map fun r =>
                  r.relevanceScore).foldl fadd 0) role.count :=
  ⟨by decide!, identifySkillClusters_primary seedSkillToRoles ["javascript"] (by decide!)⟩

/-- C8, as stated, fails: for nine matched mappings that list Top with score
100, six of which list Mid, with scores adding up to 400, and three of which
list Low, with scores adding up to 160, the primary cluster holds Top alone and
the highest-ranked role outside it is Mid; the average relevance 160/3 of Low
is 0.8 times the average 400/6 of Mid, so that the rule of the claim puts Low
in the secondary cluster; the code compares the rounded quotient with the
rounded product, which is larger: the secondary cluster holds Mid alone. -/
theorem identifySkillClusters_secondary_exact_threshold_fails :
    identifySkillClusters topMidLowSkillToRoles
        ["a", "b", "c", "d", "e", "f", "g", "h", "i"] = [["Top"], ["Mid"]] ∧
      (sortedRoles (SkillToRole.find topMidLowSkillToRoles
          ["a", "b", "c", "d", "e", "f", "g", "h", "i"])).map
          (fun role => (role.title, role.count)) = [("Top", 9), ("Mid", 6), ("Low", 3)] ∧
      ((((SkillToRole.find topMidLowSkillToRoles
          ["a", "b", "c", "d", "e", "f", "g", "h", "i"]).flatMap
          fun mapping => mapping.roles).filter fun r => r.title = "Mid").map fun r =>
            r.relevanceScore).sum = 400 ∧
      ((((SkillToRole.find topMidLowSkillToRoles
          ["a", "b", "c", "d", "e", "f", "g", "h", "i"]).flatMap
          fun mapping => mapping.roles).filter fun r => r.title = "Low").map fun r =>
            r.relevanceScore).sum = 160 ∧
      (160 / 3 : ℚ) ≥ 8 / 10 * (400 / 6) ∧
      ¬ (fdiv 160 3 ≥ fmul (fdiv 400 6) (toDouble (8 / 10))) ∧
      ¬ ((3 : ℚ) ≥ fmul 6 (toDouble (7 / 10))) := by
  decide!

/-- C8, amended: the secondary cluster never shares a title with the primary
cluster and holds titles of ranked roles only; it is empty when no ranked role
is outside the primary cluster; and otherwise a ranked role has its title in it
if and only if the role is outside the primary cluster and its count is at
least the double product of the count of the highest-ranked role outside the
primary cluster and 0.7, or its average relevance at least the double product
of the average relevance of that role and 0.8. -/
theorem identifySkillClusters_secondary (skillToRoles : List SkillToRole)
    (skillNames : List String) :
    ∃ primary secondary,
      identifySkillClusters skillToRoles skillNames = [primary, secondary] ∧
      (∀ title ∈ secondary, title ∉ primary) ∧
      (∀ title ∈ secondary,
        ∃ role ∈ sortedRoles (SkillToRole.find skillToRoles skillNames), role.title = title) ∧
      match (sortedRoles (SkillToRole.find skillToRoles skillNames)).find? fun role =>
          !primary.contains role.title with
      | none => secondary = []
      | some next =>
        ∀ role ∈ sortedRoles (SkillToRole.find skillToRoles skillNames),
          role.title ∈ secondary ↔
            role.title ∉ primary ∧
              ((role.count : ℚ) ≥ fmul next.count (toDouble (7 / 10)) ∨
                role.averageRelevance ≥
                  fmul next.averageRelevance (toDouble (8 / 10))) := by
  have hnd := sortedRoles_nodup (SkillToRole.find skillToRoles skillNames)
  unfold identifySkillClusters
  simp only
  generalize sortedRoles (SkillToRole.find skillToRoles skillNames) = ranked at hnd
  rcases ranked with _ | ⟨top, rest⟩
  · exact ⟨[], [], rfl, by simp, by simp, by simp⟩
  · rw [groupIntoClusters_cons]
    generalize ((top :: rest).filter (nearTop top)).map (fun role => role.title) = primary
    have hhead : ((top :: rest).filter fun role => !primary.contains role.title).head? =
        (top :: rest).find? fun role => !primary.contains role.title := List.filter_head? _ _
    have hnd2 : (((top :: rest).filter fun role => !primary.contains role.title).map
        fun role => role.title).Nodup := (hnd.sublist ((List.filter_sublist _).map _))
    have hsub : ∀ role ∈ (top :: rest).filter (fun role => !primary.contains role.title),
        role.title ∉ primary := by
      intro role hr
      simpa using (List.mem_filter.mp hr).2
    have hin : ∀ role ∈ top :: rest, role.title ∉ primary →
        role ∈ (top :: rest).filter fun role => !primary.contains role.title := by
      intro role hr hout
      exact List.mem_filter.mpr ⟨hr, by simpa using hout⟩
    have hof : ∀ role ∈ (top :: rest).filter (fun role => !primary.contains role.title),
        role ∈ top :: rest := fun role hr => (List.mem_filter.mp hr).1
    generalize (top :: rest).filter (fun role => !primary.contains role.title) = remaining
      at hhead hnd2 hsub hin hof
    rcases remaining with _ | ⟨next, others⟩
    · simp only [List.head?_nil] at hhead
      refine ⟨primary, [], rfl, by simp, by simp, ?_⟩
      rw [← hhead]
    · simp only [List.head?_cons] at hhead
      refine ⟨primary, _, rfl, ?_, ?_, ?_⟩
      · intro title ht
        obtain ⟨role, hr, rfl⟩ := List.mem_map.mp ht
        exact hsub role (List.mem_filter.mp hr).1
      · intro title ht
        obtain ⟨role, hr, rfl⟩ := List.mem_map.mp ht
        exact ⟨role, hof role (List.mem_filter.mp hr).1, rfl⟩
      · rw [← hhead]
        intro role hr
        by_cases hout : role.title ∈ primary
        · simp only [hout, not_true_eq_false, false_and, iff_false]
          intro ht
          obtain ⟨other, ho, hto⟩ := List.mem_map.mp ht
          exact hsub other (List.mem_filter.mp ho).1 (hto ▸ hout)
        · rw [title_mem_filter_iff _ _ hnd2 role (hin role hr hout), nearTop_iff]
          simp [hout]

/-- C9: when all ranked roles have the same count, the primary cluster holds
the title of every ranked role and the secondary cluster is empty. -/
theorem identifySkillClusters_equal_counts (skillToRoles : List SkillToRole)
    (skillNames : List String)
    (heq : ∀ a ∈ sortedRoles (SkillToRole.find skillToRoles skillNames),
      ∀ b ∈ sortedRoles (SkillToRole.find skillToRoles skillNames), a.count = b.count) :
    identifySkillClusters skillToRoles skillNames =
      [(sortedRoles (SkillToRole.find skillToRoles skillNames)).map fun role => role.title,
        []] := by
  unfold identifySkillClusters
  simp only
  generalize sortedRoles (SkillToRole.find skillToRoles skillNames) = ranked at heq
  rcases ranked with _ | ⟨top, rest⟩
  · rfl
  · have hall : (top :: rest).filter (nearTop top) = top :: rest := by
      rw [List.filter_eq_self]
      intro role hr
      rw [nearTop_iff, heq role hr top (List.mem_cons_self _ _)]
      left
      exact fmul_count_le top.count
    have hnone : ((top :: rest).filter fun role =>
        !((top :: rest).map fun role => role.title).contains role.title) = [] := by
      rw [List.filter_eq_nil_iff]
      intro role hr
      have : role.title ∈ (top :: rest).map fun role => role.title :=
        List.mem_map.mpr ⟨role, hr, rfl⟩
      simp only [Bool.not_eq_true', Bool.not_eq_false]
      exact List.elem_eq_true_of_mem this
    rw [groupIntoClusters_cons, hall, hnone]

/-- C9, at the seeded mappings and the single skill javascript: the four roles
mapped from javascript all have count 1, and all four titles are in the primary
cluster. -/
theorem identifySkillClusters_equal_counts_witness :
    (∀ a ∈ sortedRoles (SkillToRole.find seedSkillToRoles ["javascript"]),
      ∀ b ∈ sortedRoles (SkillToRole.find seedSkillToRoles ["javascript"]),
        a.count = b.count) ∧
      identifySkillClusters seedSkillToRoles ["javascript"] =
        [(sortedRoles (SkillToRole.find seedSkillToRoles ["javascript"])).map fun role =>
          role.title, []] ∧
      identifySkillClusters seedSkillToRoles ["javascript"] =
        [["Frontend Developer", "Software Developer", "Web Developer", "Full Stack Developer"],
          []] :=
  ⟨by decide!,
    identifySkillClusters_equal_counts seedSkillToRoles ["javascript"] (by decide!),
    by decide!⟩

/-- C10: for a candidate none of whose lower-cased skill names is the skill of
a stored mapping, `analyzeUserSkills` returns four empty lists; so it does for
the empty skill list. -/
theorem analyzeUserSkills_unmapped [CaseMapping]
    (skillToRoles : List SkillToRole) (roleStore : List Role)
    (userSkills : List Skill)
    (hnone : ∀ skill ∈ userSkills, ∀ mapping ∈ skillToRoles,
      mapping.skill ≠ toLowerCase skill.name) :
    analyzeUserSkills skillToRoles roleStore userSkills =
        { primaryCluster := [], secondaryCluster := [], uniqueSkills := [],
          missingCoreSkills := [] } ∧
      analyzeUserSkills skillToRoles roleStore [] =
        { primaryCluster := [], secondaryCluster := [], uniqueSkills := [],
          missingCoreSkills := [] } := by
  have key : ∀ skills : List Skill,
      (∀ skill ∈ skills, ∀ mapping ∈ skillToRoles, mapping.skill ≠ toLowerCase skill.name) →
      analyzeUserSkills skillToRoles roleStore skills =
        { primaryCluster := [], secondaryCluster := [], uniqueSkills := [],
          missingCoreSkills := [] } := by
    intro skills h
    have hfind : SkillToRole.find skillToRoles (skills.map fun skill => toLowerCase skill.name)
        = [] := by
      unfold SkillToRole.find
      rw [List.filter_eq_nil_iff]
      intro mapping hm hc
      have hmem : mapping.skill ∈ skills.map fun skill => toLowerCase skill.name := by
        simpa using hc
      obtain ⟨skill, hs, he⟩ := List.mem_map.mp hmem
      exact h skill hs mapping hm he.symm
    simp [analyzeUserSkills, identifySkillClusters, groupIntoClusters, identifyUniqueSkills,
      identifyMissingCoreSkills, hfind, sortedRoles, roleCounts, uniquenessScores, sortBy,
      Props.ordered]
  exact ⟨key userSkills hnone, key [] (by simp)⟩

/-- C10, at the seeded mappings and a candidate whose only skill is COBOL. -/
theorem analyzeUserSkills_unmapped_witness :
    (∀ skill ∈ [({ name := "COBOL" } : Skill)], ∀ mapping ∈ seedSkillToRoles,
      mapping.skill ≠ toLowerCase skill.name) ∧
      analyzeUserSkills seedSkillToRoles [] [{ name := "COBOL" }] =
        { primaryCluster := [], secondaryCluster := [], uniqueSkills := [],
          missingCoreSkills := [] } ∧
      analyzeUserSkills seedSkillToRoles [] [] =
        { primaryCluster := [], secondaryCluster := [], uniqueSkills := [],
          missingCoreSkills := [] } :=
  ⟨by decide, analyzeUserSkills_unmapped seedSkillToRoles [] [{ name := "COBOL" }] (by decide)⟩

end SkillAnalysisEngine

/-! ## The uniqueness ranking of `identifyUniqueSkills` -/

theorem insertionSort_map_eq {α β : Type} (s : β → β → Prop) [DecidableRel s] (f : α → β)
    (l : List α) :
    (l.map f).insertionSort s = (l.insertionSort fun a b => s (f a) (f b)).map f :=
  (List.map_insertionSort (r := fun a b => s (f a) (f b)) (s := s) f l
    (fun _ _ _ _ => Iff.rfl)).symm

/-- The entries of a mapped list, in the order of `Object.keys`, are the images
of a rearrangement of the list. -/
theorem Props.ordered_map {α β : Type} (f : α → String × β) (l : List α) :
    ∃ l' : List α, l'.Perm l ∧ Props.ordered (l.map f) = l'.map f := by
  refine ⟨(l.filter fun a => isArrayIndex (f a).1).insertionSort
      (fun a b => digitsValue (f a).1.data ≤ digitsValue (f b).1.data) ++
    l.filter (fun a => !isArrayIndex (f a).1), ?_, ?_⟩
  · exact ((List.perm_insertionSort _ _).append_right _).trans (List.filter_append_perm _ _)
  · unfold Props.ordered
    rw [List.filter_map, List.filter_map, insertionSort_map_eq, List.map_append]
    rfl

namespace SkillAnalysisEngine

theorem foldl_add_relevanceScore (roles : List RoleRelevance) (init : ℚ) :
    roles.foldl (fun sum role => fadd sum role.relevanceScore) init =
      (roles.map fun role => role.relevanceScore).foldl fadd init := by
  rw [List.foldl_map]

/-- When the skills of the mappings are distinct and none is `__proto__`, the
object `uniquenessScores` has one property for each mapping, in their order,
holding the uniqueness of the mapping. -/
theorem uniquenessScores_eq_map (skillMappings : List SkillToRole)
    (hnd : (skillMappings.map fun mapping => mapping.skill).Nodup)
    (hproto : ∀ mapping ∈ skillMappings, mapping.skill ≠ "__proto__") :
    uniquenessScores skillMappings =
      skillMappings.map fun mapping => (mapping.skill, uniqueness mapping) := by
  unfold uniquenessScores
  induction skillMappings using List.reverseRecOn with
  | nil => rfl
  | append_singleton ms m ih =>
    rw [List.map_append, List.nodup_append] at hnd
    obtain ⟨hnd1, -, hdis⟩ := hnd
    have ih2 := ih hnd1 fun mapping hm => hproto mapping (List.mem_append_left _ hm)
    rw [List.foldl_append, List.foldl_cons, List.foldl_nil, ih2]
    have hlook : (ms.map fun mapping => (mapping.skill, uniqueness mapping)).lookup m.skill =
        none := by
      rw [List.lookup_eq_none_iff]
      intro p hp
      obtain ⟨m', hm', rfl⟩ := List.mem_map.mp hp
      simp only [bne_iff_ne, ne_eq]
      intro h
      exact hdis (List.mem_map.mpr ⟨m', hm', rfl⟩) (by simp [h])
    have hp := hproto m (List.mem_append_right _ (List.mem_singleton.mpr rfl))
    simp only [foldl_add_relevanceScore]
    unfold assignScore
    rw [hlook]
    simp only [hp, if_false, List.map_append, List.map_cons, List.map_nil, uniqueness]

/-- When the skills of the matched mappings are distinct and none of them is
`__proto__`, `identifyUniqueSkills` returns the skills of the first five
matched mappings in an order of non-increasing uniqueness. -/
theorem identifyUniqueSkills_spec (skillToRoles : List SkillToRole) (skillNames : List String)
    (hnd : ((SkillToRole.find skillToRoles skillNames).map fun mapping =>
      mapping.skill).Nodup)
    (hproto : ∀ mapping ∈ SkillToRole.find skillToRoles skillNames,
      mapping.skill ≠ "__proto__") :
    ∃ ranked : List SkillToRole,
      ranked.Perm (SkillToRole.find skillToRoles skillNames) ∧
      ranked.Pairwise (fun a b => uniqueness b ≤ uniqueness a) ∧
      identifyUniqueSkills skillToRoles skillNames =
        (ranked.take 5).map fun mapping => mapping.skill := by
  unfold identifyUniqueSkills
  simp only
  rw [uniquenessScores_eq_map _ hnd hproto]
  generalize SkillToRole.find skillToRoles skillNames = matched
  obtain ⟨ordered, hperm, hordered⟩ :=
    Props.ordered_map (fun mapping : SkillToRole => (mapping.skill, uniqueness mapping)) matched
  rw [hordered]
  unfold sortBy
  rw [insertionSort_map_eq, List.map_map, ← List.map_take]
  refine ⟨_, (List.perm_insertionSort _ _).trans hperm, ?_, rfl⟩
  have hiff : ∀ a b : SkillToRole,
      (decide ((b.skill, uniqueness b).2 - (a.skill, uniqueness a).2 ≤ 0) = true) ↔
        uniqueness b ≤ uniqueness a := by
    intro a b
    simp
  haveI : IsTotal SkillToRole fun a b =>
      decide ((b.skill, uniqueness b).2 - (a.skill, uniqueness a).2 ≤ 0) = true :=
    ⟨fun a b => by
      rw [hiff, hiff]
      exact le_total _ _⟩
  haveI : IsTrans SkillToRole fun a b =>
      decide ((b.skill, uniqueness b).2 - (a.skill, uniqueness a).2 ≤ 0) = true :=
    ⟨fun a b c => by
      rw [hiff, hiff, hiff]
      exact fun h1 h2 => h2.trans h1⟩
  exact List.Pairwise.imp (fun {a b} hab => (hiff a b).mp hab)
    (List.sorted_insertionSort _ ordered)

/-- C11, at two mappings with one role each, one of them for a skill named
`__proto__`, and a candidate with both skills: two mappings are matched, but
`identifyUniqueSkills` returns one name. -/
theorem identifyUniqueSkills_drops_proto :
    identifyUniqueSkills protoSkillToRoles ["__proto__", "rust"] = ["rust"] ∧
      (SkillToRole.find protoSkillToRoles ["__proto__", "rust"]).length = 2 ∧
      (∀ mapping ∈ SkillToRole.find protoSkillToRoles ["__proto__", "rust"],
        mapping.roles ≠ []) ∧
      ((SkillToRole.find protoSkillToRoles ["__proto__", "rust"]).map fun mapping =>
        mapping.skill).Nodup := by
  decide!

end SkillAnalysisEngine

/-! ## Claims on the letter case of skill names -/

namespace SkillAnalysisEngine

/-- C12: two candidate skill lists whose names agree after lower-casing, that
is, which differ only in the letter case of the names, give the same result of
`analyzeUserSkills` over the same mappings and role store. -/
theorem analyzeUserSkills_case_insensitive [CaseMapping] (skillToRoles : List SkillToRole)
    (roleStore : List Role) (skills₁ skills₂ : List Skill)
    (hcase : (skills₁.map fun skill => toLowerCase skill.name) =
      skills₂.map fun skill => toLowerCase skill.name) :
    analyzeUserSkills skillToRoles roleStore skills₁ =
      analyzeUserSkills skillToRoles roleStore skills₂ := by
  unfold analyzeUserSkills
  simp only [hcase]

/-- C12, at the seeded data: JavaScript and PYTHON against javascript and
Python. -/
theorem analyzeUserSkills_case_insensitive_witness :
    (([{ name := "JavaScript" }, { name := "PYTHON" }] : List Skill).map fun skill =>
        toLowerCase skill.name) =
      ([{ name := "javascript" }, { name := "Python" }] : List Skill).map (fun skill =>
        toLowerCase skill.name) ∧
    analyzeUserSkills seedSkillToRoles seedRoles [{ name := "JavaScript" }, { name := "PYTHON" }] =
      analyzeUserSkills seedSkillToRoles seedRoles
        [{ name := "javascript" }, { name := "Python" }] :=
  ⟨by decide,
    analyzeUserSkills_case_insensitive seedSkillToRoles seedRoles _ _ (by decide)⟩

theorem analyzeUserSkills_nil [CaseMapping]
    (skillToRoles : List SkillToRole) (roleStore : List Role) :
    analyzeUserSkills skillToRoles roleStore [] =
      { primaryCluster := [], secondaryCluster := [], uniqueSkills := [],
        missingCoreSkills := [] } := by
  simp [analyzeUserSkills, identifySkillClusters, groupIntoClusters, identifyUniqueSkills,
    identifyMissingCoreSkills, SkillToRole.find, sortedRoles, roleCounts, uniquenessScores,
    sortBy, Props.ordered]

end SkillAnalysisEngine

/-! ## The tally of `identifyMissingCoreSkills` -/

namespace SkillAnalysisEngine

theorem skillCounts_eq_foldl (roles : List Role) :
    skillCounts roles = (roles.flatMap fun role => role.requiredSkills).foldl countSkill [] := by
  unfold skillCounts
  generalize ([] : Props (Option ℕ)) = init
  induction roles generalizing init with
  | nil => rfl
  | cons r rs ih => simp [List.flatMap_cons, List.foldl_append, ih]

/-- After the loop the names of `skillCounts` are distinct; every skill met,
except `__proto__`, has a property; and a property holds the number of
occurrences of its name, unless the name is inherited from `Object.prototype`,
in which case it holds no number. -/
theorem foldl_countSkill_spec (skills : List String) :
    ((skills.foldl countSkill []).map Prod.fst).Nodup ∧
      (∀ s ∈ skills, s ≠ "__proto__" → s ∈ (skills.foldl countSkill []).map Prod.fst) ∧
      ∀ p ∈ skills.foldl countSkill [],
        p.1 ∈ skills ∧ p.1 ≠ "__proto__" ∧
          (p.1 ∉ objectPrototypeKeys → p.2 = some (skills.count p.1)) ∧
          (p.1 ∈ objectPrototypeKeys → p.2 = none) := by
  induction skills using List.reverseRecOn with
  | nil => simp
  | append_singleton ss s ih =>
    obtain ⟨hnd, hc, hs⟩ := ih
    rw [List.foldl_append, List.foldl_cons, List.foldl_nil]
    generalize ss.foldl countSkill [] = acc at *
    have hother : ∀ p ∈ acc, p.1 ≠ s →
        p.1 ∈ ss ++ [s] ∧ p.1 ≠ "__proto__" ∧
          (p.1 ∉ objectPrototypeKeys → p.2 = some ((ss ++ [s]).count p.1)) ∧
          (p.1 ∈ objectPrototypeKeys → p.2 = none) := by
      intro p hp hne
      obtain ⟨h1, h2, h3, h4⟩ := hs p hp
      refine ⟨List.mem_append_left _ h1, h2, ?_, h4⟩
      intro hk
      rw [h3 hk, List.count_append, List.count_singleton]
      have : (s == p.1) = false := by simpa using fun h => hne h.symm
      simp [this]
    have hmemkeys : ∀ s' ∈ ss ++ [s], s' ≠ "__proto__" → s ∈ acc.map Prod.fst →
        s' ∈ acc.map Prod.fst := by
      intro s' hs' hp hin
      rcases List.mem_append.mp hs' with h | h
      · exact hc s' h hp
      · rw [List.mem_singleton.mp h]; exact hin
    unfold countSkill
    rcases hl : acc.lookup s with _ | (_ | n)
    · -- no own property named `s`
      have hn := Props.not_mem_of_lookup hl
      have hne : ∀ p ∈ acc, p.1 ≠ s := fun p hp h => hn (h ▸ List.mem_map.mpr ⟨p, hp, rfl⟩)
      have hcount : ss.count s = 0 ∨ s = "__proto__" := by
        by_cases hp : s = "__proto__"
        · exact Or.inr hp
        · exact Or.inl (List.count_eq_zero.mpr fun h => hn (hc s h hp))
      simp only
      by_cases hproto : s = "__proto__"
      · simp only [hproto, if_true]
        refine ⟨hnd, ?_, ?_⟩
        · intro s' hs' hp
          rcases List.mem_append.mp hs' with h | h
          · exact hc s' h hp
          · exact absurd (List.mem_singleton.mp h) hp
        · intro p hp
          exact hproto ▸ hother p hp (hne p hp)
      · simp only [hproto, if_false]
        have hndnew : ∀ v : Option ℕ, ((acc ++ [(s, v)]).map Prod.fst).Nodup := by
          intro v
          rw [List.map_append, List.nodup_append]
          refine ⟨hnd, by simp, ?_⟩
          intro a ha hb
          simp only [List.map_cons, List.map_nil, List.mem_singleton] at hb
          exact hn (hb ▸ ha)
        have hcnew : ∀ v : Option ℕ, ∀ s' ∈ ss ++ [s], s' ≠ "__proto__" →
            s' ∈ (acc ++ [(s, v)]).map Prod.fst := by
          intro v s' hs' hp
          rw [List.map_append, List.mem_append]
          rcases List.mem_append.mp hs' with h | h
          · exact Or.inl (hc s' h hp)
          · right; rw [List.mem_singleton.mp h]; simp
        by_cases hin : objectPrototypeKeys.contains s = true
        · have hin2 : s ∈ objectPrototypeKeys := by simpa using hin
          simp only [hin, if_true]
          refine ⟨hndnew _, hcnew _, ?_⟩
          intro p hp
          rcases List.mem_append.mp hp with h | h
          · exact hother p h (hne p h)
          · rw [List.mem_singleton.mp h]
            exact ⟨by simp, hproto, fun h => absurd hin2 h, fun _ => rfl⟩
        · have hin2 : s ∉ objectPrototypeKeys := by simpa using hin
          simp only [hin, Bool.false_eq_true, if_false]
          refine ⟨hndnew _, hcnew _, ?_⟩
          intro p hp
          rcases List.mem_append.mp hp with h | h
          · exact hother p h (hne p h)
          · rw [List.mem_singleton.mp h]
            refine ⟨by simp, hproto, fun _ => ?_, fun h => absurd h hin2⟩
            rcases hcount with h0 | h0
            · simp [List.count_append, h0]
            · exact absurd h0 hproto
    · -- an own property that holds no number
      have he := Props.mem_of_lookup hl
      simp only
      have hsin : s ∈ acc.map Prod.fst := List.mem_map.mpr ⟨_, he, rfl⟩
      have hsproto : s ∈ objectPrototypeKeys := by
        by_contra h
        have := (hs _ he).2.2.1 h
        simp at this
      refine ⟨hnd, fun s' hs' hp => hmemkeys s' hs' hp hsin, ?_⟩
      intro p hp
      by_cases hk : p.1 = s
      · obtain ⟨h1, h2, -, h4⟩ := hs p hp
        exact ⟨List.mem_append_left _ h1, h2, fun h => absurd (hk ▸ hsproto) h, h4⟩
      · exact hother p hp hk
    · -- an own property that holds the number `n`
      have he := Props.mem_of_lookup hl
      simp only
      have hsin : s ∈ acc.map Prod.fst := List.mem_map.mpr ⟨_, he, rfl⟩
      obtain ⟨h1, h2, h3, h4⟩ := hs _ he
      have hsproto : s ∉ objectPrototypeKeys := by
        intro h
        have := h4 h
        simp at this
      have hn : n = ss.count s := by
        have := h3 hsproto
        simpa using this
      simp only [Props.map_fst_replace]
      refine ⟨hnd, fun s' hs' hp => hmemkeys s' hs' hp hsin, ?_⟩
      intro p hp
      unfold Props.replace at hp
      obtain ⟨q, hq, rfl⟩ := List.mem_map.mp hp
      by_cases hk : q.1 = s
      · simp only [hk, if_true]
        refine ⟨by simp, h2, fun _ => ?_, fun h => absurd h hsproto⟩
        simp [List.count_append, hn]
      · simp only [hk, if_false]
        exact hother q hq hk

/-- The skills returned by `identifyMissingCoreSkills` for a cluster that is
not empty: the required skills of the fetched roles, other than the names
inherited from `Object.prototype`, whose number of occurrences is at least 0.7
times the number of fetched roles and whose lower-cased name is not among
`userSkills`. -/
theorem mem_identifyMissingCoreSkills [CaseMapping]
    (roleStore : List Role) (clusterRoles : List String)
    (userSkills : List String) (skill : String) (hne : clusterRoles ≠ []) :
    skill ∈ identifyMissingCoreSkills roleStore clusterRoles userSkills ↔
      skill ∈ (Role.find roleStore clusterRoles).flatMap (fun role => role.requiredSkills) ∧
        skill ∉ objectPrototypeKeys ∧
        ((((Role.find roleStore clusterRoles).flatMap fun role =>
          role.requiredSkills).count skill : ℕ) : ℚ) ≥
            (Role.find roleStore clusterRoles).length * (7 / 10) ∧
        toLowerCase skill ∉ userSkills := by
  have hlen : clusterRoles.length ≠ 0 := fun h => hne (List.length_eq_zero.mp h)
  unfold identifyMissingCoreSkills
  simp only [hlen, if_false]
  obtain ⟨-, hc, hs⟩ :=
    foldl_countSkill_spec ((Role.find roleStore clusterRoles).flatMap fun role =>
      role.requiredSkills)
  rw [← skillCounts_eq_foldl] at hc hs
  generalize (Role.find roleStore clusterRoles).flatMap (fun role => role.requiredSkills) =
    required at hc hs
  generalize ((Role.find roleStore clusterRoles).length : ℚ) * (7 / 10) = threshold
  simp only [List.mem_filter, List.mem_map, Bool.not_eq_true', Prod.exists, exists_and_right,
    exists_eq_right, (Props.ordered_perm (skillCounts (Role.find roleStore clusterRoles))).mem_iff]
  constructor
  · rintro ⟨⟨v, hmem, hcore⟩, huser⟩
    obtain ⟨h1, -, h3, h4⟩ := hs _ hmem
    have huser2 : toLowerCase skill ∉ userSkills := by
      intro h
      have : userSkills.contains (toLowerCase skill) = true := List.elem_eq_true_of_mem h
      rw [this] at huser
      exact Bool.noConfusion huser
    rcases v with _ | n
    · simp at hcore
    · have hp : skill ∉ objectPrototypeKeys := by
        intro h
        have := h4 h
        simp at this
      have hn : n = required.count skill := by simpa using h3 hp
      simp only [ge_iff_le, decide_eq_true_eq] at hcore
      exact ⟨h1, hp, by rw [← hn]; exact hcore, huser2⟩
  · rintro ⟨hreq, hp, hcount, huser⟩
    have hproto : skill ≠ "__proto__" := by
      intro h
      exact hp (h ▸ by decide)
    obtain ⟨p, hpm, hfst⟩ := List.mem_map.mp (hc skill hreq hproto)
    obtain ⟨k, v⟩ := p
    simp only at hfst
    subst hfst
    have hv := (hs _ hpm).2.2.1 hp
    simp only at hv
    subst hv
    refine ⟨⟨_, hpm, by simpa using hcount⟩, ?_⟩
    rw [Bool.eq_false_iff]
    intro h
    exact huser (by simpa using h)

/-- When no role lists a skill twice, the number of occurrences of a skill in
the required skills of some roles is the number of the roles that list it. -/
theorem count_flatMap_requiredSkills (roles : List Role) (skill : String)
    (hnd : ∀ role ∈ roles, role.requiredSkills.Nodup) :
    (roles.flatMap fun role => role.requiredSkills).count skill =
      (roles.filter fun role => role.requiredSkills.contains skill).length := by
  induction roles with
  | nil => rfl
  | cons r rs ih =>
    have ih2 := ih fun role hr => hnd role (List.mem_cons_of_mem _ hr)
    rw [List.flatMap_cons, List.count_append, ih2, List.filter_cons]
    by_cases h : skill ∈ r.requiredSkills
    · rw [List.count_eq_one_of_mem (hnd r (List.mem_cons_self _ _)) h]
      have hc : r.requiredSkills.contains skill = true := List.elem_eq_true_of_mem h
      rw [hc]
      simp [Nat.add_comm]
    · have hc : r.requiredSkills.contains skill = false := by
        rw [Bool.eq_false_iff]
        intro h'
        exact h (by simpa using h')
      rw [List.count_eq_zero.mpr h, hc]
      simp

/-- C13, at a role store whose only role requires the skills constructor and
Networking, for a candidate who has neither: both skills are listed by the one
fetched role, so both reach the threshold 0.7, but `identifyMissingCoreSkills`
returns Networking alone. -/
theorem identifyMissingCoreSkills_drops_inherited_name :
    identifyMissingCoreSkills securityRoles ["Security Engineer"] ["python"] =
        ["Networking"] ∧
      ((((Role.find securityRoles ["Security Engineer"]).flatMap fun role =>
          role.requiredSkills).count "constructor" : ℕ) : ℚ) ≥
        (Role.find securityRoles ["Security Engineer"]).length * (7 / 10) ∧
      toLowerCase "constructor" ∉ ["python"] := by
  decide!

/-- C14, as stated, fails: for the seeded data and the primary cluster of a
candidate whose skill is javascript, `identifyMissingCoreSkills` returns HTML,
which one of the four roles of the cluster requires. -/
theorem identifyMissingCoreSkills_not_core_in_cluster :
    (identifySkillClusters seedSkillToRoles ["javascript"]).getD 0 [] =
        ["Frontend Developer", "Software Developer", "Web Developer",
          "Full Stack Developer"] ∧
      "HTML" ∈ identifyMissingCoreSkills seedRoles
        ["Frontend Developer", "Software Developer", "Web Developer", "Full Stack Developer"]
        ["javascript"] ∧
      clusterRolesRequiring seedRoles
        ["Frontend Developer", "Software Developer", "Web Developer", "Full Stack Developer"]
        "HTML" = 1 ∧
      ¬ ((clusterRolesRequiring seedRoles
        ["Frontend Developer", "Software Developer", "Web Developer", "Full Stack Developer"]
        "HTML" : ℚ) ≥ 7 / 10 * (4 : ℕ)) := by
  decide!

/-- C14, amended: when no fetched role lists a required skill twice, every
skill that `identifyMissingCoreSkills` returns is required by at least 70% of
the roles fetched for the cluster, the stored roles whose title is in the
cluster. -/
theorem identifyMissingCoreSkills_core_among_fetched [CaseMapping] (roleStore : List Role)
    (clusterRoles : List String) (userSkills : List String)
    (hnd : ∀ role ∈ Role.find roleStore clusterRoles, role.requiredSkills.Nodup) :
    ∀ skill ∈ identifyMissingCoreSkills roleStore clusterRoles userSkills,
      ((((Role.find roleStore clusterRoles).filter fun role =>
          role.requiredSkills.contains skill).length : ℕ) : ℚ) ≥
        7 / 10 * (Role.find roleStore clusterRoles).length := by
  intro skill hs
  rcases clusterRoles with _ | ⟨c, cs⟩
  · simp [identifyMissingCoreSkills] at hs
  · have h := (mem_identifyMissingCoreSkills roleStore (c :: cs) userSkills skill
      (List.cons_ne_nil _ _)).mp hs
    rw [← count_flatMap_requiredSkills _ _ hnd, mul_comm]
    exact h.2.2.1

/-- C14, amended, at the seeded roles and the primary cluster of a candidate
whose skill is javascript. -/
theorem identifyMissingCoreSkills_core_among_fetched_witness :
    (∀ role ∈ Role.find seedRoles
        ["Frontend Developer", "Software Developer", "Web Developer", "Full Stack Developer"],
      role.requiredSkills.Nodup) ∧
    ∀ skill ∈ identifyMissingCoreSkills seedRoles
        ["Frontend Developer", "Software Developer", "Web Developer", "Full Stack Developer"]
        ["javascript"],
      ((((Role.find seedRoles
          ["Frontend Developer", "Software Developer", "Web Developer",
            "Full Stack Developer"]).filter fun role =>
          role.requiredSkills.contains skill).length : ℕ) : ℚ) ≥
        7 / 10 * (Role.find seedRoles
          ["Frontend Developer", "Software Developer", "Web Developer",
            "Full Stack Developer"]).length :=
  ⟨by decide,
    identifyMissingCoreSkills_core_among_fetched seedRoles
      ["Frontend Developer", "Software Developer", "Web Developer", "Full Stack Developer"]
      ["javascript"] (by decide)⟩

end SkillAnalysisEngine

/-! ## The deduplication and the ranking of `rankRecommendations` -/

namespace RoleRecommendationEngine

/-- After the loop over a list, `titleSet` holds the titles of
`uniqueRecommendations`, which are distinct; every title of the list is among
them; each kept recommendation is the first of the list with its title; and
the kept recommendations are in the order of the list. -/
theorem foldl_keepFirst_spec (recommendations : List Recommendation) :
    (recommendations.foldl keepFirst ([], [])).2 =
        (recommendations.foldl keepFirst ([], [])).1.map (fun r => r.title) ∧
      ((recommendations.foldl keepFirst ([], [])).1.map fun r => r.title).Nodup ∧
      (∀ r ∈ recommendations,
        r.title ∈ (recommendations.foldl keepFirst ([], [])).1.map fun r => r.title) ∧
      (∀ e ∈ (recommendations.foldl keepFirst ([], [])).1,
        recommendations.find? (fun r => r.title = e.title) = some e) ∧
      (recommendations.foldl keepFirst ([], [])).1.Sublist recommendations := by
  induction recommendations using List.reverseRecOn with
  | nil => simp
  | append_singleton rs r ih =>
    obtain ⟨hset, hnd, hall, hfirst, hsub⟩ := ih
    rw [List.foldl_append, List.foldl_cons, List.foldl_nil]
    generalize rs.foldl keepFirst ([], []) = state at *
    obtain ⟨kept, titles⟩ := state
    simp only at hset hnd hall hfirst hsub
    subst hset
    unfold keepFirst
    by_cases hin : r.title ∈ kept.map fun r => r.title
    · have hc : (kept.map fun r => r.title).contains r.title = true :=
        List.elem_eq_true_of_mem hin
      simp only [hc, Bool.not_true, Bool.false_eq_true, if_false]
      refine ⟨trivial, hnd, ?_, ?_, ?_⟩
      · intro r' hr'
        rcases List.mem_append.mp hr' with h | h
        · exact hall r' h
        · rw [List.mem_singleton.mp h]; exact hin
      · intro e he
        rw [List.find?_append, hfirst e he]
        rfl
      · exact hsub.trans (List.sublist_append_left _ _)
    · have hc : (kept.map fun r => r.title).contains r.title = false := by
        rw [Bool.eq_false_iff]
        intro h
        exact hin (by simpa using h)
      simp only [hc, Bool.not_false, if_true, List.map_append, List.map_cons, List.map_nil]
      refine ⟨trivial, ?_, ?_, ?_, ?_⟩
      · rw [List.nodup_append]
        refine ⟨hnd, by simp, ?_⟩
        intro a ha hb
        rw [List.mem_singleton.mp hb] at ha
        exact hin ha
      · intro r' hr'
        rw [List.mem_append]
        rcases List.mem_append.mp hr' with h | h
        · exact Or.inl (hall r' h)
        · rw [List.mem_singleton.mp h]; exact Or.inr (List.mem_singleton.mpr rfl)
      · intro e he
        rw [List.find?_append]
        rcases List.mem_append.mp he with h | h
        · rw [hfirst e h]; rfl
        · rw [List.mem_singleton.mp h]
          have hnone : rs.find? (fun r' => decide (r'.title = r.title)) = none := by
            rw [List.find?_eq_none]
            intro r' hr' ht
            simp only [decide_eq_true_eq] at ht
            exact hin (ht ▸ hall r' hr')
          rw [hnone]
          simp
      · exact hsub.append (List.Sublist.refl _)

theorem rankRecommendations_perm (recommendations : List Recommendation) :
    (rankRecommendations recommendations).Perm (uniqueRecommendations recommendations) :=
  sortBy_perm _ _

theorem orderedInsert_of_rel {α : Type} (r : α → α → Prop) [DecidableRel r] (a : α)
    (xs : List α) (h : ∀ x ∈ xs, r a x) : xs.orderedInsert r a = a :: xs := by
  rcases xs with _ | ⟨x, xs⟩
  · rfl
  · simp [List.orderedInsert, h x (List.mem_cons_self _ _)]

theorem orderedInsert_append_of_not_rel {α : Type} (r : α → α → Prop) [DecidableRel r] (a : α)
    (xs ys : List α) (h : ∀ x ∈ xs, ¬ r a x) :
    (xs ++ ys).orderedInsert r a = xs ++ ys.orderedInsert r a := by
  induction xs with
  | nil => rfl
  | cons x xs ih =>
    have hx := h x (List.mem_cons_self _ _)
    have ih2 := ih fun y hy => h y (List.mem_cons_of_mem _ hy)
    rw [List.cons_append, List.orderedInsert, if_neg hx, ih2, List.cons_append]

/-- The comparator on the three types: a recommendation goes before, or stays
before, another one exactly when its weight is at least the other weight. -/
theorem weightBefore_table (a b : Recommendation) :
    (a.type = "primary" →
      (b.type = "primary" ∨ b.type = "unique" ∨ b.type = "secondary") →
        weightBefore a b = true) ∧
    (a.type = "unique" → (b.type = "primary" → weightBefore a b = false) ∧
      (b.type = "unique" ∨ b.type = "secondary" → weightBefore a b = true)) ∧
    (a.type = "secondary" → (b.type = "primary" ∨ b.type = "unique" →
      weightBefore a b = false) ∧ (b.type = "secondary" → weightBefore a b = true)) := by
  have h1 : typeWeights.lookup "primary" = some 3 := by decide!
  have h2 : typeWeights.lookup "unique" = some 2 := by decide!
  have h3 : typeWeights.lookup "secondary" = some 1 := by decide!
  refine ⟨?_, ?_, ?_⟩
  · rintro ha (hb | hb | hb) <;> simp only [weightBefore, ha, hb, h1, h2, h3] <;> norm_num
  · intro ha
    refine ⟨?_, ?_⟩
    · intro hb
      simp only [weightBefore, ha, hb, h1, h2, h3]
      norm_num
    · rintro (hb | hb) <;> simp only [weightBefore, ha, hb, h1, h2, h3] <;> norm_num
  · intro ha
    refine ⟨?_, ?_⟩
    · rintro (hb | hb) <;> simp only [weightBefore, ha, hb, h1, h2, h3] <;> norm_num
    · intro hb
      simp only [weightBefore, ha, hb, h1, h2, h3]
      norm_num

/-- On recommendations of the three types, the stable sort by descending weight
puts the primary ones first, then the unique ones, then the secondary ones,
each group in its former order. -/
theorem sortBy_weightBefore_eq (xs : List Recommendation)
    (htypes : ∀ r ∈ xs, r.type = "primary" ∨ r.type = "unique" ∨ r.type = "secondary") :
    sortBy weightBefore xs =
      xs.filter (fun r => r.type = "primary") ++ xs.filter (fun r => r.type = "unique") ++
        xs.filter (fun r => r.type = "secondary") := by
  induction xs with
  | nil => rfl
  | cons a xs ih =>
    have ih2 := ih fun r hr => htypes r (List.mem_cons_of_mem _ hr)
    have htail : ∀ r ∈ xs, r.type = "primary" ∨ r.type = "unique" ∨ r.type = "secondary" :=
      fun r hr => htypes r (List.mem_cons_of_mem _ hr)
    unfold sortBy at ih2 ⊢
    rw [List.insertionSort, ih2]
    have hpu : ("primary" : String) ≠ "unique" := by decide
    have hps : ("primary" : String) ≠ "secondary" := by decide
    have hus : ("unique" : String) ≠ "secondary" := by decide
    rcases htypes a (List.mem_cons_self _ _) with ha | ha | ha
    · rw [orderedInsert_of_rel]
      · simp [List.filter_cons, ha, hpu, hps]
      · intro x hx
        refine (weightBefore_table a x).1 ha ?_
        simp only [List.mem_append, List.mem_filter] at hx
        rcases hx with (hx | hx) | hx <;> exact htail x hx.1
    · rw [List.append_assoc, orderedInsert_append_of_not_rel, orderedInsert_of_rel]
      · simp [List.filter_cons, ha, hpu.symm, hus]
      · intro x hx
        refine ((weightBefore_table a x).2.1 ha).2 ?_
        simp only [List.mem_append, List.mem_filter, decide_eq_true_eq] at hx
        rcases hx with hx | hx
        · exact Or.inl hx.2
        · exact Or.inr hx.2
      · intro x hx
        simp only [List.mem_filter, decide_eq_true_eq] at hx
        rw [((weightBefore_table a x).2.1 ha).1 hx.2]
        exact Bool.false_ne_true
    · rw [orderedInsert_append_of_not_rel, orderedInsert_of_rel]
      · simp [List.filter_cons, ha, hps.symm, hus.symm]
      · intro x hx
        simp only [List.mem_filter, decide_eq_true_eq] at hx
        exact ((weightBefore_table a x).2.2 ha).2 hx.2
      · intro x hx
        simp only [List.mem_append, List.mem_filter, decide_eq_true_eq] at hx
        have : x.type = "primary" ∨ x.type = "unique" := by
          rcases hx with hx | hx
          · exact Or.inl hx.2
          · exact Or.inr hx.2
        rw [((weightBefore_table a x).2.2 ha).1 this]
        exact Bool.false_ne_true

/-- The values of `title` in the list returned by `rankRecommendations` are
distinct, `undefined` counting as a value; every value of `title` in the input
has an entry; and each entry is the first object of the input with its value of
`title`. -/
theorem rankRecommendations_first_of_title (recommendations : List Recommendation) :
    ((rankRecommendations recommendations).map fun r => r.title).Nodup ∧
      (∀ r ∈ recommendations,
        r.title ∈ (rankRecommendations recommendations).map fun r => r.title) ∧
      ∀ e ∈ rankRecommendations recommendations,
        recommendations.find? (fun r => r.title = e.title) = some e := by
  refine ⟨?_, ?_, ?_⟩
  · rw [((rankRecommendations_perm recommendations).map fun r => r.title).nodup_iff]
    exact (foldl_keepFirst_spec recommendations).2.1
  · intro r hr
    rw [((rankRecommendations_perm recommendations).map fun r => r.title).mem_iff]
    exact (foldl_keepFirst_spec recommendations).2.2.1 r hr
  · intro e he
    exact (foldl_keepFirst_spec recommendations).2.2.2.1 e
      ((rankRecommendations_perm recommendations).mem_iff.mp he)

/-- C15, at the seeded data and a candidate with the skills javascript and
python: the array given to `rankRecommendations` holds the spreads of Software
Developer and Data Scientist, as primary and then as unique; no spread has a
property `title`, so after the first object `titleSet` holds `undefined` and
every other object is dropped: the result has one entry, and Data Scientist,
which is no duplicate of Software Developer, has none. -/
theorem rankRecommendations_drops_untitled_spreads :
    combinedRecommendations seedSkillToRoles seedRoles
        [{ name := "javascript" }, { name := "python" }] =
      (seedRoles.take 2).map (tagged "primary") ++ (seedRoles.take 2).map (tagged "unique") ∧
    (seedRoles.take 2).map (fun role => role.title) = ["Software Developer", "Data Scientist"] ∧
    rankRecommendations (combinedRecommendations seedSkillToRoles seedRoles
        [{ name := "javascript" }, { name := "python" }]) =
      (seedRoles.take 1).map (tagged "primary") ∧
    (rankRecommendations (combinedRecommendations seedSkillToRoles seedRoles
        [{ name := "javascript" }, { name := "python" }])).map (fun r => r.title) = [none] := by
  decide!

/-- C16: when every type of the input is primary, unique or secondary, the list
returned by `rankRecommendations` is the deduplicated list with its primary
entries first, then its unique entries, then its secondary entries, each group
in the order of the deduplicated list, which is the order of the input; so the
weights are non-increasing along the output. -/
theorem rankRecommendations_stable (recommendations : List Recommendation)
    (htypes : ∀ r ∈ recommendations,
      r.type = "primary" ∨ r.type = "unique" ∨ r.type = "secondary") :
    rankRecommendations recommendations =
        (uniqueRecommendations recommendations).filter (fun r => r.type = "primary") ++
          (uniqueRecommendations recommendations).filter (fun r => r.type = "unique") ++
          (uniqueRecommendations recommendations).filter (fun r => r.type = "secondary") ∧
      (uniqueRecommendations recommendations).Sublist recommendations ∧
      (rankRecommendations recommendations).Pairwise fun a b =>
        ∃ wa wb, typeWeights.lookup a.type = some wa ∧ typeWeights.lookup b.type = some wb ∧
          wb ≤ wa := by
  have hsub : (uniqueRecommendations recommendations).Sublist recommendations :=
    (foldl_keepFirst_spec recommendations).2.2.2.2
  have hu : ∀ r ∈ uniqueRecommendations recommendations,
      r.type = "primary" ∨ r.type = "unique" ∨ r.type = "secondary" :=
    fun r hr => htypes r (hsub.subset hr)
  have heq := sortBy_weightBefore_eq (uniqueRecommendations recommendations) hu
  have h1 : typeWeights.lookup "primary" = some 3 := by decide!
  have h2 : typeWeights.lookup "unique" = some 2 := by decide!
  have h3 : typeWeights.lookup "secondary" = some 1 := by decide!
  refine ⟨heq, hsub, ?_⟩
  unfold rankRecommendations
  rw [heq]
  generalize uniqueRecommendations recommendations = kept
  simp only [List.pairwise_append, List.mem_append, List.mem_filter, decide_eq_true_eq]
  refine ⟨⟨?_, ?_, ?_⟩, ?_, ?_⟩
  · refine List.Pairwise.imp_of_mem ?_ (List.pairwise_of_forall fun _ _ => trivial)
    intro a b ha hb _
    rw [List.mem_filter, decide_eq_true_eq] at ha hb
    exact ⟨3, 3, by rw [ha.2, h1], by rw [hb.2, h1], le_refl _⟩
  · refine List.Pairwise.imp_of_mem ?_ (List.pairwise_of_forall fun _ _ => trivial)
    intro a b ha hb _
    rw [List.mem_filter, decide_eq_true_eq] at ha hb
    exact ⟨2, 2, by rw [ha.2, h2], by rw [hb.2, h2], le_refl _⟩
  · rintro a ⟨-, ha⟩ b ⟨-, hb⟩
    exact ⟨3, 2, by rw [ha, h1], by rw [hb, h2], by norm_num⟩
  · refine List.Pairwise.imp_of_mem ?_ (List.pairwise_of_forall fun _ _ => trivial)
    intro a b ha hb _
    rw [List.mem_filter, decide_eq_true_eq] at ha hb
    exact ⟨1, 1, by rw [ha.2, h3], by rw [hb.2, h3], le_refl _⟩
  · rintro a (⟨-, ha⟩ | ⟨-, ha⟩) b ⟨-, hb⟩
    · exact ⟨3, 1, by rw [ha, h1], by rw [hb, h3], by norm_num⟩
    · exact ⟨2, 1, by rw [ha, h2], by rw [hb, h3], by norm_num⟩

/-- C16, at a list with a repeated title and the three types: the result is
UX Designer and Product Manager (primary), Data Scientist (unique), Software
Developer (secondary). -/
theorem rankRecommendations_stable_witness :
    (∀ r ∈ mixedRecommendations,
      r.type = "primary" ∨ r.type = "unique" ∨ r.type = "secondary") ∧
    (rankRecommendations mixedRecommendations =
        (uniqueRecommendations mixedRecommendations).filter (fun r => r.type = "primary") ++
          (uniqueRecommendations mixedRecommendations).filter (fun r => r.type = "unique") ++
          (uniqueRecommendations mixedRecommendations).filter
            (fun r => r.type = "secondary") ∧
      (uniqueRecommendations mixedRecommendations).Sublist mixedRecommendations ∧
      (rankRecommendations mixedRecommendations).Pairwise fun a b =>
        ∃ wa wb, typeWeights.lookup a.type = some wa ∧ typeWeights.lookup b.type = some wb ∧
          wb ≤ wa) ∧
    (rankRecommendations mixedRecommendations).map (fun r => (r.title, r.type)) =
      [(some "UX Designer", "primary"), (some "Product Manager", "primary"),
        (some "Data Scientist", "unique"), (some "Software Developer", "secondary")] :=
  ⟨by decide, rankRecommendations_stable mixedRecommendations (by decide), by decide!⟩

end RoleRecommendationEngine

/-! ## The recommendation steps -/

namespace RoleRecommendationEngine

theorem mem_foldl_addHighRelevance (roles : List RoleRelevance) (init : List String)
    (title : String) :
    title ∈ roles.foldl addHighRelevance init ↔
      title ∈ init ∨ ∃ r ∈ roles, r.title = title ∧ r.relevanceScore ≥ 80 := by
  induction roles generalizing init with
  | nil => simp
  | cons r rs ih =>
    rw [List.foldl_cons, ih]
    have hstep : title ∈ addHighRelevance init r ↔
        title ∈ init ∨ (r.title = title ∧ r.relevanceScore ≥ 80) := by
      unfold addHighRelevance
      by_cases h80 : r.relevanceScore ≥ 80
      · by_cases hin : init.contains r.title = true
        · have hmem : r.title ∈ init := by simpa using hin
          simp only [h80, hin, if_true, and_true]
          constructor
          · exact Or.inl
          · rintro (h | h)
            · exact h
            · exact h ▸ hmem
        · simp only [h80, hin, if_true, Bool.false_eq_true, if_false, List.mem_append,
            List.mem_singleton, and_true]
          exact or_congr Iff.rfl eq_comm
      · simp [h80]
    rw [hstep]
    simp only [List.mem_cons, exists_eq_or_imp, or_assoc]

theorem mem_roleSet (skillMappings : List SkillToRole) (title : String) :
    title ∈ roleSet skillMappings ↔
      ∃ mapping ∈ skillMappings, ∃ r ∈ mapping.roles,
        r.title = title ∧ r.relevanceScore ≥ 80 := by
  unfold roleSet
  have key : ∀ init : List String,
      title ∈ skillMappings.foldl
          (fun roleSet mapping => mapping.roles.foldl addHighRelevance roleSet) init ↔
        title ∈ init ∨ ∃ mapping ∈ skillMappings, ∃ r ∈ mapping.roles,
          r.title = title ∧ r.relevanceScore ≥ 80 := by
    induction skillMappings with
    | nil => simp
    | cons m ms ih =>
      intro init
      rw [List.foldl_cons, ih, mem_foldl_addHighRelevance]
      simp only [List.mem_cons, exists_eq_or_imp, or_assoc]
  simpa using key []

/-- C17: for a candidate with an empty skill list `generateRoleRecommendations`
returns the empty list, whatever `toObject` does, and each of its steps returns
the empty list on empty input. -/
theorem generateRoleRecommendations_empty [CaseMapping]
    (toObject : Recommendation → Except String Recommendation)
    (skillToRoles : List SkillToRole) (roleStore : List Role) (userProfile : UserProfile) :
    generateRoleRecommendations toObject skillToRoles roleStore
        { userProfile with skills := some [] } = .ok [] ∧
      matchRolesForSkillCluster roleStore [] = [] ∧
      matchRolesForUniqueSkills skillToRoles roleStore [] = [] ∧
      rankRecommendations [] = [] ∧
      enrichRecommendationsWithMarketData toObject [] = .ok [] := by
  have h := SkillAnalysisEngine.analyzeUserSkills_nil skillToRoles roleStore
  refine ⟨?_, rfl, rfl, rfl, rfl⟩
  simp only [generateRoleRecommendations, recommendations, combinedRecommendations, h]
  rfl

end RoleRecommendationEngine

theorem mem_roleFind (collection : List Role) (titles : List String) (role : Role) :
    role ∈ Role.find collection titles ↔ role ∈ collection ∧ role.title ∈ titles := by
  simp [Role.find]

theorem mem_skillToRoleFind (collection : List SkillToRole) (skillNames : List String)
    (mapping : SkillToRole) :
    mapping ∈ SkillToRole.find collection skillNames ↔
      mapping ∈ collection ∧ mapping.skill ∈ skillNames := by
  simp [SkillToRole.find]

namespace RoleRecommendationEngine

/-- C18, as stated, fails: with the seeded data, a candidate whose skill is
JavaScript and a `toObject` that throws, the enrichment step fails and so does
`generateRoleRecommendations`, with the same error; no recommendation is
returned. -/
theorem generateRoleRecommendations_enrichment_failure :
    enrichRecommendationsWithMarketData failingToObject
        (recommendations seedSkillToRoles seedRoles [{ name := "JavaScript" }]) =
      .error "market data unavailable" ∧
    generateRoleRecommendations failingToObject seedSkillToRoles seedRoles javascriptProfile =
      .error "market data unavailable" := by
  decide!

/-- C18, amended: when the enrichment step fails, `generateRoleRecommendations`
fails with the same error; the error is thrown again by the `catch` block of
`enrichRecommendationsWithMarketData` and by that of
`generateRoleRecommendations`. -/
theorem generateRoleRecommendations_rethrows [CaseMapping]
    (toObject : Recommendation → Except String Recommendation)
    (skillToRoles : List SkillToRole) (roleStore : List Role) (userProfile : UserProfile)
    (skills : List Skill) (error : String) (hskills : userProfile.skills = some skills)
    (hfail : enrichRecommendationsWithMarketData toObject
      (recommendations skillToRoles roleStore skills) = .error error) :
    generateRoleRecommendations toObject skillToRoles roleStore userProfile = .error error := by
  unfold generateRoleRecommendations
  rw [hskills]
  simp only [hfail]
  rfl

/-- C18, amended, at the seeded data with a `toObject` that throws. -/
theorem generateRoleRecommendations_rethrows_witness :
    javascriptProfile.skills = some [{ name := "JavaScript" }] ∧
      enrichRecommendationsWithMarketData failingToObject
          (recommendations seedSkillToRoles seedRoles [{ name := "JavaScript" }]) =
        .error "market data unavailable" ∧
      generateRoleRecommendations failingToObject seedSkillToRoles seedRoles
          javascriptProfile = .error "market data unavailable" :=
  ⟨rfl, by decide!,
    generateRoleRecommendations_rethrows failingToObject seedSkillToRoles seedRoles
      javascriptProfile [{ name := "JavaScript" }] "market data unavailable" rfl (by decide!)⟩

theorem mapWithMarketData_ok (toObject : Recommendation → Except String Recommendation)
    (recommendations : List Recommendation)
    (htoObject : ∀ r ∈ recommendations, ∃ object, toObject r = .ok object ∧
      object.title = r.title) :
    ∃ enriched, mapWithMarketData toObject recommendations = .ok enriched ∧
      enriched.length = recommendations.length ∧
      (enriched.map fun e => e.title) = recommendations.map (fun r => r.title) ∧
      (∀ e ∈ enriched, e.marketDemand = "High") ∧
      (enriched.map fun e => e.averageSalary) =
        recommendations.map fun r =>
          match r.averageSalary with
          | some salary => if salary = "" then some "$80,000 - $120,000" else some salary
          | none => some "$80,000 - $120,000" := by
  induction recommendations with
  | nil => exact ⟨[], rfl, rfl, rfl, by simp, rfl⟩
  | cons r rs ih =>
    obtain ⟨object, hobj, htitle⟩ := htoObject r (List.mem_cons_self _ _)
    obtain ⟨enriched, hrest, hlen, htitles, hdemand, hsalary⟩ :=
      ih fun r' hr' => htoObject r' (List.mem_cons_of_mem _ hr')
    refine ⟨withMarketData object r :: enriched, ?_, ?_, ?_, ?_, ?_⟩
    · simp only [mapWithMarketData, hobj, hrest]
    · simp [hlen]
    · simp only [List.map_cons, htitles, withMarketData, htitle]
    · intro e he
      rcases List.mem_cons.mp he with h | h
      · rw [h]; rfl
      · exact hdemand e h
    · simp only [List.map_cons, hsalary, List.cons.injEq, and_true]
      rcases hs : r.averageSalary with _ | salary
      · simp [withMarketData, orElse, truthy, hs]
      · by_cases he : salary = "" <;> simp [withMarketData, orElse, truthy, hs, he]

/-- When `toObject` returns for each object an object with its title,
`enrichRecommendationsWithMarketData` returns as many objects as it received,
with the same titles in the same order, each with `marketDemand` equal to High
and with `averageSalary` equal to that of the received object when it is
defined and not empty, and to the fallback otherwise. -/
theorem enrichRecommendationsWithMarketData_of_toObject
    (toObject : Recommendation → Except String Recommendation)
    (recommendations : List Recommendation)
    (htoObject : ∀ r ∈ recommendations, ∃ object, toObject r = .ok object ∧
      object.title = r.title) :
    ∃ enriched, enrichRecommendationsWithMarketData toObject recommendations = .ok enriched ∧
      enriched.length = recommendations.length ∧
      (enriched.map fun e => e.title) = recommendations.map (fun r => r.title) ∧
      (∀ e ∈ enriched, e.marketDemand = "High") ∧
      (enriched.map fun e => e.averageSalary) =
        recommendations.map fun r =>
          match r.averageSalary with
          | some salary => if salary = "" then some "$80,000 - $120,000" else some salary
          | none => some "$80,000 - $120,000" := by
  obtain ⟨enriched, hmap, hrest⟩ := mapWithMarketData_ok toObject recommendations htoObject
  exact ⟨enriched, by simp only [enrichRecommendationsWithMarketData, hmap, logAndRethrow],
    hrest⟩

/-- C19, at the seeded data and a candidate whose skill is JavaScript: the array
given to `enrichRecommendationsWithMarketData` holds one object, the spread of
Software Developer; it has no method `toObject`, so the enrichment throws a
`TypeError` where the claim has it return the recommendation with its market
data, and `generateRoleRecommendations` fails with that error. -/
theorem enrichRecommendationsWithMarketData_throws_on_spread :
    recommendations seedSkillToRoles seedRoles [{ name := "JavaScript" }] =
      (seedRoles.take 1).map (tagged "primary") ∧
    enrichRecommendationsWithMarketData missingToObject
        (recommendations seedSkillToRoles seedRoles [{ name := "JavaScript" }]) =
      .error "TypeError: recommendation.toObject is not a function" ∧
    generateRoleRecommendations missingToObject seedSkillToRoles seedRoles javascriptProfile =
      .error "TypeError: recommendation.toObject is not a function" := by
  decide!

/-- C20: `matchRolesForUniqueSkills` returns the stored roles, in storage order,
whose title is listed with a relevance score of at least 80 in the mapping of
one of the given unique skills; a role listed only with scores below 80 is not
returned; and the empty list of unique skills gives the empty list. -/
theorem matchRolesForUniqueSkills_spec (skillToRoles : List SkillToRole)
    (roleStore : List Role) (uniqueSkills : List String) :
    (∀ role, role ∈ matchRolesForUniqueSkills skillToRoles roleStore uniqueSkills ↔
      role ∈ roleStore ∧ ∃ mapping ∈ skillToRoles, mapping.skill ∈ uniqueSkills ∧
        ∃ r ∈ mapping.roles, r.title = role.title ∧ r.relevanceScore ≥ 80) ∧
      (matchRolesForUniqueSkills skillToRoles roleStore uniqueSkills).Sublist roleStore ∧
      (∀ role, (∀ mapping ∈ skillToRoles, mapping.skill ∈ uniqueSkills →
          ∀ r ∈ mapping.roles, r.title = role.title → r.relevanceScore < 80) →
        role ∉ matchRolesForUniqueSkills skillToRoles roleStore uniqueSkills) ∧
      matchRolesForUniqueSkills skillToRoles roleStore [] = [] := by
  have hiff : ∀ role, role ∈ matchRolesForUniqueSkills skillToRoles roleStore uniqueSkills ↔
      role ∈ roleStore ∧ ∃ mapping ∈ skillToRoles, mapping.skill ∈ uniqueSkills ∧
        ∃ r ∈ mapping.roles, r.title = role.title ∧ r.relevanceScore ≥ 80 := by
    intro role
    unfold matchRolesForUniqueSkills
    rcases uniqueSkills with _ | ⟨u, us⟩
    · simp
    · simp only [List.length_cons, Nat.add_one_ne_zero, if_false, mem_roleFind, mem_roleSet,
        mem_skillToRoleFind]
      constructor
      · rintro ⟨hr, mapping, ⟨hm, hs⟩, r, hrm, ht, h80⟩
        exact ⟨hr, mapping, hm, hs, r, hrm, ht, h80⟩
      · rintro ⟨hr, mapping, hm, hs, r, hrm, ht, h80⟩
        exact ⟨hr, mapping, ⟨hm, hs⟩, r, hrm, ht, h80⟩
  refine ⟨hiff, ?_, ?_, rfl⟩
  · unfold matchRolesForUniqueSkills
    split
    · exact List.nil_sublist _
    · exact List.filter_sublist _
  · intro role hlow hmem
    obtain ⟨-, mapping, hm, hs, r, hr, ht, h80⟩ := (hiff role).mp hmem
    exact absurd h80 (not_le.mpr (hlow mapping hm hs r hr ht))

end RoleRecommendationEngine

/-! ## Characters -/

theorem isUpper_iff (c : Char) : c.isUpper = true ↔ 65 ≤ c.toNat ∧ c.toNat ≤ 90 := by
  simp only [Char.isUpper, Bool.and_eq_true, decide_eq_true_eq, ge_iff_le, UInt32.le_def,
    Char.toNat, BitVec.le_def, UInt32.toNat]
  exact Iff.rfl

theorem isLower_iff (c : Char) : c.isLower = true ↔ 97 ≤ c.toNat ∧ c.toNat ≤ 122 := by
  simp only [Char.isLower, Bool.and_eq_true, decide_eq_true_eq, ge_iff_le, UInt32.le_def,
    Char.toNat, BitVec.le_def, UInt32.toNat]
  exact Iff.rfl

theorem isDigit_iff (c : Char) : c.isDigit = true ↔ 48 ≤ c.toNat ∧ c.toNat ≤ 57 := by
  simp only [Char.isDigit, Bool.and_eq_true, decide_eq_true_eq, ge_iff_le, UInt32.le_def,
    Char.toNat, BitVec.le_def, UInt32.toNat]
  exact Iff.rfl

theorem toLower_of_not_upper (c : Char) (h : c.isUpper = false) : Char.toLower c = c := by
  rw [Bool.eq_false_iff, Ne, isUpper_iff] at h
  unfold Char.toLower
  simp only
  rw [if_neg h]

/-- A lower-case letter, a digit or an underscore is not white space and is
not an upper-case letter. -/
theorem wordLike_facts (c : Char)
    (h : c.isLower = true ∨ c.isDigit = true ∨ c = '_') :
    isSpaceChar c = false ∧ c.isUpper = false ∧ isWordChar c = true ∧ c ≠ ' ' := by
  have hcode : (97 ≤ c.toNat ∧ c.toNat ≤ 122) ∨ (48 ≤ c.toNat ∧ c.toNat ≤ 57) ∨
      c.toNat = 95 := by
    rcases h with h | h | h
    · exact Or.inl ((isLower_iff c).mp h)
    · exact Or.inr (Or.inl ((isDigit_iff c).mp h))
    · exact Or.inr (Or.inr (by rw [h]; rfl))
  refine ⟨?_, ?_, ?_, ?_⟩
  · unfold isSpaceChar
    simp only [Bool.or_eq_false_iff, Bool.and_eq_false_iff, decide_eq_false_iff_not,
      beq_eq_false_iff_ne, ne_eq]
    omega
  · rw [Bool.eq_false_iff, Ne, isUpper_iff]
    omega
  · unfold isWordChar Char.isAlphanum Char.isAlpha
    rcases h with h | h | h
    · simp [h]
    · simp [h]
    · simp [h]
  · intro hs
    rw [hs] at hcode
    have : (' ' : Char).toNat = 32 := rfl
    omega

theorem wordLike_ascii (c : Char)
    (h : c.isLower = true ∨ c.isDigit = true ∨ c = '_') : c.toNat < 128 := by
  rcases h with h | h | h
  · have := (isLower_iff c).mp h
    omega
  · have := (isDigit_iff c).mp h
    omega
  · rw [h]
    decide

theorem space_facts : isSpaceChar ' ' = true ∧ (' ' : Char).isUpper = false ∧
    isWordChar ' ' = false := by
  decide

/-- A word character that is not an upper-case letter is a lower-case letter, a
digit or an underscore. -/
theorem wordLike_of_isWordChar (c : Char) (hw : isWordChar c = true)
    (hu : c.isUpper = false) : c.isLower = true ∨ c.isDigit = true ∨ c = '_' := by
  unfold isWordChar Char.isAlphanum Char.isAlpha at hw
  simp only [hu, Bool.false_or, Bool.or_eq_true, beq_iff_eq] at hw
  rcases hw with (h | h) | h
  · exact Or.inl h
  · exact Or.inr (Or.inl h)
  · exact Or.inr (Or.inr h)

/-! ## The normal form of `preprocessText` -/

theorem replaceNonWord_mem (cs : List Char) (hu : ∀ c ∈ cs, c.isUpper = false) :
    ∀ c ∈ replaceNonWord cs,
      (c.isLower = true ∨ c.isDigit = true ∨ c = '_') ∨ isSpaceChar c = true := by
  intro c hc
  unfold replaceNonWord at hc
  rw [List.mem_map] at hc
  obtain ⟨d, hd, rfl⟩ := hc
  by_cases hw : isWordChar d = true
  · simp only [hw, Bool.true_or, if_true]
    exact Or.inl (wordLike_of_isWordChar d hw (hu d hd))
  · by_cases hs : isSpaceChar d = true
    · simp only [hs, Bool.or_true, if_true]
      exact Or.inr trivial
    · simp only [hw, hs, Bool.or_self, if_false]
      exact Or.inr space_facts.1

theorem collapseSpaces_cons_space (c : Char) (cs : List Char) (h : isSpaceChar c = true) :
    collapseSpaces (c :: cs) =
      match cs with
      | [] => [' ']
      | d :: _ => if isSpaceChar d then collapseSpaces cs else ' ' :: collapseSpaces cs := by
  cases cs with
  | nil => simp [collapseSpaces, h]
  | cons d ds => simp [collapseSpaces, h]

theorem collapseSpaces_cons_other (c : Char) (cs : List Char) (h : isSpaceChar c = false) :
    collapseSpaces (c :: cs) = c :: collapseSpaces cs := by
  cases cs with
  | nil => simp [collapseSpaces, h]
  | cons d ds => simp [collapseSpaces, h]

/-- Every character left by `collapseSpaces` is a space or a character of the
input that is not white space. -/
theorem collapseSpaces_mem : ∀ (l : List Char) (c : Char), c ∈ collapseSpaces l →
    c = ' ' ∨ (c ∈ l ∧ isSpaceChar c = false)
  | [], c, hc => by simp [collapseSpaces] at hc
  | a :: cs, c, hc => by
    by_cases ha : isSpaceChar a = true
    · rw [collapseSpaces_cons_space a cs ha] at hc
      cases cs with
      | nil =>
        simp only [List.mem_singleton] at hc
        exact Or.inl hc
      | cons d ds =>
        simp only at hc
        by_cases hd : isSpaceChar d = true
        · rw [if_pos hd] at hc
          rcases collapseSpaces_mem (d :: ds) c hc with h | h
          · exact Or.inl h
          · exact Or.inr ⟨List.mem_cons_of_mem _ h.1, h.2⟩
        · rw [if_neg hd, List.mem_cons] at hc
          rcases hc with h | hc
          · exact Or.inl h
          · rcases collapseSpaces_mem (d :: ds) c hc with h | h
            · exact Or.inl h
            · exact Or.inr ⟨List.mem_cons_of_mem _ h.1, h.2⟩
    · have ha' : isSpaceChar a = false := by simpa using ha
      rw [collapseSpaces_cons_other a cs ha', List.mem_cons] at hc
      rcases hc with h | hc
      · exact Or.inr ⟨by rw [h]; exact List.mem_cons_self _ _, by rw [h]; exact ha'⟩
      · rcases collapseSpaces_mem cs c hc with h | h
        · exact Or.inl h
        · exact Or.inr ⟨List.mem_cons_of_mem _ h.1, h.2⟩

/-- No two consecutive characters of the output of `collapseSpaces` are both
white space. -/
theorem collapseSpaces_chain : ∀ (l : List Char),
    List.Chain' (fun a b => ¬(isSpaceChar a = true ∧ isSpaceChar b = true)) (collapseSpaces l)
  | [] => by simp [collapseSpaces]
  | a :: cs => by
    by_cases ha : isSpaceChar a = true
    · rw [collapseSpaces_cons_space a cs ha]
      cases cs with
      | nil => simp
      | cons d ds =>
        simp only
        by_cases hd : isSpaceChar d = true
        · rw [if_pos hd]
          exact collapseSpaces_chain (d :: ds)
        · rw [if_neg hd]
          have hd' : isSpaceChar d = false := by simpa using hd
          rw [collapseSpaces_cons_other d ds hd']
          rw [List.chain'_cons]
          refine ⟨fun h => hd h.2, ?_⟩
          have := collapseSpaces_chain (d :: ds)
          rw [collapseSpaces_cons_other d ds hd'] at this
          exact this
    · have ha' : isSpaceChar a = false := by simpa using ha
      rw [collapseSpaces_cons_other a cs ha']
      refine List.Chain'.cons' (collapseSpaces_chain cs) ?_
      intro y hy h
      exact ha h.1

theorem trim_eq (l : List Char) :
    trim l = List.rdropWhile isSpaceChar (List.dropWhile isSpaceChar l) := rfl

/-- The output of `trim` is a contiguous part of its input. -/
theorem trim_contiguous (l : List Char) : trim l <:+: l := by
  rw [trim_eq]
  have hp := List.rdropWhile_prefix isSpaceChar (List.dropWhile isSpaceChar l)
  have hs := List.dropWhile_suffix isSpaceChar (l := l)
  obtain ⟨t, ht⟩ := hp
  obtain ⟨u, hu⟩ := hs
  exact ⟨u, t, by rw [List.append_assoc, ht, hu]⟩

theorem trim_head (l : List Char) (c : Char) (h : (trim l).head? = some c) :
    isSpaceChar c = false := by
  rw [trim_eq] at h
  have hp := List.rdropWhile_prefix isSpaceChar (List.dropWhile isSpaceChar l)
  have hne : List.rdropWhile isSpaceChar (List.dropWhile isSpaceChar l) ≠ [] := by
    intro h0
    rw [h0] at h
    simp at h
  have h2 : (List.dropWhile isSpaceChar l).head? = some c := by
    obtain ⟨t, ht⟩ := hp
    rw [← ht, List.head?_append_of_ne_nil _ hne, h]
  have := List.head?_dropWhile_not isSpaceChar l
  rw [h2] at this
  simpa using this

theorem trim_getLast (l : List Char) (c : Char) (h : (trim l).getLast? = some c) :
    isSpaceChar c = false := by
  rw [trim_eq] at h
  have hne : List.rdropWhile isSpaceChar (List.dropWhile isSpaceChar l) ≠ [] := by
    intro h0
    rw [h0] at h
    simp at h
  have := List.rdropWhile_last_not isSpaceChar (List.dropWhile isSpaceChar l) hne
  rw [List.getLast?_eq_getLast _ hne, Option.some.injEq] at h
  rw [h] at this
  simpa using this

/-- The last three stages of `preprocessText` bring every text without an
upper-case ASCII letter to the normal form, whatever case mapping produced that
text. -/
theorem normalise_normal_form (cs : List Char) (hu : ∀ c ∈ cs, c.isUpper = false) :
    (∀ c ∈ trim (collapseSpaces (replaceNonWord cs)),
        (c.isLower = true ∨ c.isDigit = true ∨ c = '_') ∨ c = ' ') ∧
      (trim (collapseSpaces (replaceNonWord cs))).head? ≠ some ' ' ∧
      (trim (collapseSpaces (replaceNonWord cs))).getLast? ≠ some ' ' ∧
      List.Chain' (fun a b => ¬(a = ' ' ∧ b = ' '))
        (trim (collapseSpaces (replaceNonWord cs))) := by
  refine ⟨?_, ?_, ?_, ?_⟩
  · intro c hc
    have hc2 := List.IsInfix.subset (trim_contiguous _) hc
    rcases collapseSpaces_mem _ c hc2 with h | ⟨hm, hs⟩
    · exact Or.inr h
    · rcases replaceNonWord_mem cs hu c hm with h | h
      · exact Or.inl h
      · rw [hs] at h
        exact absurd h (by simp)
  · intro h
    have := trim_head _ _ h
    rw [space_facts.1] at this
    exact absurd this (by simp)
  · intro h
    have := trim_getLast _ _ h
    rw [space_facts.1] at this
    exact absurd this (by simp)
  · obtain ⟨u, t, hut⟩ := trim_contiguous (collapseSpaces (replaceNonWord cs))
    have hchain := collapseSpaces_chain (replaceNonWord cs)
    rw [← hut] at hchain
    refine List.Chain'.imp ?_ (List.Chain'.right_of_append (List.Chain'.left_of_append hchain))
    intro a b h hab
    apply h
    rw [hab.1, hab.2]
    exact ⟨space_facts.1, space_facts.1⟩

theorem map_toLower_normal (l : List Char)
    (hmem : ∀ c ∈ l, (c.isLower = true ∨ c.isDigit = true ∨ c = '_') ∨ c = ' ') :
    l.map Char.toLower = l := by
  induction l with
  | nil => rfl
  | cons a cs ih =>
    rw [List.map_cons, ih fun c hc => hmem c (List.mem_cons_of_mem _ hc)]
    congr 1
    apply toLower_of_not_upper
    rcases hmem a (List.mem_cons_self _ _) with h | h
    · exact (wordLike_facts a h).2.1
    · rw [h]
      exact space_facts.2.1

theorem replaceNonWord_normal (l : List Char)
    (hmem : ∀ c ∈ l, (c.isLower = true ∨ c.isDigit = true ∨ c = '_') ∨ c = ' ') :
    replaceNonWord l = l := by
  unfold replaceNonWord
  induction l with
  | nil => rfl
  | cons a cs ih =>
    rw [List.map_cons, ih fun c hc => hmem c (List.mem_cons_of_mem _ hc)]
    congr 1
    rcases hmem a (List.mem_cons_self _ _) with h | h
    · simp only [(wordLike_facts a h).2.2.1, Bool.true_or, if_true]
    · rw [h]
      simp only [space_facts.1, Bool.or_true, if_true]

theorem collapseSpaces_normal : ∀ (l : List Char),
    (∀ c ∈ l, (c.isLower = true ∨ c.isDigit = true ∨ c = '_') ∨ c = ' ') →
    l.getLast? ≠ some ' ' →
    List.Chain' (fun a b => ¬(a = ' ' ∧ b = ' ')) l →
    collapseSpaces l = l
  | [], _, _, _ => by simp [collapseSpaces]
  | [a], hmem, hlast, _ => by
    rcases hmem a (List.mem_cons_self _ _) with h | h
    · rw [collapseSpaces_cons_other a [] (wordLike_facts a h).1]
      simp [collapseSpaces]
    · rw [h] at hlast
      exact absurd rfl hlast
  | a :: d :: ds, hmem, hlast, hchain => by
    have hmem2 : ∀ c ∈ d :: ds, (c.isLower = true ∨ c.isDigit = true ∨ c = '_') ∨ c = ' ' :=
      fun c hc => hmem c (List.mem_cons_of_mem _ hc)
    have hlast2 : (d :: ds).getLast? ≠ some ' ' := by
      rw [List.getLast?_cons_cons] at hlast
      exact hlast
    rw [List.chain'_cons] at hchain
    have ih := collapseSpaces_normal (d :: ds) hmem2 hlast2 hchain.2
    rcases hmem a (List.mem_cons_self _ _) with h | h
    · rw [collapseSpaces_cons_other a _ (wordLike_facts a h).1, ih]
    · have hd : d ≠ ' ' := fun hd => hchain.1 ⟨h, hd⟩
      have hdw : isSpaceChar d = false := by
        rcases hmem2 d (List.mem_cons_self _ _) with h2 | h2
        · exact (wordLike_facts d h2).1
        · exact absurd h2 hd
      rw [h, collapseSpaces_cons_space ' ' _ space_facts.1]
      simp only [hdw, Bool.false_eq_true, if_false]
      rw [ih]

theorem trim_normal (l : List Char)
    (hmem : ∀ c ∈ l, (c.isLower = true ∨ c.isDigit = true ∨ c = '_') ∨ c = ' ')
    (hhead : l.head? ≠ some ' ') (hlast : l.getLast? ≠ some ' ') : trim l = l := by
  have hnot : ∀ c ∈ l, c ≠ ' ' → ¬isSpaceChar c = true := by
    intro c hc hne
    rcases hmem c hc with h | h
    · rw [(wordLike_facts c h).1]
      simp
    · exact absurd h hne
  have h1 : List.dropWhile isSpaceChar l = l := by
    rw [List.dropWhile_eq_self_iff]
    intro hl
    apply hnot _ (List.get_mem _ _ _)
    intro h
    apply hhead
    cases l with
    | nil => simp at hl
    | cons a cs =>
      simp only [List.get_eq_getElem, List.getElem_cons_zero] at h
      rw [h]
      rfl
  rw [trim_eq, h1, List.rdropWhile_eq_self_iff]
  intro hl
  apply hnot _ (List.getLast_mem hl)
  intro h
  apply hlast
  rw [List.getLast?_eq_getLast _ hl, h]

/-- C26: for every input string, the output of `preprocessText` is in normal
form: each of its characters is a lower-case ASCII letter, a digit, an
underscore or a space; it neither starts nor ends with a space; it has no two
consecutive spaces; and `preprocessText` returns it unchanged. -/
theorem preprocessText_normal_form [CaseMapping] (text : String) :
    (∀ c ∈ (preprocessText text).data,
        c.isLower = true ∨ c.isDigit = true ∨ c = '_' ∨ c = ' ') ∧
      (preprocessText text).data.head? ≠ some ' ' ∧
      (preprocessText text).data.getLast? ≠ some ' ' ∧
      List.Chain' (fun a b => ¬(a = ' ' ∧ b = ' ')) (preprocessText text).data ∧
      preprocessText (preprocessText text) = preprocessText text := by
  have hu : ∀ c ∈ (toLowerCase text).data, c.isUpper = false :=
    fun c hc => CaseMapping.lower_not_upper text c hc
  obtain ⟨hmem, hhead, hlast, hchain⟩ := normalise_normal_form (toLowerCase text).data hu
  refine ⟨?_, hhead, hlast, hchain, ?_⟩
  · intro c hc
    rcases hmem c hc with (h | h | h) | h
    · exact Or.inl h
    · exact Or.inr (Or.inl h)
    · exact Or.inr (Or.inr (Or.inl h))
    · exact Or.inr (Or.inr (Or.inr h))
  · show String.mk (trim (collapseSpaces (replaceNonWord
        (toLowerCase (preprocessText text)).data))) = preprocessText text
    have hascii : ∀ c ∈ (preprocessText text).data, c.toNat < 128 := by
      intro c hc
      rcases hmem c hc with h | h
      · exact wordLike_ascii c h
      · rw [h]
        decide
    have h1 : (toLowerCase (preprocessText text)).data = (preprocessText text).data := by
      show (CaseMapping.lower (preprocessText text)).data = _
      rw [CaseMapping.lower_ascii _ hascii]
      exact map_toLower_normal _ hmem
    rw [h1]
    show String.mk (trim (collapseSpaces (replaceNonWord
        (trim (collapseSpaces (replaceNonWord (toLowerCase text).data)))))) = _
    rw [replaceNonWord_normal _ hmem, collapseSpaces_normal _ hmem hlast hchain,
      trim_normal _ hmem hhead hlast]
    rfl

/-! ## The location bonus -/

theorem locationRuleMatches_iff [CaseMapping] (job : Job) (userProfile : UserProfile) :
    locationRuleMatches job userProfile = true ↔
      ∃ text location place, job.location = some text ∧
        (userProfile.basic.bind fun basic => basic.location) = some location ∧
        firstNonEmpty [location.city, location.state, location.country] = some place ∧
        includes (toLowerCase text) (toLowerCase place) = true := by
  unfold locationRuleMatches
  rcases hj : job.location with _ | text
  · simp
  · rcases hl : (userProfile.basic.bind fun basic => basic.location) with _ | location
    · simp
    · rcases hp : firstNonEmpty [location.city, location.state, location.country] with _ | place
      · simp [hp]
      · simp [hp]

/-- C27: when the remote bonus does not apply, the location adjustment of
`calculateMatchScore` adds 10 if and only if the job has a location text and the
first non-empty value among the candidate's city, state and country, in that
order, occurs in it, both lower-cased, and adds nothing otherwise; so it adds
nothing when the city is not empty and does not occur in the text, whatever the
state and the country are, when all three are empty or undefined, when the
candidate has no location, and when the job has no location. -/
theorem locationAdjustment_first_non_empty [CaseMapping] (μ : Measure) (engine : JobMatchingEngine)
    (job : Job) (userProfile : UserProfile) (adjustedScore : ℤ)
    (hremote : remoteBonusApplies job userProfile = false) :
    (engine.calculateMatchScore μ job userProfile).1 =
        min 100 (employmentAdjustment job userProfile
          (locationAdjustment job userProfile
            (finalScore μ (scorerFor job userProfile) (userTerms userProfile)))) ∧
      (locationAdjustment job userProfile adjustedScore = adjustedScore + 10 ↔
        ∃ text location place, job.location = some text ∧
          (userProfile.basic.bind fun basic => basic.location) = some location ∧
          firstNonEmpty [location.city, location.state, location.country] = some place ∧
          includes (toLowerCase text) (toLowerCase place) = true) ∧
      (locationAdjustment job userProfile adjustedScore = adjustedScore + 10 ∨
        locationAdjustment job userProfile adjustedScore = adjustedScore) ∧
      (∀ location city,
        (userProfile.basic.bind fun basic => basic.location) = some location →
        location.city = some city → city ≠ "" →
        (∀ text, job.location = some text →
          includes (toLowerCase text) (toLowerCase city) = false) →
        locationAdjustment job userProfile adjustedScore = adjustedScore) ∧
      (∀ location,
        (userProfile.basic.bind fun basic => basic.location) = some location →
        firstNonEmpty [location.city, location.state, location.country] = none →
        locationAdjustment job userProfile adjustedScore = adjustedScore) ∧
      ((userProfile.basic.bind fun basic => basic.location) = none →
        locationAdjustment job userProfile adjustedScore = adjustedScore) ∧
      (job.location = none →
        locationAdjustment job userProfile adjustedScore = adjustedScore) := by
  have hadj : locationAdjustment job userProfile adjustedScore =
      adjustedScore + if locationRuleMatches job userProfile = true then 10 else 0 := by
    rw [locationAdjustment_eq, hremote]
    simp
  have hno : locationRuleMatches job userProfile = false →
      locationAdjustment job userProfile adjustedScore = adjustedScore := by
    intro h
    rw [hadj, h]
    simp
  have hnot : (¬ ∃ text location place, job.location = some text ∧
      (userProfile.basic.bind fun basic => basic.location) = some location ∧
      firstNonEmpty [location.city, location.state, location.country] = some place ∧
      includes (toLowerCase text) (toLowerCase place) = true) →
      locationAdjustment job userProfile adjustedScore = adjustedScore := by
    intro h
    apply hno
    rw [Bool.eq_false_iff]
    exact fun hm => h ((locationRuleMatches_iff job userProfile).mp hm)
  refine ⟨rfl, ?_, ?_, ?_, ?_, ?_, ?_⟩
  · rw [hadj, ← locationRuleMatches_iff]
    by_cases h : locationRuleMatches job userProfile = true
    · simp [h]
    · simp [h]
  · rw [hadj]
    by_cases h : locationRuleMatches job userProfile = true
    · left; simp [h]
    · right; simp [h]
  · intro location city hl hc hne hnotin
    apply hnot
    rintro ⟨text, location', place, ht, hl', hp, hin⟩
    rw [hl] at hl'
    cases hl'
    have : place = city := by
      simp only [firstNonEmpty, hc, hne, if_false, Option.some.injEq] at hp
      exact hp.symm
    rw [this, hnotin text ht] at hin
    exact Bool.noConfusion hin
  · intro location hl hnone
    apply hnot
    rintro ⟨text, location', place, -, hl', hp, -⟩
    rw [hl] at hl'
    cases hl'
    rw [hnone] at hp
    exact Option.noConfusion hp
  · intro hnone
    apply hnot
    rintro ⟨text, location', place, -, hl', -, -⟩
    rw [hnone] at hl'
    exact Option.noConfusion hl'
  · intro hnone
    apply hnot
    rintro ⟨text, location', place, ht, -, -, -⟩
    rw [hnone] at ht
    exact Option.noConfusion ht

/-- C27, at a job in Austin, Texas, USA and a candidate in Dallas, Texas, USA:
the state and the country occur in the job's location, the city does not, and
nothing is added. -/
theorem locationAdjustment_first_non_empty_witness :
    remoteBonusApplies austinJob dallasProfile = false ∧
      locationAdjustment austinJob dallasProfile 50 = 50 ∧
      includes (toLowerCase "Austin, Texas, USA") (toLowerCase "Texas") = true ∧
      includes (toLowerCase "Austin, Texas, USA") (toLowerCase "USA") = true ∧
      includes (toLowerCase "Austin, Texas, USA") (toLowerCase "Dallas") = false :=
  ⟨by decide,
    (locationAdjustment_first_non_empty unitMeasure JobMatchingEngine.create austinJob
      dallasProfile 50 (by decide)).2.2.2.1 ⟨some "Dallas", some "Texas", some "USA"⟩ "Dallas"
      (by decide) rfl (by decide) (by
        intro text ht
        cases ht
        decide),
    by decide, by decide, by decide⟩

/-! ## The skill gap analysis -/

namespace RoleRecommendationEngine

theorem findOne_eq_none_iff (roleStore : List Role) (targetRole : String) :
    Role.findOne roleStore targetRole = none ↔ ∀ role ∈ roleStore, role.title ≠ targetRole := by
  simp [Role.findOne]

theorem findOne_some (roleStore : List Role) (targetRole : String) (role : Role)
    (h : Role.findOne roleStore targetRole = some role) :
    role ∈ roleStore ∧ role.title = targetRole := by
  unfold Role.findOne at h
  exact ⟨List.mem_of_find?_eq_some h, by simpa using List.find?_some h⟩

/-- The value returned when the role is found and `toObject` succeeds. -/
theorem generateSkillGapAnalysis_found [CaseMapping] (toObject : Role → Except String Role)
    (roleStore : List Role) (targetRole : String) (userSkills : List Skill) (role object : Role)
    (hfound : Role.findOne roleStore targetRole = some role)
    (htoObject : toObject role = .ok object) :
    generateSkillGapAnalysis toObject roleStore targetRole userSkills =
      .ok
        { role := object
          missingRequiredSkills := role.requiredSkills.filter fun skill =>
            !(userSkills.map fun skill => toLowerCase skill.name).contains (toLowerCase skill)
          missingRelatedSkills := role.relatedSkills.filter fun skill =>
            !(userSkills.map fun skill => toLowerCase skill.name).contains (toLowerCase skill)
          matchPercentage :=
            matchPercentage
              (role.requiredSkills.filter fun skill =>
                !(userSkills.map fun skill => toLowerCase skill.name).contains
                  (toLowerCase skill)).length
              role.requiredSkills.length } := by
  simp only [generateSkillGapAnalysis, hfound, htoObject, logAndRethrow]

/-- The value returned when no stored role has the title. -/
theorem generateSkillGapAnalysis_not_found [CaseMapping] (toObject : Role → Except String Role)
    (roleStore : List Role) (targetRole : String) (userSkills : List Skill)
    (hnone : Role.findOne roleStore targetRole = none) :
    generateSkillGapAnalysis toObject roleStore targetRole userSkills =
      .error ("Role not found: " ++ targetRole) := by
  simp only [generateSkillGapAnalysis, hnone, logAndRethrow]

/-- The test of the two filters says that no candidate skill has the same
lower-cased name. -/
theorem not_contains_lowered [CaseMapping] (userSkills : List Skill) (skill : String) :
    (!(userSkills.map fun skill => toLowerCase skill.name).contains (toLowerCase skill)) =
      decide (∀ candidate ∈ userSkills, toLowerCase candidate.name ≠ toLowerCase skill) := by
  rw [Bool.eq_iff_iff]
  simp only [Bool.not_eq_true', decide_eq_true_eq]
  constructor
  · intro h candidate hc heq
    have : toLowerCase skill ∈ userSkills.map fun skill => toLowerCase skill.name :=
      List.mem_map.mpr ⟨candidate, hc, heq⟩
    have h2 : (userSkills.map fun skill => toLowerCase skill.name).contains
        (toLowerCase skill) = true := List.elem_eq_true_of_mem this
    rw [h2] at h
    exact Bool.noConfusion h
  · intro h
    rw [Bool.eq_false_iff]
    intro hc
    have hmem : toLowerCase skill ∈ userSkills.map fun skill => toLowerCase skill.name := by
      simpa using hc
    obtain ⟨candidate, hcand, heq⟩ := List.mem_map.mp hmem
    exact h candidate hcand heq

/-- The double value of `(1 - m / n) * 100` for `m ≤ n`: it lies between 0 and
100 and within `2 ^ (-44)` of the exact value. -/
theorem percentage_double (missing required : ℕ) (hne : required ≠ 0)
    (hle : missing ≤ required) :
    0 ≤ fmul (fsub 1 (fdiv missing required)) 100 ∧
      fmul (fsub 1 (fdiv missing required)) 100 ≤ 100 ∧
      |fmul (fsub 1 (fdiv missing required)) 100 -
        (1 - (missing : ℚ) / (required : ℚ)) * 100| ≤ 1 / 2 ^ 44 := by
  have hpos : (0 : ℚ) < required := by exact_mod_cast Nat.pos_of_ne_zero hne
  have hq0 : (0 : ℚ) ≤ (missing : ℚ) / required := div_nonneg (Nat.cast_nonneg _) hpos.le
  have hq1 : (missing : ℚ) / required ≤ 1 := by
    rw [div_le_one hpos]
    exact_mod_cast hle
  -- the quotient
  have hQ0 : 0 ≤ fdiv missing required := toDouble_nonneg hq0
  have hQ1 : fdiv missing required ≤ 1 := by
    have := toDouble_mono hq0 hq1
    rwa [toDouble_one] at this
  have hQe : |fdiv missing required - (missing : ℚ) / required| ≤ (2 : ℚ) ^ ((0 : ℤ) - 53) :=
    toDouble_sub_abs_le 0 hq0 (by simpa using hq1) (by norm_num)
  -- the difference
  have hd0 : 0 ≤ 1 - fdiv missing required := by linarith
  have hd1 : 1 - fdiv missing required ≤ 1 := by linarith
  have hD0 : 0 ≤ fsub 1 (fdiv missing required) := toDouble_nonneg hd0
  have hD1 : fsub 1 (fdiv missing required) ≤ 1 := by
    have := toDouble_mono hd0 hd1
    rwa [toDouble_one] at this
  have hDe : |fsub 1 (fdiv missing required) - (1 - fdiv missing required)| ≤
      (2 : ℚ) ^ ((0 : ℤ) - 53) :=
    toDouble_sub_abs_le 0 hd0 (by simpa using hd1) (by norm_num)
  -- the product
  have he0 : 0 ≤ fsub 1 (fdiv missing required) * 100 := by positivity
  have he1 : fsub 1 (fdiv missing required) * 100 ≤ 100 := by linarith
  have hE0 : 0 ≤ fmul (fsub 1 (fdiv missing required)) 100 := toDouble_nonneg he0
  have hE1 : fmul (fsub 1 (fdiv missing required)) 100 ≤ 100 := by
    have := toDouble_mono he0 he1
    rwa [toDouble_hundred] at this
  have hEe : |fmul (fsub 1 (fdiv missing required)) 100 -
      fsub 1 (fdiv missing required) * 100| ≤ (2 : ℚ) ^ ((7 : ℤ) - 53) :=
    toDouble_sub_abs_le 7 he0 (by norm_num; linarith) (by norm_num)
  refine ⟨hE0, hE1, ?_⟩
  have e1 : (2 : ℚ) ^ ((0 : ℤ) - 53) = 1 / 2 ^ 53 := by norm_num
  have e2 : (2 : ℚ) ^ ((7 : ℤ) - 53) = 1 / 2 ^ 46 := by norm_num
  rw [e1] at hQe hDe
  rw [e2] at hEe
  rw [abs_le] at hQe hDe hEe ⊢
  constructor
  · have : (1 : ℚ) / 2 ^ 46 + 100 * (1 / 2 ^ 53) + 100 * (1 / 2 ^ 53) ≤ 1 / 2 ^ 44 := by norm_num
    linarith [hQe.1, hQe.2, hDe.1, hDe.2, hEe.1, hEe.2]
  · have : (1 : ℚ) / 2 ^ 46 + 100 * (1 / 2 ^ 53) + 100 * (1 / 2 ^ 53) ≤ 1 / 2 ^ 44 := by norm_num
    linarith [hQe.1, hQe.2, hDe.1, hDe.2, hEe.1, hEe.2]

/-- Rounding two numbers that differ by at most 1 gives integers that differ by
at most 1. -/
theorem mathRound_near {x y : ℚ} (h : |x - y| ≤ 1) :
    mathRound y - 1 ≤ mathRound x ∧ mathRound x ≤ mathRound y + 1 := by
  rw [abs_le] at h
  unfold mathRound
  constructor
  · have : ⌊y + 1 / 2⌋ - 1 = ⌊y + 1 / 2 - 1⌋ := (Int.floor_sub_one _).symm
    rw [this]
    exact Int.floor_mono (by linarith)
  · have : ⌊y + 1 / 2⌋ + 1 = ⌊y + 1 / 2 + 1⌋ := (Int.floor_add_one _).symm
    rw [this]
    exact Int.floor_mono (by linarith)

theorem matchPercentage_of_ne (missing required : ℕ) (hne : required ≠ 0) :
    matchPercentage missing required =
      some (mathRound (fmul (fsub 1 (fdiv missing required)) 100)) := by
  simp only [matchPercentage, hne, if_false]

/-- With at least one required skill and no more missing skills than required
ones, the match percentage is a number between 0 and 100. -/
theorem matchPercentage_range (missing required : ℕ) (hne : required ≠ 0)
    (hle : missing ≤ required) :
    ∃ p, matchPercentage missing required = some p ∧ 0 ≤ p ∧ p ≤ 100 := by
  obtain ⟨h0, h100, -⟩ := percentage_double missing required hne hle
  refine ⟨_, matchPercentage_of_ne missing required hne, mathRound_nonneg h0, ?_⟩
  have := mathRound_mono h100
  rwa [mathRound_hundred] at this

/-- With the same required skills, fewer missing skills give a match percentage
that is not smaller. -/
theorem matchPercentage_mono (missing missing' required : ℕ) (hne : required ≠ 0)
    (hle : missing' ≤ missing) (hreq : missing ≤ required) :
    ∃ p p', matchPercentage missing required = some p ∧
      matchPercentage missing' required = some p' ∧ p ≤ p' := by
  have hpos : (0 : ℚ) < required := by exact_mod_cast Nat.pos_of_ne_zero hne
  refine ⟨_, _, matchPercentage_of_ne missing required hne,
    matchPercentage_of_ne missing' required hne, ?_⟩
  apply mathRound_mono
  have hq : (missing' : ℚ) / required ≤ (missing : ℚ) / required :=
    div_le_div_of_nonneg_right (by exact_mod_cast hle) hpos.le
  have hq0 : (0 : ℚ) ≤ (missing' : ℚ) / required := div_nonneg (Nat.cast_nonneg _) hpos.le
  have hq1 : (missing : ℚ) / required ≤ 1 := by
    rw [div_le_one hpos]
    exact_mod_cast hreq
  have hQ : fdiv missing' required ≤ fdiv missing required := toDouble_mono hq0 hq
  have hQ1 : fdiv missing required ≤ 1 := by
    have := toDouble_mono (hq0.trans hq) hq1
    rwa [toDouble_one] at this
  have hD : fsub 1 (fdiv missing required) ≤ fsub 1 (fdiv missing' required) :=
    toDouble_mono (by linarith) (by linarith)
  have hD0 : 0 ≤ fsub 1 (fdiv missing required) := toDouble_nonneg (by linarith)
  exact toDouble_mono (by positivity) (by linarith)

/-- C21: when `toObject` returns the fields of the stored roles,
`generateSkillGapAnalysis` fails if and only if no stored role has exactly the
target title, and the error is then `Role not found:` followed by the title;
when a stored role has the title, it returns an analysis whose field `role` is
the first such role, unchanged. -/
theorem generateSkillGapAnalysis_not_found_iff [CaseMapping] (toObject : Role → Except String Role)
    (roleStore : List Role) (targetRole : String) (userSkills : List Skill)
    (htoObject : ∀ role ∈ roleStore, toObject role = .ok role) :
    ((∃ error, generateSkillGapAnalysis toObject roleStore targetRole userSkills =
        .error error) ↔ ∀ role ∈ roleStore, role.title ≠ targetRole) ∧
      (generateSkillGapAnalysis toObject roleStore targetRole userSkills =
        .error ("Role not found: " ++ targetRole) ↔
          ∀ role ∈ roleStore, role.title ≠ targetRole) ∧
      ∀ role, roleStore.find? (fun stored => stored.title = targetRole) = some role →
        ∃ analysis, generateSkillGapAnalysis toObject roleStore targetRole userSkills =
          .ok analysis ∧ analysis.role = role := by
  rcases hfind : Role.findOne roleStore targetRole with _ | role
  · have hnone := (findOne_eq_none_iff roleStore targetRole).mp hfind
    have herr := generateSkillGapAnalysis_not_found toObject roleStore targetRole userSkills hfind
    refine ⟨⟨fun _ => hnone, fun _ => ⟨_, herr⟩⟩, ⟨fun _ => hnone, fun _ => herr⟩, ?_⟩
    intro role hrole
    unfold Role.findOne at hfind
    rw [hfind] at hrole
    exact Option.noConfusion hrole
  · obtain ⟨hmem, htitle⟩ := findOne_some roleStore targetRole role hfind
    have hok := generateSkillGapAnalysis_found toObject roleStore targetRole userSkills role role
      hfind (htoObject role hmem)
    refine ⟨⟨?_, ?_⟩, ⟨?_, ?_⟩, ?_⟩
    · rintro ⟨error, herr⟩
      rw [hok] at herr
      exact Except.noConfusion herr
    · intro hnone
      exact absurd htitle (hnone role hmem)
    · intro herr
      rw [hok] at herr
      exact Except.noConfusion herr
    · intro hnone
      exact absurd htitle (hnone role hmem)
    · intro role' hrole'
      unfold Role.findOne at hfind
      rw [hfind] at hrole'
      cases hrole'
      exact ⟨_, hok, rfl⟩

/-- C21, at the seeded roles and the title Data Scientist. -/
theorem generateSkillGapAnalysis_not_found_iff_witness :
    (∀ role ∈ seedRoles, (Except.ok role : Except String Role) = .ok role) ∧
    ((∃ error, generateSkillGapAnalysis Except.ok seedRoles "Data Scientist"
        [{ name := "python" }] = .error error) ↔
      ∀ role ∈ seedRoles, role.title ≠ "Data Scientist") ∧
    (generateSkillGapAnalysis Except.ok seedRoles "Data Scientist" [{ name := "python" }] =
        .error ("Role not found: " ++ "Data Scientist") ↔
      ∀ role ∈ seedRoles, role.title ≠ "Data Scientist") ∧
    ∀ role, seedRoles.find? (fun stored => stored.title = "Data Scientist") = some role →
      ∃ analysis, generateSkillGapAnalysis Except.ok seedRoles "Data Scientist"
        [{ name := "python" }] = .ok analysis ∧ analysis.role = role :=
  ⟨fun _ _ => rfl,
    generateSkillGapAnalysis_not_found_iff Except.ok seedRoles "Data Scientist"
      [{ name := "python" }] fun _ _ => rfl⟩

/-- C22: for a stored role, `generateSkillGapAnalysis` returns as
`missingRequiredSkills` the required skills of the role, in their order and
spelling, whose lower-cased name is the lower-cased name of no candidate skill,
and as `missingRelatedSkills` the related skills of the role with the same
restriction. -/
theorem generateSkillGapAnalysis_missing [CaseMapping] (toObject : Role → Except String Role)
    (roleStore : List Role) (targetRole : String) (userSkills : List Skill) (role object : Role)
    (hfound : Role.findOne roleStore targetRole = some role)
    (htoObject : toObject role = .ok object) :
    ∃ analysis,
      generateSkillGapAnalysis toObject roleStore targetRole userSkills = .ok analysis ∧
      analysis.missingRequiredSkills =
        role.requiredSkills.filter (fun skill =>
          decide (∀ candidate ∈ userSkills,
            toLowerCase candidate.name ≠ toLowerCase skill)) ∧
      analysis.missingRelatedSkills =
        role.relatedSkills.filter (fun skill =>
          decide (∀ candidate ∈ userSkills,
            toLowerCase candidate.name ≠ toLowerCase skill)) := by
  refine ⟨_, generateSkillGapAnalysis_found toObject roleStore targetRole userSkills role object
    hfound htoObject, ?_, ?_⟩
  · simp only [not_contains_lowered]
  · simp only [not_contains_lowered]

/-- C22, at the seeded role Data Scientist and the candidate skills python and
sql: the missing required skills are Statistics, Machine Learning and Data
Analysis. -/
theorem generateSkillGapAnalysis_missing_witness :
    Role.findOne seedRoles "Data Scientist" = some (seedRoles.getD 1 (bareRole "" [])) ∧
    (Except.ok (seedRoles.getD 1 (bareRole "" [])) : Except String Role) =
      .ok (seedRoles.getD 1 (bareRole "" [])) ∧
    (∃ analysis,
      generateSkillGapAnalysis Except.ok seedRoles "Data Scientist"
        [{ name := "python" }, { name := "sql" }] = .ok analysis ∧
      analysis.missingRequiredSkills =
        (seedRoles.getD 1 (bareRole "" [])).requiredSkills.filter (fun skill =>
          decide (∀ candidate ∈ [({ name := "python" } : Skill), { name := "sql" }],
            toLowerCase candidate.name ≠ toLowerCase skill)) ∧
      analysis.missingRelatedSkills =
        (seedRoles.getD 1 (bareRole "" [])).relatedSkills.filter (fun skill =>
          decide (∀ candidate ∈ [({ name := "python" } : Skill), { name := "sql" }],
            toLowerCase candidate.name ≠ toLowerCase skill))) ∧
    (seedRoles.getD 1 (bareRole "" [])).requiredSkills.filter (fun skill =>
        decide (∀ candidate ∈ [({ name := "python" } : Skill), { name := "sql" }],
          toLowerCase candidate.name ≠ toLowerCase skill)) =
      ["Statistics", "Machine Learning", "Data Analysis"] :=
  ⟨by decide, rfl,
    generateSkillGapAnalysis_missing Except.ok seedRoles "Data Scientist"
      [{ name := "python" }, { name := "sql" }] (seedRoles.getD 1 (bareRole "" []))
      (seedRoles.getD 1 (bareRole "" [])) (by decide) rfl,
    by decide⟩

/-- C23, as stated, fails: for a stored role with 40 required skills and a
candidate who has 23 of them, 17 are missing and `(1 - 17 / 40) * 100` is 57.5,
which rounds to 58, halves going up; the code returns 57, because the double
quotient, difference and product give a number just below 57.5. -/
theorem generateSkillGapAnalysis_matchPercentage_below_half :
    (generateSkillGapAnalysis Except.ok generalistRoles "Generalist"
        generalistSkills).toOption.map
      (fun analysis => (analysis.missingRequiredSkills.length, analysis.matchPercentage)) =
        some (17, some 57) ∧
      (generalistRoles.map fun role => role.requiredSkills.length) = [40] ∧
      mathRound ((1 - (17 : ℚ) / 40) * 100) = 58 ∧
      fmul (fsub 1 (fdiv 17 40)) 100 < 115 / 2 := by
  decide!

/-- C23, amended: for a stored role with at least one required skill,
`generateSkillGapAnalysis` returns as `matchPercentage` the number
`Math.round(x)`, halves going up, where `x` is the double value of
`(1 - m / n) * 100`, with `m` the number of missing required skills and `n` the
number of required skills: the quotient, the difference and the product are
each rounded to the nearest double. That value is within `2 ^ (-44)` of the
exact one, and the number returned differs by at most 1 from the exact value
rounded. -/
theorem generateSkillGapAnalysis_matchPercentage [CaseMapping]
    (toObject : Role → Except String Role) (roleStore : List Role) (targetRole : String)
    (userSkills : List Skill) (role object : Role)
    (hfound : Role.findOne roleStore targetRole = some role)
    (htoObject : toObject role = .ok object) (hne : role.requiredSkills ≠ []) :
    ∃ analysis p,
      generateSkillGapAnalysis toObject roleStore targetRole userSkills = .ok analysis ∧
      analysis.matchPercentage = some p ∧
      p = mathRound (fmul (fsub 1 (fdiv analysis.missingRequiredSkills.length
        role.requiredSkills.length)) 100) ∧
      |fmul (fsub 1 (fdiv analysis.missingRequiredSkills.length
          role.requiredSkills.length)) 100 -
        (1 - (analysis.missingRequiredSkills.length : ℚ) /
          (role.requiredSkills.length : ℚ)) * 100| ≤ 1 / 2 ^ 44 ∧
      mathRound ((1 - (analysis.missingRequiredSkills.length : ℚ) /
          (role.requiredSkills.length : ℚ)) * 100) - 1 ≤ p ∧
      p ≤ mathRound ((1 - (analysis.missingRequiredSkills.length : ℚ) /
          (role.requiredSkills.length : ℚ)) * 100) + 1 := by
  have hlen : role.requiredSkills.length ≠ 0 := fun h => hne (List.length_eq_zero.mp h)
  have herr := (percentage_double
    (role.requiredSkills.filter fun skill =>
      !(userSkills.map fun skill => toLowerCase skill.name).contains
        (toLowerCase skill)).length
    role.requiredSkills.length hlen (List.length_filter_le _ _)).2.2
  have hnear := mathRound_near (herr.trans (by norm_num))
  exact ⟨_, _, generateSkillGapAnalysis_found toObject roleStore targetRole userSkills role
    object hfound htoObject, matchPercentage_of_ne _ _ hlen, rfl, herr, hnear.1, hnear.2⟩

/-- C23, amended, at the seeded role Data Scientist and the candidate skills
python and sql: three of the five required skills are missing and the match
percentage is 40. -/
theorem generateSkillGapAnalysis_matchPercentage_witness :
    Role.findOne seedRoles "Data Scientist" = some (seedRoles.getD 1 (bareRole "" [])) ∧
    (seedRoles.getD 1 (bareRole "" [])).requiredSkills ≠ [] ∧
    (∃ analysis p,
      generateSkillGapAnalysis Except.ok seedRoles "Data Scientist"
        [{ name := "python" }, { name := "sql" }] = .ok analysis ∧
      analysis.matchPercentage = some p ∧
      p = mathRound (fmul (fsub 1 (fdiv analysis.missingRequiredSkills.length
        (seedRoles.getD 1 (bareRole "" [])).requiredSkills.length)) 100) ∧
      |fmul (fsub 1 (fdiv analysis.missingRequiredSkills.length
          (seedRoles.getD 1 (bareRole "" [])).requiredSkills.length)) 100 -
        (1 - (analysis.missingRequiredSkills.length : ℚ) /
          ((seedRoles.getD 1 (bareRole "" [])).requiredSkills.length : ℚ)) * 100| ≤
          1 / 2 ^ 44 ∧
      mathRound ((1 - (analysis.missingRequiredSkills.length : ℚ) /
          ((seedRoles.getD 1 (bareRole "" [])).requiredSkills.length : ℚ)) * 100) - 1 ≤ p ∧
      p ≤ mathRound ((1 - (analysis.missingRequiredSkills.length : ℚ) /
          ((seedRoles.getD 1 (bareRole "" [])).requiredSkills.length : ℚ)) * 100) + 1) ∧
    (generateSkillGapAnalysis Except.ok seedRoles "Data Scientist"
        [{ name := "python" }, { name := "sql" }]).toOption.map
      (fun analysis => analysis.matchPercentage) = some (some 40) ∧
    matchPercentage 3 5 = some 40 :=
  ⟨by decide, by decide,
    generateSkillGapAnalysis_matchPercentage Except.ok seedRoles "Data Scientist"
      [{ name := "python" }, { name := "sql" }] (seedRoles.getD 1 (bareRole "" []))
      (seedRoles.getD 1 (bareRole "" [])) (by decide) rfl (by decide),
    by decide!, by decide!⟩

/-- C24, at a stored role without required skills: `generateSkillGapAnalysis`
divides 0 by 0 and returns `NaN` as `matchPercentage`, not 100. -/
theorem generateSkillGapAnalysis_no_required_skills :
    generateSkillGapAnalysis Except.ok rolesWithIntern "Intern" [{ name := "python" }] =
      .ok { role := bareRole "Intern" [], missingRequiredSkills := [],
            missingRelatedSkills := [], matchPercentage := none } := by
  decide!

/-- C25, at a stored role without required skills and a candidate without
skills: the `matchPercentage` returned is `NaN`, so it is no number between 0
and 100. -/
theorem generateSkillGapAnalysis_percentage_not_a_number :
    (generateSkillGapAnalysis Except.ok rolesWithIntern "Intern" []).toOption.map
        (fun analysis => analysis.matchPercentage) = some none ∧
      ¬ ∃ analysis p,
        generateSkillGapAnalysis Except.ok rolesWithIntern "Intern" [] = .ok analysis ∧
          analysis.matchPercentage = some p ∧ 0 ≤ p ∧ p ≤ 100 := by
  have h : generateSkillGapAnalysis Except.ok rolesWithIntern "Intern" [] =
      .ok { role := bareRole "Intern" [], missingRequiredSkills := [],
            missingRelatedSkills := [], matchPercentage := none } := by decide!
  refine ⟨by rw [h]; rfl, ?_⟩
  rintro ⟨analysis, p, hok, hp, -⟩
  rw [h] at hok
  cases hok
  exact Option.noConfusion hp

/-- For a stored role with at least one required skill the match percentage is
a number between 0 and 100. -/
theorem generateSkillGapAnalysis_range [CaseMapping] (toObject : Role → Except String Role)
    (roleStore : List Role) (targetRole : String) (userSkills : List Skill) (role object : Role)
    (hfound : Role.findOne roleStore targetRole = some role)
    (htoObject : toObject role = .ok object) (hne : role.requiredSkills ≠ []) :
    ∃ analysis p,
      generateSkillGapAnalysis toObject roleStore targetRole userSkills = .ok analysis ∧
      analysis.matchPercentage = some p ∧ 0 ≤ p ∧ p ≤ 100 := by
  have hlen : role.requiredSkills.length ≠ 0 := fun h => hne (List.length_eq_zero.mp h)
  obtain ⟨p, hp, h0, h100⟩ := matchPercentage_range
    (role.requiredSkills.filter fun skill =>
      !(userSkills.map fun skill => toLowerCase skill.name).contains
        (toLowerCase skill)).length
    role.requiredSkills.length hlen (List.length_filter_le _ _)
  exact ⟨_, p, generateSkillGapAnalysis_found toObject roleStore targetRole userSkills role
    object hfound htoObject, hp, h0, h100⟩

/-- C30: for a stored role with at least one required skill, when every skill
of one candidate list is in another, the analysis for the larger list has its
missing required skills and its missing related skills among those of the
analysis for the smaller list, in the same order, and a match percentage that
is not smaller. -/
theorem generateSkillGapAnalysis_monotone [CaseMapping] (toObject : Role → Except String Role)
    (roleStore : List Role) (targetRole : String) (userSkills moreSkills : List Skill)
    (role object : Role)
    (hfound : Role.findOne roleStore targetRole = some role)
    (htoObject : toObject role = .ok object) (hne : role.requiredSkills ≠ [])
    (hmore : ∀ skill ∈ userSkills, skill ∈ moreSkills) :
    ∃ analysis analysis' p p',
      generateSkillGapAnalysis toObject roleStore targetRole userSkills = .ok analysis ∧
      generateSkillGapAnalysis toObject roleStore targetRole moreSkills = .ok analysis' ∧
      analysis'.missingRequiredSkills.Sublist analysis.missingRequiredSkills ∧
      analysis'.missingRelatedSkills.Sublist analysis.missingRelatedSkills ∧
      analysis.matchPercentage = some p ∧ analysis'.matchPercentage = some p' ∧ p ≤ p' := by
  have hlen : role.requiredSkills.length ≠ 0 := fun h => hne (List.length_eq_zero.mp h)
  have hsub : ∀ skills : List String,
      (skills.filter fun skill =>
        !(moreSkills.map fun skill => toLowerCase skill.name).contains
          (toLowerCase skill)).Sublist
        (skills.filter fun skill =>
          !(userSkills.map fun skill => toLowerCase skill.name).contains
            (toLowerCase skill)) := by
    intro skills
    apply List.monotone_filter_right
    intro skill
    rw [not_contains_lowered, not_contains_lowered]
    simp only [decide_eq_true_eq]
    intro h candidate hc
    exact h candidate (hmore candidate hc)
  obtain ⟨p, p', hp, hp', hle⟩ := matchPercentage_mono _ _ role.requiredSkills.length hlen
    (hsub role.requiredSkills).length_le (List.length_filter_le _ _)
  exact ⟨_, _, p, p',
    generateSkillGapAnalysis_found toObject roleStore targetRole userSkills role object hfound
      htoObject,
    generateSkillGapAnalysis_found toObject roleStore targetRole moreSkills role object hfound
      htoObject,
    hsub _, hsub _, hp, hp', hle⟩

/-- C30, at the seeded role Data Scientist, for the candidate skills python and
then python and sql. -/
theorem generateSkillGapAnalysis_monotone_witness :
    Role.findOne seedRoles "Data Scientist" = some (seedRoles.getD 1 (bareRole "" [])) ∧
    (seedRoles.getD 1 (bareRole "" [])).requiredSkills ≠ [] ∧
    (∀ skill ∈ [({ name := "python" } : Skill)],
      skill ∈ [({ name := "python" } : Skill), { name := "sql" }]) ∧
    ∃ analysis analysis' p p',
      generateSkillGapAnalysis Except.ok seedRoles "Data Scientist" [{ name := "python" }] =
        .ok analysis ∧
      generateSkillGapAnalysis Except.ok seedRoles "Data Scientist"
        [{ name := "python" }, { name := "sql" }] = .ok analysis' ∧
      analysis'.missingRequiredSkills.Sublist analysis.missingRequiredSkills ∧
      analysis'.missingRelatedSkills.Sublist analysis.missingRelatedSkills ∧
      analysis.matchPercentage = some p ∧ analysis'.matchPercentage = some p' ∧ p ≤ p' :=
  ⟨by decide, by decide, by decide,
    generateSkillGapAnalysis_monotone Except.ok seedRoles "Data Scientist"
      [{ name := "python" }] [{ name := "python" }, { name := "sql" }]
      (seedRoles.getD 1 (bareRole "" [])) (seedRoles.getD 1 (bareRole "" [])) (by decide) rfl
      (by decide) (by decide)⟩

end RoleRecommendationEngine

/-! ## The tally of `identifyMissingCoreSkills`, skill by skill -/

theorem Props.lookup_of_mem {α : Type} (object : Props α) (key : String) (value : α)
    (hnd : (object.map Prod.fst).Nodup) (hmem : (key, value) ∈ object) :
    object.lookup key = some value := by
  induction object with
  | nil => simp at hmem
  | cons p rest ih =>
    obtain ⟨k, v⟩ := p
    rw [List.map_cons, List.nodup_cons] at hnd
    rcases List.mem_cons.mp hmem with h | h
    · cases h
      simp [List.lookup]
    · have hne : key ≠ k := by
        intro hk
        exact hnd.1 (hk ▸ List.mem_map.mpr ⟨(key, value), h, rfl⟩)
      have hb : (key == k) = false := by simpa using hne
      simp only [List.lookup, hb]
      exact ih hnd.2 h

namespace SkillAnalysisEngine

/-- The counter of a required skill, for a name that is not inherited from
`Object.prototype`: the number of occurrences of the skill in the required
skills of the roles, which is the number of roles that list it when no role
lists a skill twice. -/
theorem skillCounts_lookup (roles : List Role) (skill : String)
    (hmem : skill ∈ roles.flatMap fun role => role.requiredSkills)
    (hp : skill ∉ objectPrototypeKeys) :
    (skillCounts roles).lookup skill =
        some (some ((roles.flatMap fun role => role.requiredSkills).count skill)) ∧
      ((∀ role ∈ roles, role.requiredSkills.Nodup) →
        (skillCounts roles).lookup skill =
          some (some (roles.filter fun role => role.requiredSkills.contains skill).length)) := by
  obtain ⟨hnd, hc, hs⟩ := foldl_countSkill_spec (roles.flatMap fun role => role.requiredSkills)
  rw [← skillCounts_eq_foldl] at hnd hc hs
  have hproto : skill ≠ "__proto__" := fun h => hp (h ▸ by decide)
  obtain ⟨p, hpm, hfst⟩ := List.mem_map.mp (hc skill hmem hproto)
  obtain ⟨k, v⟩ := p
  simp only at hfst
  subst hfst
  have hv := (hs _ hpm).2.2.1 hp
  simp only at hv
  subst hv
  have h1 := Props.lookup_of_mem _ _ _ hnd hpm
  refine ⟨h1, fun hnodup => ?_⟩
  rw [h1, count_flatMap_requiredSkills roles _ hnodup]

/-- C28, at two roles the first of which lists Python twice: the counter of
Python is 2 although one role lists it, and with the threshold 1.4 the skill is
returned as a missing core skill. -/
theorem skillCounts_counts_occurrences :
    (skillCounts duplicateSkillRoles).lookup "Python" = some (some 2) ∧
      (duplicateSkillRoles.filter fun role => role.requiredSkills.contains "Python").length =
        1 ∧
      Role.find duplicateSkillRoles ["Data Engineer", "Platform Engineer"] =
        duplicateSkillRoles ∧
      identifyMissingCoreSkills duplicateSkillRoles ["Data Engineer", "Platform Engineer"] [] =
        ["Python"] := by
  decide!

/-- When a matched mapping lists a role whose title is not inherited from
`Object.prototype`, the ranked sequence is not empty. -/
theorem sortedRoles_ne_nil (skillMappings : List SkillToRole) (mapping : SkillToRole)
    (role : RoleRelevance) (hm : mapping ∈ skillMappings) (hr : role ∈ mapping.roles)
    (hp : role.title ∉ objectPrototypeKeys) : sortedRoles skillMappings ≠ [] := by
  have hc := (foldl_countRole_spec (skillMappings.flatMap fun mapping => mapping.roles)).2.1
    role (List.mem_flatMap.mpr ⟨mapping, hm, hr⟩) hp
  rw [← roleCounts_eq_foldl] at hc
  intro hnil
  have hperm := sortedRoles_perm skillMappings
  rw [hnil] at hperm
  have := hperm.symm.eq_nil
  rw [List.map_eq_nil_iff] at this
  rw [this] at hc
  simp at hc

theorem nearTop_self (top : RankedRole) : nearTop top top = true := by
  rw [nearTop_iff]
  left
  exact fmul_count_le top.count

/-- When a matched mapping lists a role whose title is not inherited from
`Object.prototype`, the primary cluster holds the title of the top-ranked role;
and when a ranked role is outside the primary cluster, the secondary cluster
holds the title of the highest-ranked such role. -/
theorem identifySkillClusters_contains_top (skillToRoles : List SkillToRole)
    (skillNames : List String) (mapping : SkillToRole) (role : RoleRelevance)
    (hm : mapping ∈ SkillToRole.find skillToRoles skillNames) (hr : role ∈ mapping.roles)
    (hp : role.title ∉ objectPrototypeKeys) :
    ∃ top rest primary secondary,
      sortedRoles (SkillToRole.find skillToRoles skillNames) = top :: rest ∧
      identifySkillClusters skillToRoles skillNames = [primary, secondary] ∧
      top.title ∈ primary ∧
      ∀ next, (top :: rest).find? (fun ranked => !primary.contains ranked.title) = some next →
        next.title ∈ secondary := by
  have hne := sortedRoles_ne_nil _ mapping role hm hr hp
  unfold identifySkillClusters
  simp only
  rcases hs : sortedRoles (SkillToRole.find skillToRoles skillNames) with _ | ⟨top, rest⟩
  · exact absurd hs hne
  · refine ⟨top, rest, _, _, rfl, groupIntoClusters_cons top rest, ?_, ?_⟩
    · exact List.mem_map.mpr ⟨top, List.mem_filter.mpr ⟨List.mem_cons_self _ _,
        nearTop_self top⟩, rfl⟩
    · intro next hnext
      rw [← List.filter_head?] at hnext
      rcases hrem : (top :: rest).filter (fun ranked =>
          !(((top :: rest).filter (nearTop top)).map fun role => role.title).contains
            ranked.title) with _ | ⟨first, others⟩
      · rw [hrem] at hnext
        exact Option.noConfusion hnext
      · rw [hrem] at hnext ⊢
        simp only [List.head?_cons, Option.some.injEq] at hnext
        subst hnext
        exact List.mem_map.mpr ⟨first, List.mem_filter.mpr ⟨List.mem_cons_self _ _,
          nearTop_self first⟩, rfl⟩

/-- C29, at a mapping whose only role is titled constructor and a candidate
with the skill of that mapping: the matched mapping lists a role, but both
clusters are empty. -/
theorem identifySkillClusters_empty_for_inherited_title :
    (∃ mapping ∈ SkillToRole.find inheritedTitleSkillToRoles ["oop"], mapping.roles ≠ []) ∧
      identifySkillClusters inheritedTitleSkillToRoles ["oop"] = [[], []] := by
  refine ⟨⟨{ skill := "oop", roles := [⟨"constructor", 90⟩] }, by decide!, by simp⟩, by decide!⟩

end SkillAnalysisEngine

end JobEasyO
